import Mathlib

/-!
The webhook catalogue scanner and generator of `paypalc`.

A shallow embedding of `cmd/paypalc/webhook.go`, and of the request path of
`client.go` with the subscription calls of `subscription.go` (section
"HTTP client").

Conventions of the embedding:

* a Go `[]byte` is a `List Nat` (every element a byte value); a `nil` slice and an
  empty slice are both `[]` except where the source tests for `nil`, where the
  result is an `Option`;
* Go `int` values that may hold the sentinel `-1` are `Int`; indices that are
  never negative are `Nat`;
* a function that can panic (index or slice bound out of range) returns an
  `Option`, `none` being the panic.
-/

namespace Paypalc

/-! ## Bytes -/

/-- The UTF-8 bytes of a string literal, as Go's `[]byte("...")`. -/
def bytes (s : String) : List Nat :=
  s.toList.flatMap (fun c => (String.utf8EncodeChar c).map UInt8.toNat)

/-- Go's slice expression `bs[a:b]` (for `a ≤ b ≤ len(bs)`). -/
def slice (bs : List Nat) (a b : Nat) : List Nat :=
  (bs.take b).drop a

/-- Go's `bytes.HasPrefix`. -/
def hasPrefix (s pre : List Nat) : Bool :=
  pre.isPrefixOf s

/-! ## Region extractor -/

/-- The loop of `findBytes`: `rest` is `bs[i:]`. The test `bs[i] == pattern[0]`
panics on an empty pattern. -/
def findBytesFrom (pattern : List Nat) : List Nat → Nat → Option Int
  | [], _ => some (-1)
  | b :: rest, i =>
    match pattern with
    | [] => none
    | p0 :: _ =>
      if b = p0 ∧ hasPrefix (b :: rest) pattern = true then some (i : Int)
      else findBytesFrom pattern rest (i + 1)

/-- The source's `findBytes(bs, pattern)`: index of the first occurrence, or `-1`. -/
def findBytes (bs pattern : List Nat) : Option Int :=
  findBytesFrom pattern bs 0

/-- The section marker `<h2 ` that `findRegion` looks for. -/
def h2Marker : List Nat := bytes "<h2 "

/-- The source's `findRegion(bs, start, end, &i)`. The result is the returned
slice (`none` for `nil`) and the value of the cursor `*i` afterwards; the
outer `none` is a panic. -/
def findRegion (bs start endM : List Nat) (i : Nat) : Option (Option (List Nat) × Nat) :=
  if bs.length < i then none else
  match findBytes (bs.drop i) start with
  | none => none
  | some startIndex =>
    if startIndex = -1 then some (none, i) else
    match findBytes (bs.drop (i + startIndex.toNat)) endM with
    | none => none
    | some endDiff =>
      if endDiff = -1 then some (none, i) else
      match findBytes (bs.drop i) h2Marker with
      | none => none
      | some nextH2 =>
        if nextH2 ≠ 0 ∧ nextH2 ≠ startIndex ∧ nextH2 < startIndex + endDiff then
          some (none, i)
        else
          let i2 := i
          let iNew := i + (startIndex + endDiff + (endM.length : Int)).toNat
          some (some (slice bs (i2 + startIndex.toNat) iNew), iNew)

/-! ## Predicates used to state the properties of the region extractor -/

/-- The pattern `pat` occurs in `bs` at index `k`. -/
def OccursAt (bs pat : List Nat) (k : Nat) : Prop :=
  k ≤ bs.length ∧ pat <+: bs.drop k

instance (bs pat : List Nat) (k : Nat) : Decidable (OccursAt bs pat k) := by
  unfold OccursAt; infer_instance

/-- The index `s` is the first index `≥ c` at which `pat` occurs in `bs`. -/
def FirstOccFrom (bs pat : List Nat) (c s : Nat) : Prop :=
  c ≤ s ∧ OccursAt bs pat s ∧ ∀ k < s, c ≤ k → ¬ OccursAt bs pat k

instance (bs pat : List Nat) (c s : Nat) : Decidable (FirstOccFrom bs pat c s) := by
  unfold FirstOccFrom; infer_instance

/-- The hypotheses of the region contract: non-empty markers, a cursor inside the
buffer, `s` the first start marker at or after the cursor, `e` the first end
marker at or after `s`, and no `<h2 ` beginning strictly between `s` and `e`. -/
def WellDelimited (bs start endM : List Nat) (c s e : Nat) : Prop :=
  start ≠ [] ∧ endM ≠ [] ∧ c ≤ bs.length ∧
  FirstOccFrom bs start c s ∧ FirstOccFrom bs endM s e ∧
  ∀ h < e, s < h → ¬ OccursAt bs h2Marker h

instance (bs start endM : List Nat) (c s e : Nat) :
    Decidable (WellDelimited bs start endM c s e) := by
  unfold WellDelimited; infer_instance

/-! ## Word wrapping -/

/-- Go's `bytes.Split(s, sep)` for a one-byte separator: the pieces of `s`
between the occurrences of `sep` (the empty input gives one empty piece). -/
def splitByte (sep : Nat) : List Nat → List (List Nat)
  | [] => [[]]
  | b :: rest =>
    if b = sep then [] :: splitByte sep rest
    else
      match splitByte sep rest with
      | [] => [[b]]
      | seg :: segs => (b :: seg) :: segs

/-- The `for` loop of `wrap`, run on `rest = bs[i:]` with the current value of
`lastSpace`. The result is the final `lastSpace` and whether the loop left
through the early `return` (a space at an index `i > length`). -/
def wrapScan (length : Int) : List Nat → Nat → Nat → Nat × Bool
  | [], _, lastSpace => (lastSpace, false)
  | b :: rest, i, lastSpace =>
    if b = 32 then
      if (i : Int) > length then (lastSpace, true)
      else wrapScan length rest (i + 1) i
    else wrapScan length rest (i + 1) lastSpace

/-- The source's `wrap` with an explicit bound on the recursion depth. -/
def wrapFuel : Nat → List Nat → Int → List (List Nat)
  | 0, _, _ => []
  | fuel + 1, bs, length =>
    if bs.length = 0 then []
    else if (bs.length : Int) ≤ length then [bs]
    else
      match wrapScan length bs 0 0 with
      | (lastSpace, true) =>
        slice bs 0 lastSpace :: wrapFuel fuel (bs.drop (lastSpace + 1)) length
      | (lastSpace, false) =>
        [slice bs 0 lastSpace, bs.drop (lastSpace + 1)]

/-- The source's `wrap(bs, length)`. Every recursive call is on a strictly
shorter slice, so `len(bs) + 1` levels are enough (`wrap_unfold`). -/
def wrap (bs : List Nat) (length : Int) : List (List Nat) :=
  wrapFuel (bs.length + 1) bs length

/-- Every maximal run of non-space bytes of `bs` has length at most `n`. -/
def TokensWithin (bs : List Nat) (n : Nat) : Prop :=
  ∀ t ∈ splitByte 32 bs, t.length ≤ n

instance (bs : List Nat) (n : Nat) : Decidable (TokensWithin bs n) := by
  unfold TokensWithin; infer_instance

/-! ## Identifier derivation -/

/-- The behaviour of Go's `unicode` tables outside ASCII, which the embedding
does not fix: every property below holds whatever these functions are. -/
structure GoUnicode where
  /-- The value of `unicode.ToTitle(r)` for a rune `r > 0x7F`. -/
  toTitleHigh : Nat → Nat
  /-- The value of `bytes.Map(unicode.ToLower, s)` for an `s` holding a byte `≥ 0x80`. -/
  mapLower : List Nat → List Nat
  /-- Whether `unicode.IsLetter` or `unicode.IsDigit` holds of the rune with the
  given (more than one) UTF-8 bytes. -/
  isWordHigh : List Nat → Bool

/-- An instance used to evaluate the functions on ASCII inputs, where no field
is consulted. -/
def GoUnicode.identity : GoUnicode := ⟨fun r => r, fun s => s, fun _ => false⟩

/-- Go's `unicode.ToTitle`. -/
def unicodeToTitle (u : GoUnicode) (r : Nat) : Nat :=
  if r ≤ 127 then
    if 97 ≤ r ∧ r ≤ 122 then r - 32 else r
  else u.toTitleHigh r

/-- Go's `bytes.ToLower`: the ASCII-only path maps `A..Z` to `a..z`. -/
def bytesToLower (u : GoUnicode) (s : List Nat) : List Nat :=
  if s.all (fun c => decide (c < 128)) then
    s.map (fun c => if 65 ≤ c ∧ c ≤ 90 then c + 32 else c)
  else u.mapLower s

/-- The body of the inner loop of `eventToGolangIdentifier`; `sp2[0]` panics on an
empty sub-segment. -/
def identifierStep (u : GoUnicode) (res sp2 : List Nat) : Option (List Nat) :=
  match sp2 with
  | [] => none
  | c :: tl => some (res ++ [unicodeToTitle u c % 256] ++ bytesToLower u tl)

/-- The source's `eventToGolangIdentifier(s)`; `none` is the panic. -/
def eventToGolangIdentifier (u : GoUnicode) (s : List Nat) : Option (List Nat) :=
  (splitByte 46 s).foldlM
    (fun res sp => (splitByte 45 sp).foldlM (identifierStep u) res) []

/-- An ASCII upper-cased byte. -/
def upperASCII (c : Nat) : Nat := if 97 ≤ c ∧ c ≤ 122 then c - 32 else c

/-- An ASCII lower-cased byte. -/
def lowerASCII (c : Nat) : Nat := if 65 ≤ c ∧ c ≤ 90 then c + 32 else c

/-- Reference definition: a sub-segment with its first character upper-cased and
the remaining characters lower-cased. -/
def capitalize : List Nat → List Nat
  | [] => []
  | c :: tl => upperASCII c :: tl.map lowerASCII

/-- Reference definition of the identifier of a sequence of sub-segments: the
capitalised sub-segments, concatenated in order with no separators. -/
def identifierSpec (segs : List (List Nat)) : List Nat :=
  segs.flatMap capitalize

/-- The event name made of the sub-segment `first` followed by the sub-segments
of `rest`, each preceded by its separator. -/
def joinSegs (first : List Nat) (rest : List (Nat × List Nat)) : List Nat :=
  first ++ rest.flatMap (fun p => p.1 :: p.2)

/-- A non-empty ASCII sub-segment holding neither `.` nor `-`. -/
def SubSegment (seg : List Nat) : Prop :=
  seg ≠ [] ∧ ∀ b ∈ seg, b < 128 ∧ b ≠ 46 ∧ b ≠ 45

instance (seg : List Nat) : Decidable (SubSegment seg) := by
  unfold SubSegment; infer_instance

/-- Every entry of `rest` is a `.` or `-` separator followed by a sub-segment. -/
def SeparatedSegments (rest : List (Nat × List Nat)) : Prop :=
  ∀ p ∈ rest, (p.1 = 46 ∨ p.1 = 45) ∧ SubSegment p.2

instance (rest : List (Nat × List Nat)) : Decidable (SeparatedSegments rest) := by
  unfold SeparatedSegments; infer_instance

/-! ## Text normalisation -/

/-- The source's `Parser`: the text being rewritten. -/
structure Parser where
  /-- The field `bs`. -/
  bs : List Nat
deriving DecidableEq, Repr

/-- The source's `NewParser(bs)`. -/
def NewParser (bs : List Nat) : Parser := ⟨bs⟩

/-- The source's `(*Parser).Bytes()`. -/
def Parser.Bytes (p : Parser) : List Nat := p.bs

/-- The source's `isWhitespace(r)`. -/
def isWhitespace (r : Nat) : Bool :=
  r = 32 ∨ r = 10 ∨ r = 9

/-- One iteration of the loop of `RemoveWhitespaces` on the byte `c`; the state
is `(tmp, last)`. -/
def removeWhitespacesStep (st : List Nat × Nat) (c : Nat) : List Nat × Nat :=
  if isWhitespace c then
    if !isWhitespace st.2 then (st.1 ++ [32], c) else (st.1, c)
  else (st.1 ++ [c], c)

/-- The source's `(*Parser).RemoveWhitespaces()`; `none` is the panic of
`tmp[:len(tmp)-1]` on an empty `tmp`. -/
def Parser.RemoveWhitespaces (p : Parser) : Option Parser :=
  if p.bs.length = 0 then some p
  else
    let st := p.bs.foldl removeWhitespacesStep ([], 32)
    if isWhitespace st.2 then
      if st.1.length = 0 then none
      else some ⟨slice st.1 0 (st.1.length - 1)⟩
    else some ⟨st.1⟩

/-- The pieces of `bs` between its whitespace bytes. -/
def splitWs : List Nat → List (List Nat)
  | [] => [[]]
  | b :: rest =>
    if isWhitespace b then [] :: splitWs rest
    else
      match splitWs rest with
      | [] => [[b]]
      | seg :: segs => (b :: seg) :: segs

/-- The maximal runs of non-whitespace bytes of `bs`, in order. -/
def wordsOf (bs : List Nat) : List (List Nat) :=
  (splitWs bs).filter (fun w => !w.isEmpty)

/-- Reference definition of the whitespace collapse: the maximal runs of
non-whitespace bytes joined by exactly one space each. -/
def collapseSpec (bs : List Nat) : List Nat :=
  List.intercalate [32] (wordsOf bs)

/-- The bytes that the loop of `RemoveWhitespaces` appends to `tmp` while it
reads `bs`, `last` being the byte read before. -/
def rwAppended (last : Nat) : List Nat → List Nat
  | [] => []
  | c :: rest =>
    (if isWhitespace c then (if !isWhitespace last then [32] else []) else [c])
      ++ rwAppended c rest

/-- The text is non-empty and its last byte is a whitespace. -/
def endsWs (bs : List Nat) : Bool :=
  match bs.getLast? with
  | some c => isWhitespace c
  | none => false

/-! ## Regular expressions

Go's `regexp` matches rune by rune with leftmost-first semantics: the match
begins as early as possible and, among the matches beginning there, is the one
a backtracking search finds first. The patterns of `webhook.go` are sequences
of ASCII literals, of the classes `.` (with the flag `s`), `\s` and `\S` under
`*`, `+`, `*?` and `+?`, and of capture groups: `Node` covers these. -/

/-- The number of bytes of the rune that `utf8.DecodeRune` reads at the head of a
non-empty input: the length of a well-formed UTF-8 sequence, or 1. -/
def runeWidth (inp : List Nat) : Nat :=
  let cont (b : Nat) : Bool := 0x80 ≤ b ∧ b ≤ 0xBF
  match inp with
  | [] => 0
  | b0 :: rest =>
    if b0 < 0x80 then 1
    else if 0xC2 ≤ b0 ∧ b0 ≤ 0xDF then
      match rest with
      | b1 :: _ => if cont b1 then 2 else 1
      | _ => 1
    else if 0xE0 ≤ b0 ∧ b0 ≤ 0xEF then
      match rest with
      | b1 :: b2 :: _ =>
        let lo := if b0 = 0xE0 then 0xA0 else 0x80
        let hi := if b0 = 0xED then 0x9F else 0xBF
        if lo ≤ b1 ∧ b1 ≤ hi ∧ cont b2 then 3 else 1
      | _ => 1
    else if 0xF0 ≤ b0 ∧ b0 ≤ 0xF4 then
      match rest with
      | b1 :: b2 :: b3 :: _ =>
        let lo := if b0 = 0xF0 then 0x90 else 0x80
        let hi := if b0 = 0xF4 then 0x8F else 0xBF
        if lo ≤ b1 ∧ b1 ≤ hi ∧ cont b2 ∧ cont b3 then 4 else 1
      | _ => 1
    else 1

/-- The input cut into the runes that the matcher steps over; `skip` is the
number of bytes left of the rune being skipped. -/
def runesFrom : List Nat → Nat → List (List Nat)
  | [], _ => []
  | _ :: rest, skip + 1 => runesFrom rest skip
  | b :: rest, 0 =>
    let w := runeWidth (b :: rest)
    (b :: rest).take w :: runesFrom rest (w - 1)

/-- The runes of an input. -/
def runes (bs : List Nat) : List (List Nat) := runesFrom bs 0

/-- The character classes of the patterns. -/
inductive CharClass where
  | any
  | space
  | nonSpace
deriving DecidableEq, Repr

/-- Whether the rune `r` (its bytes) is in the class: `\s` is `[\t\n\f\r ]`. -/
def CharClass.test (c : CharClass) (r : List Nat) : Bool :=
  let isSpace : Bool := r = [9] ∨ r = [10] ∨ r = [12] ∨ r = [13] ∨ r = [32]
  match c with
  | .any => true
  | .space => isSpace
  | .nonSpace => !isSpace

/-- The items of a pattern. -/
inductive Node where
  | lit (b : Nat)
  | star (c : CharClass) (greedy : Bool)
  | plus (c : CharClass) (greedy : Bool)
  | gopen (k : Nat)
  | gclose (k : Nat)
deriving DecidableEq, Repr

/-- The capture spans `(start, end)`, indexed by group; group 0 is the match. -/
abbrev Caps := List (Nat × Nat)

/-- What remains to be matched: from the remaining runes, the byte position and
the captures so far, the end of the match and the final captures. -/
abbrev Cont := List (List Nat) → Nat → Caps → Option (Nat × Caps)

/-- Matching `c*` (greedy: the longer repetition first; lazy: the shorter
first) followed by `k`. -/
def repeatClass (c : CharClass) (greedy : Bool) (k : Cont) : Cont
  | [], pos, caps => k [] pos caps
  | r :: rest, pos, caps =>
    if c.test r then
      if greedy then
        (repeatClass c greedy k rest (pos + r.length) caps).orElse
          (fun _ => k (r :: rest) pos caps)
      else
        (k (r :: rest) pos caps).orElse
          (fun _ => repeatClass c greedy k rest (pos + r.length) caps)
    else k (r :: rest) pos caps

/-- Matching a sequence of items followed by `k`, by backtracking. -/
def matchNodes : List Node → Cont → Cont
  | [], k => k
  | .lit b :: ns, k => fun inp pos caps =>
    match inp with
    | r :: rest => if r = [b] then matchNodes ns k rest (pos + 1) caps else none
    | [] => none
  | .star c g :: ns, k => repeatClass c g (matchNodes ns k)
  | .plus c g :: ns, k => fun inp pos caps =>
    match inp with
    | r :: rest =>
      if c.test r then repeatClass c g (matchNodes ns k) rest (pos + r.length) caps else none
    | [] => none
  | .gopen j :: ns, k => fun inp pos caps =>
    matchNodes ns k inp pos (caps.set j (pos, pos))
  | .gclose j :: ns, k => fun inp pos caps =>
    matchNodes ns k inp pos (caps.set j ((caps.getD j (0, 0)).1, pos))

/-- A compiled pattern: its items and its number of capture groups. -/
structure Regexp where
  /-- The items of the pattern. -/
  nodes : List Node
  /-- The number of capture groups (`NumSubexp`). -/
  numSubexp : Nat
deriving DecidableEq, Repr

/-- The match of the pattern that begins at byte position `pos`, the remaining
runes being `inp`: the captures, group 0 being the whole match. -/
def Regexp.matchAt (re : Regexp) (inp : List (List Nat)) (pos : Nat) : Option Caps :=
  (matchNodes re.nodes (fun _ e caps => some (e, caps)) inp pos
    (List.replicate (re.numSubexp + 1) (pos, pos))).map
    (fun r => r.2.set 0 (pos, r.1))

/-- The leftmost match at or after `pos`. -/
def Regexp.searchFrom (re : Regexp) : List (List Nat) → Nat → Option Caps
  | [], pos => re.matchAt [] pos
  | r :: rest, pos =>
    (re.matchAt (r :: rest) pos).orElse (fun _ => re.searchFrom rest (pos + r.length))

/-- Go's `(*Regexp).FindSubmatch`: the texts of the leftmost match and of its
groups, `none` for `nil`. -/
def Regexp.FindSubmatch (re : Regexp) (bs : List Nat) : Option (List (List Nat)) :=
  (re.searchFrom (runes bs) 0).map (fun caps => caps.map (fun sp => slice bs sp.1 sp.2))

/-- The items of a literal text. -/
def lits (s : String) : List Node := (bytes s).map Node.lit

/-- The pattern `(?s)<h2.*?>.+<\/div>\s*(.+?)\s*<\/h2>`. -/
def reTitle : Regexp :=
  ⟨lits "<h2" ++ [.star .any false] ++ lits ">" ++ [.plus .any true] ++ lits "</div>"
    ++ [.star .space true, .gopen 1, .plus .any false, .gclose 1, .star .space true]
    ++ lits "</h2>", 1⟩

/-- The pattern `(?s)<p>\s*(.+)\s*<\/p>`. -/
def reDesc : Regexp :=
  ⟨lits "<p>" ++ [.star .space true, .gopen 1, .plus .any true, .gclose 1, .star .space true]
    ++ lits "</p>", 1⟩

/-- The pattern `(?s)<h3.+div>\s*(.+?)\s*<\/h3>`. -/
def reVersion : Regexp :=
  ⟨lits "<h3" ++ [.plus .any true] ++ lits "div>"
    ++ [.star .space true, .gopen 1, .plus .any false, .gclose 1, .star .space true]
    ++ lits "</h3>", 1⟩

/-- The pattern `(?s)<tr>.+?<\/tr>`. -/
def reWebhooks : Regexp :=
  ⟨lits "<tr>" ++ [.plus .any false] ++ lits "</tr>", 0⟩

/-- The pattern
`(?s)<tr>\s*<td.*>\s*<code.*>(.+)<\/code\s*>\s*<\/td>\s*<td.*?>\s*(.+)\s*<\/td>\s*<td.*?>\s*(.*?)\s*<\/td>`. -/
def reWebhook : Regexp :=
  ⟨lits "<tr>" ++ [.star .space true] ++ lits "<td" ++ [.star .any true] ++ lits ">"
    ++ [.star .space true] ++ lits "<code" ++ [.star .any true] ++ lits ">"
    ++ [.gopen 1, .plus .any true, .gclose 1] ++ lits "</code" ++ [.star .space true]
    ++ lits ">" ++ [.star .space true] ++ lits "</td>" ++ [.star .space true]
    ++ lits "<td" ++ [.star .any false] ++ lits ">"
    ++ [.star .space true, .gopen 2, .plus .any true, .gclose 2, .star .space true]
    ++ lits "</td>" ++ [.star .space true] ++ lits "<td" ++ [.star .any false] ++ lits ">"
    ++ [.star .space true, .gopen 3, .star .any false, .gclose 3, .star .space true]
    ++ lits "</td>", 3⟩

/-- The pattern `(?s)<a.*href="(.+)".*>\s*(.*?)\s*<\/a.*>`. -/
def reA : Regexp :=
  ⟨lits "<a" ++ [.star .any true] ++ lits "href=\"" ++ [.gopen 1, .plus .any true, .gclose 1]
    ++ lits "\"" ++ [.star .any true] ++ lits ">"
    ++ [.star .space true, .gopen 2, .star .any false, .gclose 2, .star .space true]
    ++ lits "</a" ++ [.star .any true] ++ lits ">", 2⟩

/-- The pattern `(?s)<code.*?>(.+?)<\/code.*?>`. -/
def reCode : Regexp :=
  ⟨lits "<code" ++ [.star .any false] ++ lits ">" ++ [.gopen 1, .plus .any false, .gclose 1]
    ++ lits "</code" ++ [.star .any false] ++ lits ">", 1⟩

/-- The pattern `(?s)<a.*?>\s*<code.*?>(\S+).*?>\s*<\/a\s*>`. -/
def reACode : Regexp :=
  ⟨lits "<a" ++ [.star .any false] ++ lits ">" ++ [.star .space true] ++ lits "<code"
    ++ [.star .any false] ++ lits ">" ++ [.gopen 1, .plus .nonSpace true, .gclose 1]
    ++ [.star .any false] ++ lits ">" ++ [.star .space true] ++ lits "</a"
    ++ [.star .space true] ++ lits ">", 1⟩

/-- The end `e` of a match, from its captures. -/
def matchEnd (caps : Caps) (p : Nat) : Nat := (caps.getD 0 (p, p)).2

/-- The loop of Go's `(*Regexp).allMatches`, walking the rune positions `p`:
positions before `resume` (inside the previous match) are passed over; an empty
match right after the previous match (`prev`) is not delivered. -/
def Regexp.allMatchesFrom (re : Regexp) :
    List (List Nat) → Nat → Nat → Option Nat → List Caps
  | [], p, resume, prev =>
    if p < resume then []
    else
      match re.matchAt [] p with
      | none => []
      | some caps => if prev = some p then [] else [caps]
  | r :: rest, p, resume, prev =>
    if p < resume then re.allMatchesFrom rest (p + r.length) resume prev
    else
      match re.matchAt (r :: rest) p with
      | none => re.allMatchesFrom rest (p + r.length) resume prev
      | some caps =>
        let e := matchEnd caps p
        let tail := re.allMatchesFrom rest (p + r.length) e (some e)
        if e = p ∧ prev = some p then tail else caps :: tail

/-- Go's `(*Regexp).FindAll(bs, -1)`: the texts of the successive matches; the
empty list is `nil`. -/
def Regexp.FindAll (re : Regexp) (bs : List Nat) : List (List Nat) :=
  (re.allMatchesFrom (runes bs) 0 0 none).map (fun caps =>
    slice bs (caps.getD 0 (0, 0)).1 (caps.getD 0 (0, 0)).2)

/-- Whether a rune may be part of a `$name` of a replacement template
(`unicode.IsLetter`, `unicode.IsDigit` or `_`). -/
def isNameRune (isWordHigh : List Nat → Bool) (r : List Nat) : Bool :=
  match r with
  | [b] =>
    if b < 0x80 then
      (65 ≤ b ∧ b ≤ 90) ∨ (97 ≤ b ∧ b ≤ 122) ∨ (48 ≤ b ∧ b ≤ 57) ∨ b = 95
    else false
  | _ => isWordHigh r

/-- The longest prefix of runes that may be part of a name, as bytes. -/
def nameRunes (isWordHigh : List Nat → Bool) : List (List Nat) → List Nat
  | [] => []
  | r :: rest => if isNameRune isWordHigh r then r ++ nameRunes isWordHigh rest else []

/-- The number that a name denotes in Go's `extract`, or `-1`. -/
def nameNumber (name : List Nat) : Int :=
  let num : Int := name.foldl
    (fun (acc : Int) c =>
      if acc < 0 then -1
      else if c < 48 ∨ 57 < c ∨ acc ≥ 100000000 then -1
      else acc * 10 + (c : Int) - 48) 0
  if name.head? = some 48 ∧ name.length > 1 then -1 else num

/-- Go's `extract(str)`: the name, its number and the rest of the template after
a `$`; `none` when the reference is malformed. -/
def extract (isWordHigh : List Nat → Bool) (str : List Nat) :
    Option (List Nat × Int × List Nat) :=
  if str = [] then none
  else
    let brace : Bool := str.head? = some 123
    let str1 := if brace then str.drop 1 else str
    let name := nameRunes isWordHigh (runes str1)
    let i := name.length
    if i = 0 then none
    else if brace then
      if str1[i]? = some 125 then some (name, nameNumber name, str1.drop (i + 1))
      else none
    else some (name, nameNumber name, str1.drop i)

/-- The first `$` of a template: the text before it and the text after it
(Go's `strings.Cut(template, "$")`). -/
def cutDollar : List Nat → Option (List Nat × List Nat)
  | [] => none
  | b :: rest =>
    if b = 36 then some ([], rest)
    else (cutDollar rest).map (fun r => (b :: r.1, r.2))

/-- Go's `(*Regexp).expand` with an explicit bound on the number of `$`
processed; `nmatch` is `len(match) / 2`. No pattern has a named group, so a
name that is not a number expands to nothing. -/
def expandFuel (isWordHigh : List Nat → Bool) (bs : List Nat) (caps : Caps) (nmatch : Nat) :
    Nat → List Nat → List Nat
  | 0, template => template
  | fuel + 1, template =>
    match cutDollar template with
    | none => template
    | some (before, after) =>
      before ++
        (if after.head? = some 36 then
          36 :: expandFuel isWordHigh bs caps nmatch fuel (after.drop 1)
        else
          match extract isWordHigh after with
          | none => 36 :: expandFuel isWordHigh bs caps nmatch fuel after
          | some (_, num, rest) =>
            (if 0 ≤ num ∧ num.toNat < nmatch then
              (match caps[num.toNat]? with
                | some sp => slice bs sp.1 sp.2
                | none => [])
            else [])
              ++ expandFuel isWordHigh bs caps nmatch fuel rest)

/-- Go's `(*Regexp).expand`. -/
def expand (isWordHigh : List Nat → Bool) (bs : List Nat) (caps : Caps) (nmatch : Nat)
    (template : List Nat) : List Nat :=
  expandFuel isWordHigh bs caps nmatch (template.length + 1) template

/-- The loop of Go's `(*Regexp).replaceAll`, walking the rune positions `p`;
`searchPos` and `lastMatchEnd` are the variables of the source, and the result
is what is appended to `buf` from here on. -/
def Regexp.replaceAllFrom (re : Regexp) (bs : List Nat) (repl : Caps → List Nat) :
    List (List Nat) → Nat → Nat → Nat → List Nat
  | [], p, searchPos, lastMatchEnd =>
    if p < searchPos then bs.drop lastMatchEnd
    else
      match re.matchAt [] p with
      | none => bs.drop lastMatchEnd
      | some caps =>
        let e := matchEnd caps p
        slice bs lastMatchEnd p
          ++ (if e > lastMatchEnd ∨ p = 0 then repl caps else [])
          ++ bs.drop e
  | r :: rest, p, searchPos, lastMatchEnd =>
    if p < searchPos then re.replaceAllFrom bs repl rest (p + r.length) searchPos lastMatchEnd
    else
      match re.matchAt (r :: rest) p with
      | none => re.replaceAllFrom bs repl rest (p + r.length) searchPos lastMatchEnd
      | some caps =>
        let e := matchEnd caps p
        slice bs lastMatchEnd p
          ++ (if e > lastMatchEnd ∨ p = 0 then repl caps else [])
          ++ re.replaceAllFrom bs repl rest (p + r.length) e e

/-- Go's `(*Regexp).ReplaceAll(src, repl)`: when the template has no `$`, only
the span of the whole match is passed to `expand`. -/
def Regexp.ReplaceAll (isWordHigh : List Nat → Bool) (re : Regexp) (src repl : List Nat) :
    List Nat :=
  let nmatch := if 36 ∈ repl then re.numSubexp + 1 else 1
  re.replaceAllFrom src (fun caps => expand isWordHigh src caps nmatch repl) (runes src) 0 0 0

/-- Go's `bytes.ReplaceAll(s, old, new)` for a non-empty `old`; `skip` is the
number of bytes of a replaced occurrence still to pass over. -/
def bytesReplaceAllFrom (old new : List Nat) : List Nat → Nat → List Nat
  | [], _ => []
  | _ :: rest, skip + 1 => bytesReplaceAllFrom old new rest skip
  | b :: rest, 0 =>
    if hasPrefix (b :: rest) old then new ++ bytesReplaceAllFrom old new rest (old.length - 1)
    else b :: bytesReplaceAllFrom old new rest 0

/-- Go's `bytes.ReplaceAll(s, old, new)` for a non-empty `old`. -/
def bytesReplaceAll (s old new : List Nat) : List Nat :=
  bytesReplaceAllFrom old new s 0

/-! ## Data model -/

/-- The source's `Link`. -/
structure Link where
  /-- The field `Title`. -/
  Title : List Nat
  /-- The field `URL`. -/
  URL : List Nat
deriving DecidableEq, Repr

/-- The source's `Comment`. -/
structure Comment where
  /-- The field `Content`. -/
  Content : List Nat
  /-- The field `Links`. -/
  Links : List Link
deriving DecidableEq, Repr

/-- The source's `Webhook`. -/
structure Webhook where
  /-- The field `Repeated`. -/
  Repeated : Bool
  /-- The field `ID`. -/
  ID : List Nat
  /-- The field `Event`. -/
  Event : List Nat
  /-- The field `Trigger`. -/
  Trigger : Comment
  /-- The field `RelatedMethod`. -/
  RelatedMethod : Comment
deriving DecidableEq, Repr

/-- The source's `(*Webhook).IsRef()`. -/
def Webhook.IsRef (wh : Webhook) : Bool :=
  hasPrefix wh.Trigger.Content (bytes "See")

/-- A Go `map[string][]Webhook`: the entries, with distinct keys. -/
abbrev WebhookMap := List (List Nat × List Webhook)

/-- The assignment `m[key] = value`. -/
def WebhookMap.set : WebhookMap → List Nat → List Webhook → WebhookMap
  | [], key, value => [(key, value)]
  | (k, v) :: rest, key, value =>
    if k = key then (k, value) :: rest else (k, v) :: WebhookMap.set rest key value

/-- The source's `WebhookGroup`. -/
structure WebhookGroup where
  /-- The field `Title`. -/
  Title : List Nat
  /-- The field `Description`. -/
  Description : Comment
  /-- The field `Webhooks`, keyed by version. -/
  Webhooks : WebhookMap
deriving DecidableEq, Repr

/-- The errors of the parser: `NotFound`, the `no match` of `parseWebhook`, and
an error wrapped with a stage label by `fmt.Errorf("%s: %w", step, err)`. -/
inductive ParseError where
  | notFound
  | noMatch
  | wrapped (step : String) (e : ParseError)
deriving DecidableEq, Repr

/-- A Go result `(value, error)` whose value is meaningful only without error. -/
inductive Result (α : Type) where
  | ok (v : α)
  | error (e : ParseError)
deriving DecidableEq, Repr

/-- The constant `docBaseURL` of `main.go`. -/
def docBaseURL : List Nat := bytes "https://developer.paypal.com"

/-! ## Field parsers and comment normaliser -/

/-- The source's `getFirstMatch(r, bs)`: the pair `(res, err)`; the outer `none`
is the panic of `matches[1]`. -/
def getFirstMatch (r : Regexp) (bs : List Nat) : Option (List Nat × Option ParseError) :=
  match r.FindSubmatch bs with
  | none => some ([], some ParseError.notFound)
  | some ms =>
    match ms[1]? with
    | none => none
    | some m => some (m, none)

/-- The source's `parseTitle(bs)`. -/
def parseTitle (bs : List Nat) : Option (List Nat × Option ParseError) :=
  getFirstMatch reTitle bs

/-- The source's `parseDescription(bs)`: after the match (whatever `err` is) the
text is whitespace-collapsed and `res[len(res)-1]` is read. -/
def parseDescription (bs : List Nat) : Option (List Nat × Option ParseError) :=
  match getFirstMatch reDesc bs with
  | none => none
  | some (res0, err) =>
    match (NewParser res0).RemoveWhitespaces with
    | none => none
    | some p =>
      let res := p.Bytes
      match res[res.length - 1]? with
      | none => none
      | some c =>
        if c = 58 then some (slice res 0 (res.length - 1), err) else some (res, err)

/-- The source's `(*Parser).Comment()`. The matches of `reA` have three entries,
so `matches[1]` and `matches[2]` exist. -/
def Parser.Comment (u : GoUnicode) (p : Parser) : Comment :=
  let old := bytes "<strong>Deprecation notice</strong>"
  let bs := bytesReplaceAll p.bs old (bytes "Deprecated")
  let links := reA.FindAll bs
  if links = [] then ⟨bs, []⟩
  else
    let st := links.foldl
      (fun (acc : List Nat × List Link) link =>
        match reA.FindSubmatch link with
        | none => (acc.1 ++ link, acc.2)
        | some ms =>
          let title := ms.getD 2 []
          let repl := [91] ++ title ++ [93]
          (acc.1 ++ reA.ReplaceAll u.isWordHigh bs repl,
            acc.2 ++ [⟨title, docBaseURL ++ ms.getD 1 []⟩]))
      ([], [])
    ⟨st.1, st.2⟩

/-- The source's `(*Parser).ReplaceCode()`. -/
def Parser.ReplaceCode (u : GoUnicode) (p : Parser) : Parser :=
  (reCode.FindAll p.bs).foldl
    (fun q code =>
      match reCode.FindSubmatch code with
      | none => q
      | some _ => ⟨reCode.ReplaceAll u.isWordHigh q.bs (bytes "`$1`")⟩)
    p

/-- The source's `(*Parser).ReplaceACode()`; `none` is a panic (of
`submatches[1]` when `reCode` does not match, or of the identifier derivation). -/
def Parser.ReplaceACode (u : GoUnicode) (p : Parser) : Option Parser :=
  let ms := reACode.FindAll p.bs
  if ms = [] then some p
  else if ms.length > 1 then some p
  else
    match reCode.FindSubmatch p.bs with
    | none => none
    | some submatches =>
      match submatches[1]? with
      | none => none
      | some c =>
        match eventToGolangIdentifier u c with
        | none => none
        | some ident => some ⟨reACode.ReplaceAll u.isWordHigh p.bs ([91] ++ ident ++ [93])⟩

/-- The source's `parseWebhook(bs)` (the append to the global `allEvents`, which
nothing reads, is left out); `none` is a panic. -/
def parseWebhook (u : GoUnicode) (bs : List Nat) : Option (Result Webhook) :=
  match reWebhook.FindSubmatch bs with
  | none => some (Result.error ParseError.noMatch)
  | some ms =>
    match ms[1]?, ms[2]?, ms[3]? with
    | some m1, some m2, some m3 =>
      match eventToGolangIdentifier u m1 with
      | none => none
      | some ident =>
        match (NewParser m2).ReplaceACode u with
        | none => none
        | some p2 =>
          match (p2.ReplaceCode u).RemoveWhitespaces with
          | none => none
          | some t =>
            match ((NewParser m3).ReplaceCode u).RemoveWhitespaces with
            | none => none
            | some r =>
              some (Result.ok ⟨false, ident, m1, t.Comment u, r.Comment u⟩)
    | _, _, _ => none

/-- A Go `map[string]int`: the count of every key (0 for an absent key). A count
is at most the number of rows read, so it is an unbounded `Int` here. -/
abbrev HookCount := List Nat → Int

/-- The loop of `parseWebhooks` over the row fragments; the result is the
returned pair and the counter afterwards, `none` a panic. -/
def parseWebhooksLoop (u : GoUnicode) :
    List (List Nat) → HookCount → List Webhook → Option (Result (List Webhook) × HookCount)
  | [], hookCount, res => some (Result.ok res, hookCount)
  | m :: ms, hookCount, res =>
    match parseWebhook u m with
    | none => none
    | some (Result.error e) => some (Result.error e, hookCount)
    | some (Result.ok webhook) =>
      let count := hookCount webhook.Event
      let hookCount1 : HookCount :=
        if !webhook.IsRef then
          fun k => if k = webhook.Event then count + 1 else hookCount k
        else hookCount
      parseWebhooksLoop u ms hookCount1
        (res ++ [⟨decide (count ≠ 0), webhook.ID, webhook.Event, webhook.Trigger,
          webhook.RelatedMethod⟩])

/-- The source's `parseWebhooks(bs, hookCount)`. -/
def parseWebhooks (u : GoUnicode) (bs : List Nat) (hookCount : HookCount) :
    Option (Result (List Webhook) × HookCount) :=
  parseWebhooksLoop u (reWebhooks.FindAll bs) hookCount []

/-- The inner loop of `parsePayPal` (`// Find versions`) with a bound on the
number of iterations. The state is the cursor `i`, the counter, `err` and the
map `group.Webhooks`; the result is the state at the `break`. -/
def versionsLoop (u : GoUnicode) (bs : List Nat) :
    Nat → Nat → HookCount → Option ParseError → WebhookMap →
      Option (Nat × HookCount × Option ParseError × WebhookMap)
  | 0, _, _, _, _ => none
  | fuel + 1, i, hookCount, err, webhooksMap =>
    match findRegion bs (bytes "<h3 ") (bytes "</h3>") i with
    | none => none
    | some (none, i1) => some (i1, hookCount, err, webhooksMap)
    | some (some versionBytes, i1) =>
      match getFirstMatch reVersion versionBytes with
      | none => none
      | some (version, err1) =>
        if err1 ≠ none then some (i1, hookCount, err1, webhooksMap)
        else
          match findRegion bs (bytes "<tbody>") (bytes "</tbody>") i1 with
          | none => none
          | some (none, i2) => some (i2, hookCount, err1, webhooksMap)
          | some (some webhooksBytes, i2) =>
            match parseWebhooks u webhooksBytes hookCount with
            | none => none
            | some (Result.error e, hookCount1) => some (i2, hookCount1, some e, webhooksMap)
            | some (Result.ok webhooks, hookCount1) =>
              versionsLoop u bs fuel i2 hookCount1 none (webhooksMap.set version webhooks)

/-- The outer loop of `parsePayPal` with a bound on the number of iterations.
The state is the cursor `i`, the counter, `step`, `res` and `err`; the result is
`res`, `err` and `step` at the `break`. The group appended to `res` shares its
map with `group`, so it is recorded with the final state of the map. -/
def parsePayPalLoop (u : GoUnicode) (bs : List Nat) :
    Nat → Nat → HookCount → String → List WebhookGroup → Option ParseError →
      Option (List WebhookGroup × Option ParseError × String)
  | 0, _, _, _, _, _ => none
  | fuel + 1, i, hookCount, step, res, err =>
    match findRegion bs (bytes "<h2 ") (bytes "</h2>") i with
    | none => none
    | some (none, _) => some (res, err, step)
    | some (some titleBytes, i1) =>
      match parseTitle titleBytes with
      | none => none
      | some (title, err1) =>
        if err1 ≠ none then some (res, err1, "title")
        else
          match findRegion bs (bytes "<p>") (bytes "</p>") i1 with
          | none => none
          | some (descBytes, i2) =>
            match (match descBytes with
              | none => some ([], err1)
              | some d => parseDescription d) with
            | none => none
            | some (desc, err2) =>
              if err2 ≠ none then some (res, err2, "description")
              else
                let description := (NewParser desc).Comment u
                match versionsLoop u bs (bs.length + 1) i2 hookCount err2 [] with
                | none => none
                | some (i3, hookCount3, err3, webhooksMap) =>
                  match findRegion bs (bytes "<tbody>") (bytes "</tbody>") i3 with
                  | none => none
                  | some (none, i4) =>
                    parsePayPalLoop u bs fuel i4 hookCount3 "webhooks"
                      (res ++ [⟨title, description, webhooksMap⟩]) err3
                  | some (some webhooksBytes, i4) =>
                    match parseWebhooks u webhooksBytes hookCount3 with
                    | none => none
                    | some (Result.error e, _) =>
                      some (res ++ [⟨title, description, webhooksMap⟩], some e, "webhooks")
                    | some (Result.ok webhooks, hookCount4) =>
                      parsePayPalLoop u bs fuel i4 hookCount4 "webhooks"
                        (res ++ [⟨title, description, webhooksMap.set [] webhooks⟩]) none

/-- The source's `parsePayPal(bs)`: `res` and `err` as returned, after the
deferred wrapping of a non-nil `err` with `step`; `none` is a panic. Every
iteration of either loop moves the cursor forward, so `len(bs) + 1` iterations
are never exhausted on an input that does not panic. -/
def parsePayPal (u : GoUnicode) (bs : List Nat) :
    Option (List WebhookGroup × Option ParseError) :=
  (parsePayPalLoop u bs (bs.length + 1) 0 (fun _ => 0) "" [] none).map
    (fun r => (r.1, r.2.1.map (ParseError.wrapped r.2.2)))

/-- The successive calls of `parseWebhooks` that `parsePayPal` makes on the table
regions of a document, against one counter; `acc` collects the webhooks. -/
def parseTables (u : GoUnicode) :
    List (List Nat) → HookCount → List Webhook → Option (Result (List Webhook) × HookCount)
  | [], hookCount, acc => some (Result.ok acc, hookCount)
  | t :: ts, hookCount, acc =>
    match parseWebhooks u t hookCount with
    | none => none
    | some (Result.error e, hookCount1) => some (Result.error e, hookCount1)
    | some (Result.ok ws, hookCount1) => parseTables u ts hookCount1 (acc ++ ws)

/-- Reference definition: the text with exactly one trailing `:` removed, if it
ends in `:`. -/
def stripColon (t : List Nat) : List Nat :=
  if t.getLast? = some 58 then t.dropLast else t

/-- The webhook that `parseWebhook` returns for a row fragment, if it returns one. -/
def parsedRow (u : GoUnicode) (r : List Nat) : Option Webhook :=
  match parseWebhook u r with
  | some (Result.ok w) => some w
  | _ => none

/-- The counter after `parseWebhooks` has handled the webhook `w`. -/
def bumpCount (hookCount : HookCount) (w : Webhook) : HookCount :=
  if !w.IsRef then fun k => if k = w.Event then hookCount w.Event + 1 else hookCount k
  else hookCount

/-- The webhooks with `Repeated` set as `parseWebhooks` sets it, from the
counter `hookCount`. -/
def markRepeated : HookCount → List Webhook → List Webhook
  | _, [] => []
  | hookCount, w :: ws =>
    ⟨decide (hookCount w.Event ≠ 0), w.ID, w.Event, w.Trigger, w.RelatedMethod⟩
      :: markRepeated (bumpCount hookCount w) ws

/-- One of the two lists is a prefix of the other: both can begin at one index
of a buffer. -/
def PrefixCompat (a b : List Nat) : Prop := a <+: b ∨ b <+: a

instance (a b : List Nat) : Decidable (PrefixCompat a b) := by
  unfold PrefixCompat; infer_instance

/-- The start marker cannot begin where a `<h2 ` begins, and no `<h2 ` can begin
inside the end marker. -/
def MarkersApart (start endM : List Nat) : Prop :=
  start ≠ [] ∧ endM ≠ [] ∧ ¬ PrefixCompat start h2Marker ∧
  ∀ d < endM.length, ¬ PrefixCompat (endM.drop d) h2Marker

instance (start endM : List Nat) : Decidable (MarkersApart start endM) := by
  unfold MarkersApart; infer_instance

/-- The marker pairs of the searches of `parsePayPal` other than the title
search: `<p>`, `<h3 ` and `<tbody>`. -/
def regionSearches : List (List Nat × List Nat) :=
  [(bytes "<p>", bytes "</p>"), (bytes "<h3 ", bytes "</h3>"),
   (bytes "<tbody>", bytes "</tbody>")]

/-- The byte is one of the delimiters `.` and `-` of an event name. -/
def isDelim (b : Nat) : Bool := b = 46 ∨ b = 45

/-- The sub-segments of an event name: its pieces between the delimiters. -/
def subSegments : List Nat → List (List Nat)
  | [] => [[]]
  | b :: rest =>
    if isDelim b then [] :: subSegments rest
    else
      match subSegments rest with
      | [] => [[b]]
      | seg :: segs => (b :: seg) :: segs

/-- The name begins with a delimiter. -/
def leadingDelim (s : List Nat) : Bool :=
  match s with
  | b :: _ => isDelim b
  | [] => false

/-- The name ends with a delimiter. -/
def trailingDelim (s : List Nat) : Bool :=
  match s.getLast? with
  | some b => isDelim b
  | none => false

/-- The name has two delimiters next to each other. -/
def doubledDelim : List Nat → Bool
  | a :: b :: rest => (isDelim a && isDelim b) || doubledDelim (b :: rest)
  | _ => false

/-- A malformed event name: empty, or with a leading, trailing or doubled
delimiter. -/
def MalformedName (s : List Nat) : Prop :=
  s = [] ∨ leadingDelim s = true ∨ trailingDelim s = true ∨ doubledDelim s = true

instance (s : List Nat) : Decidable (MalformedName s) := by
  unfold MalformedName; infer_instance

/-- The contribution of a sub-segment to the identifier: its first byte through
`unicode.ToTitle` and the rest through `bytes.ToLower`. -/
def segmentIdent (u : GoUnicode) : List Nat → List Nat
  | [] => []
  | c :: tl => (unicodeToTitle u c % 256) :: bytesToLower u tl

/-! ## Generator

The builder `g.sb` is modelled by the strings written to it: every `Append`
method gives the list of the strings it writes, in order, and `Build` gives
their concatenation. -/

/-- The constant `maxColumn`. -/
def maxColumn : Int := 100

/-- The constant `tabWidth`. -/
def tabWidth : Int := 4

/-- Go's comparison `a <= b` of strings: bytewise lexicographic. -/
def lexLe : List Nat → List Nat → Bool
  | [], _ => true
  | _ :: _, [] => false
  | a :: as, b :: bs => decide (a < b) || (decide (a = b) && lexLe as bs)

/-- The keys in ascending order, as `slices.Sort(keys)` leaves them (the result
of sorting does not depend on the algorithm). -/
def sortKeys (keys : List (List Nat)) : List (List Nat) :=
  keys.insertionSort (fun a b => lexLe a b = true)

/-- The map read `m[key]`: the zero value for an absent key. -/
def WebhookMap.get : WebhookMap → List Nat → List Webhook
  | [], _ => []
  | (k, v) :: rest, key => if k = key then v else WebhookMap.get rest key

/-- The source's `sortedRangeMap(m, f)`: the results of the calls of `f`, in
order. The order of the entries of `m` stands for the iteration order of the Go
map. -/
def sortedRangeMap {β : Type} (m : WebhookMap) (f : List Nat → List Webhook → β) : List β :=
  (sortKeys (m.map (fun kv => kv.1))).map (fun key => f key (m.get key))

/-- The source's `Generator`, without its builder. -/
structure Generator where
  /-- The field `Package`. -/
  Package : List Nat
deriving DecidableEq, Repr

/-- The prefix `strings.Repeat("\t", indent)` of the indented writes. -/
def indentPrefix (indent : Nat) : List Nat := List.replicate indent 9

/-- The source's `(*Generator).AppendHeader()`. -/
def Generator.AppendHeader (g : Generator) : List (List Nat) :=
  [bytes "// Code generated by paypalc. DO NOT EDIT.\n",
   bytes "package " ++ g.Package ++ bytes "\n",
   bytes "\n",
   bytes "// EventType is the type of webhook.\n",
   bytes "//\n",
   bytes "// See https://developer.paypal.com/api/rest/webhooks/event-names/\n",
   bytes "type EventType string\n",
   bytes "\n"]

/-- The body lines that `AppendComment` writes: the wrapped content, one
`WritelnIndent(tabs, "// "+line)` per line. -/
def commentBodyLines (t : Comment) (tabs : Nat) : List (List Nat) :=
  (wrap t.Content (maxColumn - (tabs : Int) * tabWidth - 3)).map
    (fun line => indentPrefix tabs ++ bytes "// " ++ line ++ bytes "\n")

/-- The reference lines that `AppendComment` writes when the comment has links. -/
def commentLinkLines (t : Comment) (tabs : Nat) : List (List Nat) :=
  if t.Links.length > 0 then
    (indentPrefix tabs ++ bytes "//" ++ bytes "\n") ::
      t.Links.map (fun link =>
        indentPrefix tabs ++ bytes "// [" ++ link.Title ++ bytes "]: " ++ link.URL ++ bytes "\n")
  else []

/-- The source's `(*Generator).AppendComment(t, tabs)`. -/
def Generator.AppendComment (_g : Generator) (t : Comment) (tabs : Nat) : List (List Nat) :=
  commentBodyLines t tabs ++ commentLinkLines t tabs

/-- The source's `(*Generator).AppendRelatedMethod(rm)`. -/
def Generator.AppendRelatedMethod (g : Generator) (rm : Comment) : List (List Nat) :=
  if rm.Content.length = 0 then []
  else
    (indentPrefix 1 ++ bytes "//" ++ bytes "\n") ::
      g.AppendComment ⟨bytes "Related method: " ++ rm.Content, rm.Links⟩ 1

/-- The live declaration `ID EventType = "Event"` of a webhook. -/
def liveLine (hook : Webhook) : List Nat :=
  indentPrefix 1 ++ hook.ID ++ bytes " EventType = \"" ++ hook.Event ++ bytes "\"\n"

/-- The declaration of a webhook written as a comment. -/
def redeclaredLine (hook : Webhook) : List Nat :=
  indentPrefix 1 ++ bytes "// (redeclared) " ++ hook.ID ++ bytes " EventType = \""
    ++ hook.Event ++ bytes "\"\n"

/-- The webhook is rendered as a live declaration: it is neither repeated nor a
reference entry. -/
def Webhook.isLive (hook : Webhook) : Bool :=
  !(hook.Repeated || hook.IsRef)

/-- The body of the loop over the webhooks of `AppendWebhooks`. -/
def Generator.appendHook (g : Generator) (hook : Webhook) : List (List Nat) :=
  let trigger : Comment := ⟨hook.Trigger.Content, []⟩
  let relatedMethod : Comment :=
    ⟨hook.RelatedMethod.Content, hook.Trigger.Links ++ hook.RelatedMethod.Links⟩
  [bytes "\n"] ++ g.AppendComment trigger 1 ++ g.AppendRelatedMethod relatedMethod
    ++ [if hook.Repeated || hook.IsRef then redeclaredLine hook else liveLine hook]

/-- The function that `AppendWebhooks` passes to `sortedRangeMap`: the block of
one version. -/
def Generator.versionBlock (g : Generator) (version : List Nat) (v : List Webhook) :
    List (List Nat) :=
  (if version ≠ [] then [bytes "// " ++ version ++ bytes "\n", bytes "\n"] else [])
    ++ [bytes "const ("] ++ v.flatMap g.appendHook ++ [bytes ")\n", bytes "\n"]

/-- The source's `(*Generator).AppendWebhooks(webhooks)`. -/
def Generator.AppendWebhooks (g : Generator) (webhooks : WebhookMap) : List (List Nat) :=
  (sortedRangeMap webhooks g.versionBlock).flatten

/-- The source's `(*Generator).AppendGroup(wg)`. -/
def Generator.AppendGroup (g : Generator) (wg : WebhookGroup) : List (List Nat) :=
  [bytes "\n", bytes "// " ++ wg.Title ++ bytes "\n"]
    ++ (if wg.Description.Content.length > 0 then
          (bytes "//" ++ bytes "\n") :: g.AppendComment wg.Description 0
        else [])
    ++ [bytes "\n"] ++ g.AppendWebhooks wg.Webhooks

/-- The strings that `Build` writes to the builder of a new `Generator`. -/
def Generator.buildWrites (g : Generator) (gs : List WebhookGroup) : List (List Nat) :=
  g.AppendHeader ++ gs.flatMap g.AppendGroup

/-- The source's `(*Generator).Build(gs)` on a new `Generator`. -/
def Generator.Build (g : Generator) (gs : List WebhookGroup) : List Nat :=
  (g.buildWrites gs).flatten

/-- The webhooks of a map, entry after entry. -/
def WebhookMap.hooks (m : WebhookMap) : List Webhook :=
  m.flatMap (fun kv => kv.2)

/-- All webhooks of the groups that `parsePayPal` returns. -/
def allWebhooks (gs : List WebhookGroup) : List Webhook :=
  gs.flatMap (fun wg => wg.Webhooks.hooks)

/-- The webhooks in the order in which `Build` renders them: group after group,
and in a group version after version as `sortedRangeMap` visits them. -/
def renderedHooks (gs : List WebhookGroup) : List Webhook :=
  gs.flatMap (fun wg => (sortedRangeMap wg.Webhooks (fun _ v => v)).flatten)

/-- The number of webhooks of the list with event `e` that are rendered live. -/
def liveCount (e : List Nat) (ws : List Webhook) : Nat :=
  ws.countP (fun w => w.isLive && decide (w.Event = e))

/-- The relation between the counter and the number `n e` of live webhooks
recorded so far for each event: a count is never negative, at most one webhook
of an event is live, and then the count of the event is at least 1. -/
def CountBound (hookCount : HookCount) (n : List Nat → Nat) : Prop :=
  ∀ e, 0 ≤ hookCount e ∧ n e ≤ 1 ∧ (1 ≤ n e → 1 ≤ hookCount e)

/-- The declaration that `AppendWebhooks` writes for a webhook: live, or as a
comment when the webhook is repeated or a reference entry. -/
def declarationLine (hook : Webhook) : List Nat :=
  if hook.Repeated || hook.IsRef then redeclaredLine hook else liveLine hook

/-- A document with one table holding two rows for the event `A.B`. -/
def sampleDocTwoRows : List Nat :=
  bytes ("<h2 >a</div>T</h2><tbody><tr><td><code>A.B</code></td><td>t</td><td></td></tr>"
    ++ "<tr><td><code>A.B</code></td><td>u</td><td></td></tr></tbody><h2 ")

/-- The groups that `parsePayPal` returns for `sampleDocTwoRows`. -/
def sampleGroupsTwoRows : List WebhookGroup :=
  [⟨bytes "T", ⟨[], []⟩,
    [([], [⟨false, bytes "AB", bytes "A.B", ⟨bytes "t", []⟩, ⟨[], []⟩⟩,
           ⟨true, bytes "AB", bytes "A.B", ⟨bytes "u", []⟩, ⟨[], []⟩⟩])]⟩]

/-- A document with two groups: a row and a reference row for the event `A.B` in
the first, another row for `A.B` in the second. -/
def sampleDocTwoGroups : List Nat :=
  bytes ("<h2 >a</div>T</h2><tbody><tr><td><code>A.B</code></td><td>t</td><td></td></tr>"
    ++ "<tr><td><code>A.B</code></td><td>See t</td><td></td></tr></tbody>"
    ++ "<h2 >b</div>U</h2><tbody><tr><td><code>A.B</code></td><td>v</td><td></td></tr>"
    ++ "</tbody><h2 ")

/-- The groups that `parsePayPal` returns for `sampleDocTwoGroups`. -/
def sampleGroupsTwoGroups : List WebhookGroup :=
  [⟨bytes "T", ⟨[], []⟩,
    [([], [⟨false, bytes "AB", bytes "A.B", ⟨bytes "t", []⟩, ⟨[], []⟩⟩,
           ⟨true, bytes "AB", bytes "A.B", ⟨bytes "See t", []⟩, ⟨[], []⟩⟩])]⟩,
   ⟨bytes "U", ⟨[], []⟩,
    [([], [⟨true, bytes "AB", bytes "A.B", ⟨bytes "v", []⟩, ⟨[], []⟩⟩])]⟩]

/-! ## HTTP client

A shallow embedding of `client.go` and of the two subscription calls of
`subscription.go` (package `paypal`). A Go `string` is a `List Nat` of bytes, a
pointer that may be `nil` is an `Option`, and an instant of time is its number
of nanoseconds. The libraries that the client calls (`net/http` and its
transport, `encoding/json`, `time`) are not part of the repository: their
behaviour is a parameter (`Lib`, `Codec`), and the properties hold whatever it
is. A function that can panic returns an `Option`, `none` being the panic. -/

/-- The source's `ErrorDetail`. -/
structure ErrorDetail where
  /-- The field `Field`. -/
  Field : List Nat
  /-- The field `Value`. -/
  Value : List Nat
  /-- The field `Location`. -/
  Location : List Nat
  /-- The field `Issue`. -/
  Issue : List Nat
  /-- The field `Description`. -/
  Description : List Nat
deriving DecidableEq, Repr

/-- The source's `Link` of package `paypal`, a HATEOAS link (the name `Link` is
taken by the `Link` of `paypalc`). -/
structure RespLink where
  /-- The field `HRef`. -/
  HRef : List Nat
  /-- The field `Rel`. -/
  Rel : List Nat
  /-- The field `Method`. -/
  Method : List Nat
deriving DecidableEq, Repr

/-- The source's `Error`, the PayPal API error response. -/
structure Error where
  /-- The field `StatusCode`. -/
  StatusCode : Int
  /-- The field `Name`. -/
  Name : List Nat
  /-- The field `Message`. -/
  Message : List Nat
  /-- The field `DebugID`. -/
  DebugID : List Nat
  /-- The field `Details`. -/
  Details : List (Option ErrorDetail)
  /-- The field `Links`. -/
  Links : List (Option RespLink)
  /-- The field `Err` (JSON `error`), for identity errors. -/
  Err : List Nat
  /-- The field `ErrDesc` (JSON `error_description`). -/
  ErrDesc : List Nat
deriving DecidableEq, Repr

set_option linter.dupNamespace false in
/-- The source's `(*Error).Error()`; `fmt.Sprintf("%s: %s (%s)", ...)` on strings
is the concatenation. -/
def Error.Error (e : Error) : List Nat :=
  if e.Err ≠ [] then e.Err ++ bytes ": " ++ e.ErrDesc
  else e.Name ++ bytes ": " ++ e.Message ++ bytes " (" ++ e.DebugID ++ bytes ")"

/-- A Go `error` value of the client: a `*Error`, an error of a library, or an
error wrapped by `fmt.Errorf(label + ": %w", cause)`. -/
inductive GoError where
  | api (e : Error)
  | lib (msg : List Nat)
  | wrapped (label : List Nat) (cause : GoError)
deriving DecidableEq, Repr

/-- Whether `errors.As(err, &e)` finds a `*Error` in the chain of `err`. -/
def GoError.isAPIError : GoError → Bool
  | .api _ => true
  | .lib _ => false
  | .wrapped _ cause => cause.isAPIError

/-- A `context.Context` as far as the package reads it: the background context,
a context made by `context.WithValue(parent, operationKey{}, op)`, or a context
derived from a parent in any other way. The key type `operationKey` is not
exported, so every value under it is a string stored by `WithOperation`. -/
inductive Context where
  | background
  | withOperation (parent : Context) (op : List Nat)
  | derived (parent : Context)
deriving DecidableEq, Repr

/-- The value `ctx.Value(operationKey{})`; `none` is `nil`. -/
def Context.Value : Context → Option (List Nat)
  | .background => none
  | .withOperation _ op => some op
  | .derived parent => parent.Value

/-- The source's `WithOperation(ctx, op)`. -/
def WithOperation (ctx : Context) (op : List Nat) : Context :=
  .withOperation ctx op

/-- The source's `GetOperation(ctx)`: the type assertion `.(string)` panics on a
`nil` value. -/
def GetOperation (ctx : Context) : Option (List Nat) :=
  match ctx.Value with
  | none => none
  | some op => some op

/-- An `*http.Request`. -/
structure Request where
  /-- The field `Method`. -/
  Method : List Nat
  /-- The URL of the request. -/
  URL : List Nat
  /-- The header, as its keys and values. -/
  Header : List (List Nat × List Nat)
  /-- The body, `none` for no body. -/
  Body : Option (List Nat)
  /-- The context `r.Context()`. -/
  Ctx : Context
deriving DecidableEq, Repr

/-- Go's `Header.Set(key, value)` for a canonical key. -/
def headerSet (h : List (List Nat × List Nat)) (key value : List Nat) :
    List (List Nat × List Nat) :=
  (key, value) :: h.filter (fun kv => kv.1 ≠ key)

/-- The request after `req.Header.Set("Authorization", value)`. -/
def Request.setAuthorization (req : Request) (value : List Nat) : Request :=
  { req with Header := headerSet req.Header (bytes "Authorization") value }

/-- The source's `formatSpanName(_, r)`; `none` is the panic of `GetOperation`. -/
def formatSpanName (_operation : List Nat) (r : Request) : Option (List Nat) :=
  match GetOperation r.Ctx with
  | none => none
  | some op =>
    let op1 := if op = [] then r.Method else op
    some (bytes "PayPal " ++ op1)

/-- An `*http.Response`, with what `io.ReadAll(r.Body)` returns for it. -/
structure Response where
  /-- The field `StatusCode`. -/
  StatusCode : Int
  /-- The field `ContentLength`. -/
  ContentLength : Int
  /-- The bytes of the body. -/
  Body : List Nat
  /-- The error of `io.ReadAll(r.Body)`, `none` for `nil`. -/
  ReadErr : Option (List Nat)
deriving DecidableEq, Repr

/-- The behaviour of `encoding/json` on a type `R`. -/
structure Codec (R : Type) where
  /-- The zero value, `*new(R)`. -/
  zero : R
  /-- Go's `json.Unmarshal(bs, res)`: the value of `*res` afterwards and the error. -/
  Unmarshal : List Nat → R → R × Option (List Nat)

/-- The source's `Token`. -/
structure Token where
  /-- The field `Scope`. -/
  Scope : List Nat
  /-- The field `AccessToken`. -/
  AccessToken : List Nat
  /-- The field `TokenType`. -/
  TokenType : List Nat
  /-- The field `AppID`. -/
  AppID : List Nat
  /-- The field `Nonce`. -/
  Nonce : List Nat
  /-- The field `ExpiresIn`. -/
  ExpiresIn : Int
  /-- The field `expiresAt`. -/
  expiresAt : Int
deriving DecidableEq, Repr

/-- The behaviour of the libraries and of the network, `σ` being the state of
the world. -/
structure Lib (σ : Type) where
  /-- Go's `(*http.Client).Do(req)`: the response or the error, and the state
  afterwards. -/
  Do : Request → σ → Except (List Nat) Response × σ
  /-- Go's `time.Now()`. -/
  Now : σ → Int
  /-- The error of `http.NewRequestWithContext` for a method and a URL, `none`
  for `nil`. -/
  NewRequestErr : List Nat → List Nat → Option (List Nat)
  /-- The value of the `Authorization` header that `SetBasicAuth` sets. -/
  BasicAuth : List Nat → List Nat → List Nat
  /-- The decoding of a `Token`. -/
  TokenCodec : Codec Token
  /-- The decoding of an `Error`. -/
  ErrorCodec : Codec Error

/-- The source's `Client`; the field `hc` is the parameter `Lib`. -/
structure Client where
  /-- The field `base`. -/
  base : List Nat
  /-- The field `id`. -/
  id : List Nat
  /-- The field `secret`. -/
  secret : List Nat
  /-- The field `t`. -/
  t : Option Token
deriving DecidableEq, Repr

/-- The value of a Go `int64` computation: the integer modulo `2^64`, signed. -/
def wrapInt64 (x : Int) : Int :=
  (x + 2 ^ 63) % 2 ^ 64 - 2 ^ 63

/-- The source's `(*Token).Valid()`. -/
def Token.Valid {σ : Type} (lib : Lib σ) (t : Option Token) (w : σ) : Bool :=
  match t with
  | none => false
  | some tok => decide (tok.expiresAt > lib.Now w)

/-- The source's `RespJSON[R](r)`: the pointer `res` and the error. -/
def RespJSON {R : Type} (codec : Codec R) (r : Response) : Option R × Option GoError :=
  match r.ReadErr with
  | some msg => (none, some (.lib msg))
  | none =>
    let out := codec.Unmarshal r.Body codec.zero
    (some out.1, out.2.map GoError.lib)

/-- The source's `doJSON[R](ctx, c, req)`: the result `(res, err)` and the state
afterwards. -/
def doJSON {σ R : Type} (lib : Lib σ) (codec : Codec R) (req : Request) (w : σ) :
    Option ((Option R × Option GoError) × σ) :=
  match lib.Do req w with
  | (.error msg, w1) => some ((none, some (.wrapped (bytes "do") (.lib msg))), w1)
  | (.ok hres, w1) =>
    if hres.StatusCode < 400 then some (RespJSON codec hres, w1)
    else
      match RespJSON lib.ErrorCodec hres with
      | (_, some err) => some ((none, some (.wrapped (bytes "unmarshal error") err)), w1)
      | (some e, none) => some ((none, some (.api { e with StatusCode := hres.StatusCode })), w1)
      | (none, none) => none

/-- The source's `(*Client).Auth(ctx)`. -/
def Client.Auth {σ : Type} (lib : Lib σ) (c : Client) (ctx : Context) (w : σ) :
    Option ((Option Token × Option GoError) × σ) :=
  let ctx1 := WithOperation ctx (bytes "Auth")
  let url := c.base ++ bytes "/v1/oauth2/token"
  match lib.NewRequestErr (bytes "POST") url with
  | some msg => some ((none, some (.wrapped (bytes "new request") (.lib msg))), w)
  | none =>
    let req : Request :=
      Request.setAuthorization
        ⟨bytes "POST", url, [], some (bytes "grant_type=client_credentials"), ctx1⟩
        (lib.BasicAuth c.id c.secret)
    let start := lib.Now w
    match doJSON lib lib.TokenCodec req w with
    | none => none
    | some ((res, some err), w1) => some ((res, some err), w1)
    | some ((none, none), _) => none
    | some ((some res, none), w1) =>
      some ((some { res with
        expiresAt := start + wrapInt64 (wrapInt64 (res.ExpiresIn - 2) * 1000000000) }, none), w1)

/-- The source's `(*Client).checkToken(ctx)`: the error, the client and the state
afterwards. -/
def Client.checkToken {σ : Type} (lib : Lib σ) (c : Client) (ctx : Context) (w : σ) :
    Option (Option GoError × Client × σ) :=
  if Token.Valid lib c.t w = false then
    match c.Auth lib ctx w with
    | none => none
    | some ((res, err), w1) => some (err, { c with t := res }, w1)
  else some (none, c, w)

/-- The source's `NewJSONRequest(ctx, method, url, data)`; `marshal` is
`json.Marshal` on the type of `data`, and `data` is `none` for `nil`. -/
def NewJSONRequest {σ D : Type} (lib : Lib σ) (marshal : D → Except (List Nat) (List Nat))
    (ctx : Context) (method url : List Nat) (data : Option D) : Except GoError Request :=
  let body : Except GoError (Option (List Nat)) :=
    match data with
    | none => .ok none
    | some d =>
      match marshal d with
      | .error msg => .error (.lib msg)
      | .ok bs => .ok (some bs)
  match body with
  | .error err => .error err
  | .ok r =>
    match lib.NewRequestErr method url with
    | some msg => .error (.lib msg)
    | none =>
      .ok ⟨method, url, headerSet [] (bytes "Content-Type") (bytes "application/json"), r, ctx⟩

/-- The source's `JSON[R](ctx, c, method, path, data)`: the result `(res, err)`,
the client and the state afterwards. -/
def JSON {σ D R : Type} (lib : Lib σ) (marshal : D → Except (List Nat) (List Nat))
    (codec : Codec R) (c : Client) (ctx : Context) (method path : List Nat) (data : Option D)
    (w : σ) : Option ((Option R × Option GoError) × Client × σ) :=
  let url := c.base ++ path
  match NewJSONRequest lib marshal ctx method url data with
  | .error err => some ((none, some (.wrapped (bytes "new request") err)), c, w)
  | .ok req =>
    match c.checkToken lib ctx w with
    | none => none
    | some (some err, c1, w1) => some ((none, some err), c1, w1)
    | some (none, c1, w1) =>
      match c1.t with
      | none => none
      | some tok =>
        let req1 : Request := req.setAuthorization (bytes "Bearer " ++ tok.AccessToken)
        match doJSON lib codec req1 w1 with
        | none => none
        | some (r, w2) => some (r, c1, w2)

/-- The source's `(*Client).CreateSubscription(ctx, req)`; the request value is
passed as a non-nil `any`. -/
def Client.CreateSubscription {σ D R : Type} (lib : Lib σ)
    (marshal : D → Except (List Nat) (List Nat)) (codec : Codec R) (c : Client)
    (ctx : Context) (req : D) (w : σ) : Option ((Option R × Option GoError) × Client × σ) :=
  JSON lib marshal codec c ctx (bytes "POST") (bytes "/v1/billing/subscriptions") (some req) w

/-- The source's `(*Client).GetSubscription(ctx, req)`, `id` being `req.ID`; the
data passed to `JSON` is `nil`. -/
def Client.GetSubscription {σ R : Type} (lib : Lib σ) (codec : Codec R) (c : Client)
    (ctx : Context) (id : List Nat) (w : σ) :
    Option ((Option R × Option GoError) × Client × σ) :=
  let ctx1 := WithOperation ctx (bytes "GetSubscription")
  JSON lib (fun (d : Empty) => d.elim) codec c ctx1 (bytes "GET")
    (bytes "/v1/billing/subscriptions/" ++ id) none w


/-- A sample of `Lib` whose state is the list of the requests sent so far: every
request is answered with status 200, the clock stands at 0, and every token
decodes as the access token `T` that expires in 100 seconds. -/
def recordingLib : Lib (List Request) where
  Do := fun req log => (.ok ⟨200, 0, [], none⟩, log ++ [req])
  Now := fun _ => 0
  NewRequestErr := fun _ _ => none
  BasicAuth := fun id secret => id ++ [58] ++ secret
  TokenCodec := ⟨⟨[], [], [], [], [], 0, 0⟩,
    fun _ z => ({ z with AccessToken := bytes "T", ExpiresIn := 100 }, none)⟩
  ErrorCodec := ⟨⟨0, [], [], [], [], [], [], []⟩, fun _ z => (z, none)⟩

/-- A sample of `Lib` without state: every request is answered with status 404
and the body `E`, which decodes as the error `RESOURCE_NOT_FOUND`. -/
def notFoundLib : Lib Unit where
  Do := fun _ w => (.ok ⟨404, 1, bytes "E", none⟩, w)
  Now := fun _ => 0
  NewRequestErr := fun _ _ => none
  BasicAuth := fun id secret => id ++ [58] ++ secret
  TokenCodec := ⟨⟨[], [], [], [], [], 0, 0⟩, fun _ z => (z, none)⟩
  ErrorCodec := ⟨⟨0, [], [], [], [], [], [], []⟩,
    fun _ z => ({ z with Name := bytes "RESOURCE_NOT_FOUND", DebugID := bytes "d1" }, none)⟩

/-- A decoding of natural numbers: the length of the body. -/
def lengthCodec : Codec Nat := ⟨0, fun bs _ => (bs.length, none)⟩

/-- The byte is one of the class `\s` of the patterns: tab, line feed, form feed,
carriage return or space. -/
def isReSpace (b : Nat) : Bool :=
  b = 9 ∨ b = 10 ∨ b = 12 ∨ b = 13 ∨ b = 32

/-- The runes of an ASCII text: one rune for each byte. -/
def asciiRunes (a : List Nat) : List (List Nat) :=
  a.map (fun b => [b])

/-- A heading region: `<h2`, attributes, `>`, markup, `</div>`, whitespace, the
title text, whitespace, `</h2>`. -/
def titleRegion (attrs markup w1 t w2 : List Nat) : List Nat :=
  bytes "<h2" ++ attrs ++ bytes ">" ++ markup ++ bytes "</div>" ++ w1 ++ t ++ w2 ++ bytes "</h2>"

/-- A title text: not empty, without leading or trailing whitespace (of the class
`\s`), and containing neither `</div>` nor `</h2>`. -/
def TitleText (t : List Nat) : Prop :=
  (∃ b, t.head? = some b ∧ isReSpace b = false) ∧
  (∃ b, t.getLast? = some b ∧ isReSpace b = false) ∧
  ¬ bytes "</div>" <:+: t ∧ ¬ bytes "</h2>" <:+: t

/-- Every byte of the text is a whitespace of the class `\s`. -/
def AllReSpace (w : List Nat) : Prop :=
  ∀ b ∈ w, isReSpace b = true

instance (o : Option Nat) : Decidable (∃ b, o = some b ∧ isReSpace b = false) :=
  match o with
  | none => isFalse (by simp)
  | some c =>
    if h : isReSpace c = false then isTrue ⟨c, rfl, h⟩
    else isFalse (by simpa using h)

instance (t : List Nat) : Decidable (TitleText t) := by
  unfold TitleText; infer_instance

instance (w : List Nat) : Decidable (AllReSpace w) := by
  unfold AllReSpace; infer_instance

/-! ## Theorems -/

/-! ### Region extractor -/

theorem hasPrefix_iff (s pre : List Nat) : hasPrefix s pre = true ↔ pre <+: s := by
  unfold hasPrefix
  exact List.isPrefixOf_iff_prefix

/-- The scan returns the first index at which the pattern occurs. -/
theorem findBytesFrom_first (pattern : List Nat) (hp : pattern ≠ []) :
    ∀ (l : List Nat) (n i : Nat), n ≤ l.length → pattern <+: l.drop n →
      (∀ k < n, ¬ pattern <+: l.drop k) →
      findBytesFrom pattern l i = some ((i + n : Nat) : Int) := by
  intro l
  induction l with
  | nil =>
    intro n i hn hpre _
    simp at hn
    subst hn
    simp at hpre
    exact absurd hpre hp
  | cons b rest ih =>
    intro n i hn hpre hfirst
    obtain ⟨p0, ptl, rfl⟩ := List.exists_cons_of_ne_nil hp
    cases n with
    | zero =>
      have hpre0 : (p0 :: ptl) <+: (b :: rest) := by simpa using hpre
      have hb : b = p0 := (List.cons_prefix_cons.mp hpre0).1.symm
      simp only [findBytesFrom, hasPrefix_iff]
      rw [if_pos ⟨hb, hpre0⟩]
      simp
    | succ m =>
      have h0 : ¬ (p0 :: ptl) <+: (b :: rest) := by
        have := hfirst 0 (Nat.succ_pos m)
        simpa using this
      simp only [findBytesFrom, hasPrefix_iff]
      rw [if_neg (fun h => h0 h.2)]
      have hm : m ≤ rest.length := by simpa using hn
      have := ih m (i + 1) hm (by simpa using hpre) (by
        intro k hk
        have := hfirst (k + 1) (by omega)
        simpa using this)
      rw [this]
      congr 1
      push_cast
      ring

theorem findBytes_of_firstOcc (bs pat : List Nat) (c s : Nat) (hp : pat ≠ [])
    (h : FirstOccFrom bs pat c s) :
    findBytes (bs.drop c) pat = some ((s - c : Nat) : Int) := by
  obtain ⟨hcs, ⟨hsl, hocc⟩, hfirst⟩ := h
  unfold findBytes
  have key := findBytesFrom_first pat hp (bs.drop c) (s - c) 0
    (by simp; omega)
    (by rw [List.drop_drop]; have : c + (s - c) = s := by omega
        rw [this]; exact hocc)
    (by
      intro k hk hpre
      rw [List.drop_drop] at hpre
      exact hfirst (c + k) (by omega) (by omega) ⟨by omega, hpre⟩)
  simpa using key

/-- A `<h2 ` between the cursor and the start marker ends the search: the buffer
`x<h2 <p>a</p>` is well delimited for the markers `<p>` and `</p>` from cursor 0
(start marker at 5, end marker at 9, no `<h2 ` between them), and `findRegion`
returns none and leaves the cursor at 0. -/
theorem findRegion_h2_before_start :
    WellDelimited (bytes "x<h2 <p>a</p>") (bytes "<p>") (bytes "</p>") 0 5 9 ∧
    findRegion (bytes "x<h2 <p>a</p>") (bytes "<p>") (bytes "</p>") 0 = some (none, 0) := by
  decide

/-- When the guard of `findRegion` lets a well-delimited region through: a `<h2 `
occurs at or after the cursor and the first such occurrence `h0` is at the
cursor itself (the conjunct `nextH2 != 0`) or not before the start marker. The
result is then the bytes from the first byte of the start marker through the
last byte of the end marker, and the cursor is just past the end marker. -/
theorem findRegion_of_guard (bs start endM : List Nat) (c s e h0 : Nat)
    (hw : WellDelimited bs start endM c s e)
    (hh : FirstOccFrom bs h2Marker c h0) (hpos : h0 = c ∨ s ≤ h0) :
    findRegion bs start endM c
      = some (some (slice bs s (e + endM.length)), e + endM.length) := by
  obtain ⟨hs, he, hc, hS, hE, hno⟩ := hw
  have hcs : c ≤ s := hS.1
  have hse : s ≤ e := hE.1
  have h1 := findBytes_of_firstOcc bs start c s hs hS
  have h2 := findBytes_of_firstOcc bs endM s e he hE
  have h3 := findBytes_of_firstOcc bs h2Marker c h0 (by decide) hh
  have hch : c ≤ h0 := hh.1
  have hidx : c + ((s - c : Nat) : Int).toNat = s := by
    rw [Int.toNat_ofNat]; omega
  unfold findRegion
  rw [if_neg (by omega), h1]
  simp only []
  rw [if_neg (by omega), hidx, h2]
  simp only []
  rw [if_neg (by omega), h3]
  simp only []
  have hguard : ¬ ((((h0 - c : Nat) : Int) ≠ 0) ∧ (((h0 - c : Nat) : Int) ≠ ((s - c : Nat) : Int))
      ∧ ((h0 - c : Nat) : Int) < ((s - c : Nat) : Int) + ((e - s : Nat) : Int)) := by
    rintro ⟨g1, g2, g3⟩
    rcases hpos with hp | hp
    · apply g1; subst hp; simp
    · have hne : h0 ≠ s := by
        intro hEq; apply g2; rw [hEq]
      have hlt : h0 < e := by omega
      exact hno h0 hlt (by omega) hh.2.1
  rw [if_neg hguard]
  have hnew : c + (((s - c : Nat) : Int) + ((e - s : Nat) : Int) + (endM.length : Int)).toNat
      = e + endM.length := by
    omega
  simp only [hidx, hnew]

/-! ### Word wrapping -/

theorem wrapFuel_fuel (length : Int) :
    ∀ (f1 f2 : Nat) (bs : List Nat), bs.length < f1 → bs.length < f2 →
      wrapFuel f1 bs length = wrapFuel f2 bs length := by
  intro f1
  induction f1 with
  | zero => intro f2 bs h; omega
  | succ a ih =>
    intro f2 bs h1 h2
    cases f2 with
    | zero => omega
    | succ b =>
      simp only [wrapFuel]
      split
      · rfl
      · rename_i hne
        split
        · rfl
        · split
          · rename_i ls heq
            have hd : (bs.drop (ls + 1)).length < bs.length := by
              simp; omega
            rw [ih b (bs.drop (ls + 1)) (by omega) (by omega)]
          · rfl

/-- The recursion equation of the source's `wrap`. -/
theorem wrap_unfold (bs : List Nat) (length : Int) :
    wrap bs length =
      if bs.length = 0 then []
      else if (bs.length : Int) ≤ length then [bs]
      else
        match wrapScan length bs 0 0 with
        | (lastSpace, true) =>
          slice bs 0 lastSpace :: wrap (bs.drop (lastSpace + 1)) length
        | (lastSpace, false) =>
          [slice bs 0 lastSpace, bs.drop (lastSpace + 1)] := by
  conv_lhs => rw [wrap, wrapFuel]
  split
  · rfl
  · rename_i hne
    split
    · rfl
    · split
      · rename_i ls heq
        have hd : (bs.drop (ls + 1)).length < bs.length := by
          simp; omega
        rw [wrapFuel_fuel length bs.length ((bs.drop (ls + 1)).length + 1)
          (bs.drop (ls + 1)) hd (by omega)]
        rfl
      · rfl

theorem wrapScan_high (length : Int) :
    ∀ (rest : List Nat) (i ls : Nat), length < (i : Int) →
      wrapScan length rest i ls = (ls, decide (32 ∈ rest)) := by
  intro rest
  induction rest with
  | nil => intro i ls _; simp [wrapScan]
  | cons b rest ih =>
    intro i ls hi
    by_cases hb : b = 32
    · subst hb
      simp [wrapScan, hi]
    · have hb' : ¬ (32 = b) := fun h => hb h.symm
      simp only [wrapScan, if_neg hb]
      rw [ih (i + 1) ls (by push_cast; omega)]
      simp [hb']

theorem wrapScan_nospace (length : Int) :
    ∀ (pre rest : List Nat) (i ls : Nat), 32 ∉ pre →
      wrapScan length (pre ++ rest) i ls = wrapScan length rest (i + pre.length) ls := by
  intro pre
  induction pre with
  | nil => intro rest i ls _; simp
  | cons b pre ih =>
    intro rest i ls h
    have hb : ¬ b = 32 := by
      intro hb; apply h; simp [hb]
    have hpre : 32 ∉ pre := by
      intro hm; apply h; simp [hm]
    rw [List.cons_append, wrapScan, if_neg hb]
    rw [ih rest (i + 1) ls hpre]
    congr 1
    simp; omega

theorem wrapScan_low (length : Int) :
    ∀ (pre rest : List Nat) (i ls : Nat), ((i + pre.length : Nat) : Int) ≤ length + 1 →
      ∃ ls1, wrapScan length (pre ++ rest) i ls = wrapScan length rest (i + pre.length) ls1 := by
  intro pre
  induction pre with
  | nil => intro rest i ls _; exact ⟨ls, by simp⟩
  | cons b pre ih =>
    intro rest i ls h
    simp only [List.length_cons] at h
    have hi : ¬ ((i : Int) > length) := by push_cast at h; omega
    have hstep : ((i + 1 + pre.length : Nat) : Int) ≤ length + 1 := by
      push_cast at h ⊢; omega
    by_cases hb : b = 32
    · obtain ⟨ls1, h1⟩ := ih rest (i + 1) i hstep
      refine ⟨ls1, ?_⟩
      rw [List.cons_append, wrapScan, if_pos hb, if_neg hi]
      rw [h1]
      congr 1
      simp; omega
    · obtain ⟨ls1, h1⟩ := ih rest (i + 1) ls hstep
      refine ⟨ls1, ?_⟩
      rw [List.cons_append, wrapScan, if_neg hb]
      rw [h1]
      congr 1
      simp; omega

/-- The scan of a text whose last space at or before the limit is at `a.length`. -/
theorem wrapScan_decomp (length : Int) (a b rest : List Nat) (h32 : 32 ∉ b)
    (hk : (a.length : Int) ≤ length) (hn : length < ((a.length + 1 + b.length : Nat) : Int)) :
    wrapScan length (a ++ 32 :: (b ++ rest)) 0 0 = (a.length, decide (32 ∈ rest)) := by
  obtain ⟨ls1, h1⟩ := wrapScan_low length a (32 :: (b ++ rest)) 0 0 (by push_cast; omega)
  rw [h1]
  have hi : ¬ (((0 + a.length : Nat) : Int) > length) := by push_cast; omega
  simp only [wrapScan, if_neg hi, if_true]
  rw [wrapScan_nospace length b rest _ _ h32]
  rw [wrapScan_high length rest _ _ (by push_cast at hn ⊢; omega)]
  simp

/-- Splitting a text at its last space `k` at or before the limit `n`. -/
theorem last_space_decomp (bs : List Nat) (n k : Nat) (hlen : n < bs.length) (hk : k ≤ n)
    (hsp : bs[k]? = some 32) (hmax : ∀ j, k < j → j ≤ n → bs[j]? ≠ some 32) :
    ∃ b, 32 ∉ b ∧ b.length = n - k ∧
      bs = bs.take k ++ 32 :: (b ++ bs.drop (n + 1)) ∧
      bs.drop (k + 1) = b ++ bs.drop (n + 1) := by
  refine ⟨(bs.drop (k + 1)).take (n - k), ?_, ?_, ?_, ?_⟩
  · intro hm
    obtain ⟨idx, hidx⟩ := List.mem_iff_getElem?.mp hm
    rw [List.getElem?_take] at hidx
    split at hidx
    · rw [List.getElem?_drop] at hidx
      exact hmax (k + 1 + idx) (by omega) (by omega) hidx
    · simp at hidx
  · simp; omega
  · have h2 : bs.drop (k + 1) = (bs.drop (k + 1)).take (n - k) ++ bs.drop (n + 1) := by
      conv_lhs => rw [← List.take_append_drop (n - k) (bs.drop (k + 1))]
      rw [List.drop_drop]
      have : k + 1 + (n - k) = n + 1 := by omega
      rw [this]
    have hkl : k < bs.length := by omega
    have h1 : bs.drop k = 32 :: bs.drop (k + 1) := by
      rw [List.drop_eq_getElem_cons hkl]
      congr 1
      rw [List.getElem?_eq_getElem hkl] at hsp
      exact Option.some.inj hsp
    conv_lhs => rw [← List.take_append_drop k bs, h1, h2]
  · conv_lhs => rw [← List.take_append_drop (n - k) (bs.drop (k + 1))]
    rw [List.drop_drop]
    have : k + 1 + (n - k) = n + 1 := by omega
    rw [this]

/-- The break that `wrap` makes in a text longer than the limit `n` whose last
space at or before index `n` is at index `k`. -/
theorem wrap_break (bs : List Nat) (n k : Nat) (hlen : n < bs.length) (hk : k ≤ n)
    (hsp : bs[k]? = some 32) (hmax : ∀ j, k < j → j ≤ n → bs[j]? ≠ some 32) :
    wrap bs (n : Int) =
      if 32 ∈ bs.drop (n + 1) then slice bs 0 k :: wrap (bs.drop (k + 1)) (n : Int)
      else [slice bs 0 k, bs.drop (k + 1)] := by
  obtain ⟨b, h32, hbl, hbs, _⟩ := last_space_decomp bs n k hlen hk hsp hmax
  have hkl : (bs.take k).length = k := by simp; omega
  have hscan : wrapScan (n : Int) bs 0 0 = (k, decide (32 ∈ bs.drop (n + 1))) := by
    have h := wrapScan_decomp (n : Int) (bs.take k) b (bs.drop (n + 1)) h32
      (by rw [hkl]; exact_mod_cast hk) (by rw [hkl, hbl]; push_cast; omega)
    rw [← hbs, hkl] at h
    exact h
  rw [wrap_unfold, if_neg (by omega), if_neg (by omega), hscan]
  by_cases hm : 32 ∈ bs.drop (n + 1)
  · simp [hm]
  · simp [hm]

theorem splitByte_ne_nil (sep : Nat) (l : List Nat) : splitByte sep l ≠ [] := by
  cases l with
  | nil => simp [splitByte]
  | cons b rest =>
    simp only [splitByte]
    split
    · simp
    · split <;> simp

theorem splitByte_nosep (sep : Nat) : ∀ l : List Nat, sep ∉ l → splitByte sep l = [l] := by
  intro l
  induction l with
  | nil => intro _; rfl
  | cons b rest ih =>
    intro h
    have hb : ¬ b = sep := by
      intro hb; apply h; simp [hb]
    have hrest : sep ∉ rest := by
      intro hm; apply h; simp [hm]
    simp [splitByte, hb, ih hrest]

theorem tokensWithin_tail (b : Nat) (rest : List Nat) (n : Nat)
    (h : TokensWithin (b :: rest) n) : TokensWithin rest n := by
  intro t ht
  unfold TokensWithin at h
  simp only [splitByte] at h
  by_cases hb : b = 32
  · rw [if_pos hb] at h
    exact h t (by simp [ht])
  · rw [if_neg hb] at h
    cases hs : splitByte 32 rest with
    | nil => exact absurd hs (splitByte_ne_nil 32 rest)
    | cons seg segs =>
      rw [hs] at h ht
      simp only [List.mem_cons] at ht
      rcases ht with ht | ht
      · have := h (b :: seg) (by simp)
        subst ht
        simp at this
        omega
      · exact h t (by simp [ht])

theorem tokensWithin_drop (n : Nat) :
    ∀ (k : Nat) (bs : List Nat), TokensWithin bs n → TokensWithin (bs.drop k) n := by
  intro k
  induction k with
  | zero => intro bs h; simpa using h
  | succ k ih =>
    intro bs h
    cases bs with
    | nil => simpa using h
    | cons b rest =>
      simp only [List.drop_succ_cons]
      exact ih rest (tokensWithin_tail b rest n h)

theorem splitByte_first_piece :
    ∀ (bs : List Nat) (m : Nat), m ≤ bs.length → (∀ j < m, bs[j]? ≠ some 32) →
      ∃ seg segs, splitByte 32 bs = seg :: segs ∧ m ≤ seg.length := by
  intro bs
  induction bs with
  | nil =>
    intro m hm _
    exact ⟨[], [], rfl, by simpa using hm⟩
  | cons b rest ih =>
    intro m hm hno
    cases m with
    | zero =>
      cases hs : splitByte 32 (b :: rest) with
      | nil => exact absurd hs (splitByte_ne_nil 32 _)
      | cons seg segs => exact ⟨seg, segs, rfl, Nat.zero_le _⟩
    | succ m =>
      have hb : ¬ b = 32 := by
        have := hno 0 (Nat.succ_pos m)
        simpa using this
      obtain ⟨seg, segs, hs, hlen⟩ := ih m (by simpa using hm) (by
        intro j hj
        have := hno (j + 1) (by omega)
        simpa using this)
      refine ⟨b :: seg, segs, ?_, by simp; omega⟩
      simp [splitByte, hb, hs]

theorem tokens_exists_space (bs : List Nat) (n : Nat) (h : TokensWithin bs n)
    (hlen : n < bs.length) : ∃ k, k ≤ n ∧ bs[k]? = some 32 := by
  by_contra hno
  push_neg at hno
  obtain ⟨seg, segs, hs, hl⟩ := splitByte_first_piece bs (n + 1) hlen
    (fun j hj => hno j (by omega))
  have := h seg (by rw [hs]; simp)
  omega

theorem exists_last_space (bs : List Nat) (n : Nat) (h : ∃ k, k ≤ n ∧ bs[k]? = some 32) :
    ∃ k, k ≤ n ∧ bs[k]? = some 32 ∧ ∀ j, k < j → j ≤ n → bs[j]? ≠ some 32 := by
  obtain ⟨k0, hk0, hsp0⟩ := h
  refine ⟨Nat.findGreatest (fun k => bs[k]? = some 32) n, Nat.findGreatest_le n, ?_, ?_⟩
  · exact Nat.findGreatest_spec (P := fun k => bs[k]? = some 32) hk0 hsp0
  · intro j hj hjn
    exact Nat.findGreatest_is_greatest hj hjn

theorem wrap_lines_within_aux (n : Nat) :
    ∀ (m : Nat) (bs : List Nat), bs.length ≤ m → TokensWithin bs n →
      ∀ l ∈ wrap bs (n : Int), l.length ≤ n := by
  intro m
  induction m with
  | zero =>
    intro bs hm _ l hl
    rw [wrap_unfold, if_pos (by omega)] at hl
    simp at hl
  | succ m ih =>
    intro bs hm htok l hl
    by_cases h0 : bs.length = 0
    · rw [wrap_unfold, if_pos h0] at hl
      simp at hl
    by_cases hle : bs.length ≤ n
    · rw [wrap_unfold, if_neg h0, if_pos (by exact_mod_cast hle)] at hl
      simp at hl
      subst hl
      exact hle
    have hlen : n < bs.length := by omega
    obtain ⟨k, hk, hsp, hmax⟩ := exists_last_space bs n (tokens_exists_space bs n htok hlen)
    obtain ⟨b, h32, hbl, hbs, hdrop⟩ := last_space_decomp bs n k hlen hk hsp hmax
    have hline : (slice bs 0 k).length ≤ n := by
      simp [slice]; omega
    rw [wrap_break bs n k hlen hk hsp hmax] at hl
    by_cases hm32 : 32 ∈ bs.drop (n + 1)
    · rw [if_pos hm32] at hl
      simp only [List.mem_cons] at hl
      rcases hl with hl | hl
      · subst hl; exact hline
      · exact ih (bs.drop (k + 1)) (by simp; omega) (tokensWithin_drop n (k + 1) bs htok) l hl
    · rw [if_neg hm32] at hl
      simp only [List.mem_cons, List.mem_singleton, List.not_mem_nil, or_false] at hl
      rcases hl with hl | hl
      · subst hl; exact hline
      · have hns : 32 ∉ bs.drop (k + 1) := by
          rw [hdrop]
          simp [h32, hm32]
        have ht := tokensWithin_drop n (k + 1) bs htok
        unfold TokensWithin at ht
        rw [splitByte_nosep 32 _ hns] at ht
        subst hl
        exact ht _ (by simp)

/-- C2: `wrap` respects the column limit. For every text and every `n ≥ 0`, if
every maximal run of non-space bytes of the text has length at most `n`, then
every line returned by `wrap(text, n)` has length at most `n`. -/
theorem wrap_respects_column_limit (bs : List Nat) (n : Nat) (h : TokensWithin bs n) :
    ∀ l ∈ wrap bs (n : Int), l.length ≤ n :=
  wrap_lines_within_aux n bs.length bs (Nat.le_refl _) h

/-- Witness for C2: the tokens of `ab cd e` fit in 2 columns and so do the lines. -/
theorem wrap_respects_column_limit_witness :
    TokensWithin (bytes "ab cd e") 2 ∧
      ∀ l ∈ wrap (bytes "ab cd e") ((2 : Nat) : Int), l.length ≤ 2 :=
  ⟨by decide, wrap_respects_column_limit (bytes "ab cd e") 2 (by decide)⟩

/-- On a text longer than the limit whose first space is beyond the limit, `wrap`
returns an empty first line and goes on with the text without its first byte. -/
theorem wrap_first_token_overlong (bs : List Nat) (n k : Nat) (hk : n < k)
    (hsp : bs[k]? = some 32) (hfirst : 32 ∉ bs.take k) :
    wrap bs (n : Int) = [] :: wrap (bs.drop 1) (n : Int) := by
  have hkl : k < bs.length := by
    by_contra hge
    rw [List.getElem?_eq_none (by omega)] at hsp
    simp at hsp
  have hdrop : bs.drop k = 32 :: bs.drop (k + 1) := by
    rw [List.drop_eq_getElem_cons hkl]
    congr 1
    rw [List.getElem?_eq_getElem hkl] at hsp
    exact Option.some.inj hsp
  have hscan : wrapScan (n : Int) bs 0 0 = (0, true) := by
    conv_lhs => rw [← List.take_append_drop k bs, hdrop]
    rw [wrapScan_nospace (n : Int) _ _ 0 0 hfirst]
    have hlen : (bs.take k).length = k := by simp; omega
    rw [hlen, wrapScan, if_pos rfl, if_pos (by push_cast; omega)]
  rw [wrap_unfold, if_neg (by omega), if_neg (by omega), hscan]
  simp [slice]

/-- C3 fails on the code: `abcdef gh` is longer than 3 and its first space is at
index 6 > 3, but `wrap` does not return the token `abcdef` as its first line:
it returns three empty lines and loses the bytes `abc`. -/
theorem wrap_overlong_first_token :
    3 < (bytes "abcdef gh").length ∧
    (bytes "abcdef gh")[6]? = some 32 ∧ 32 ∉ (bytes "abcdef gh").take 6 ∧
    wrap (bytes "abcdef gh") 3 = [[], [], [], bytes "def", bytes "gh"] ∧
    (wrap (bytes "abcdef gh") 3).head? ≠ some (slice (bytes "abcdef gh") 0 6) := by
  decide

/-- C4 (as stated) fails. In `ab ` with limit 2 the last space at or before
index 2 is at `k = 2`, and `wrap` returns the two lines `ab` and the empty line,
not `ab` followed by `wrap` of the empty remainder (no line). In `a bcdef` with
limit 3 the last space is at `k = 1`, and `wrap` returns `a` and `bcdef`, not `a`
followed by `wrap("bcdef", 3)`. -/
theorem wrap_recursion_counterexample :
    (2 < (bytes "ab ").length ∧ (bytes "ab ")[2]? = some 32 ∧
      wrap (bytes "ab ") 2 = [bytes "ab", []] ∧
      wrap (bytes "ab ") 2 ≠ slice (bytes "ab ") 0 2 :: wrap ((bytes "ab ").drop (2 + 1)) 2) ∧
    (3 < (bytes "a bcdef").length ∧ (bytes "a bcdef")[1]? = some 32 ∧
      (∀ j ≤ 3, 1 < j → (bytes "a bcdef")[j]? ≠ some 32) ∧
      wrap (bytes "a bcdef") 3 = [bytes "a", bytes "bcdef"] ∧
      wrap (bytes "a bcdef") 3
        ≠ slice (bytes "a bcdef") 0 1 :: wrap ((bytes "a bcdef").drop (1 + 1)) 3) := by
  decide

/-- C4 (amended): for every text with `len(text) > n` that has a space at some
index `≤ n`, with `k` the largest index `≤ n` holding a space: if a space also
occurs at an index `> n`, `wrap(text, n)` is the line `text[0..k)` followed by
`wrap(text[k+1..], n)`; if no space occurs at an index `> n`, `wrap(text, n)` is
the two lines `text[0..k)` and `text[k+1..]`. -/
theorem wrap_greedy_break (bs : List Nat) (n k : Nat) (hlen : n < bs.length) (hk : k ≤ n)
    (hsp : bs[k]? = some 32) (hmax : ∀ j ≤ n, k < j → bs[j]? ≠ some 32) :
    wrap bs (n : Int) =
      if 32 ∈ bs.drop (n + 1) then slice bs 0 k :: wrap (bs.drop (k + 1)) (n : Int)
      else [slice bs 0 k, bs.drop (k + 1)] :=
  wrap_break bs n k hlen hk hsp (fun j hkj hjn => hmax j hjn hkj)

set_option maxRecDepth 100000 in
/-- Witness for C4 (amended): the two texts of `Test_wrap` with limit 40, whose
last space at or before index 40 is at index 32. -/
theorem wrap_greedy_break_witness :
    wrap (bytes "The webhooks for authorizing and capturing payments correspond...") 40
      = [bytes "The webhooks for authorizing and", bytes "capturing payments correspond..."] ∧
    wrap (bytes "The webhooks for authorizing and capturing") 40
      = [bytes "The webhooks for authorizing and", bytes "capturing"] :=
  ⟨(wrap_greedy_break
      (bytes "The webhooks for authorizing and capturing payments correspond...") 40 32
      (by decide) (by decide) (by decide) (by decide)).trans (by decide),
   (wrap_greedy_break (bytes "The webhooks for authorizing and capturing") 40 32
      (by decide) (by decide) (by decide) (by decide)).trans (by decide)⟩

/-! ### Identifier derivation -/

theorem foldlM_flatMap_option {α β γ : Type} (f : α → List β) (g : γ → β → Option γ) :
    ∀ (l : List α) (init : γ),
      (l.flatMap f).foldlM g init = l.foldlM (fun acc x => (f x).foldlM g acc) init := by
  intro l
  induction l with
  | nil => intro init; rfl
  | cons x xs ih =>
    intro init
    rw [List.flatMap_cons, List.foldlM_append, List.foldlM_cons]
    congr 1
    funext acc
    exact ih acc

theorem splitByte_append_sep (sep : Nat) (X : List Nat) :
    ∀ pre : List Nat, sep ∉ pre →
      splitByte sep (pre ++ sep :: X) = pre :: splitByte sep X := by
  intro pre
  induction pre with
  | nil => intro _; simp [splitByte]
  | cons b pre ih =>
    intro h
    have hb : ¬ b = sep := by
      intro hb; apply h; simp [hb]
    have hpre : sep ∉ pre := by
      intro hm; apply h; simp [hm]
    rw [List.cons_append, splitByte, if_neg hb, ih hpre]

theorem splitByte_append_nosep (sep : Nat) (X h : List Nat) (t : List (List Nat))
    (hX : splitByte sep X = h :: t) :
    ∀ pre : List Nat, sep ∉ pre → splitByte sep (pre ++ X) = (pre ++ h) :: t := by
  intro pre
  induction pre with
  | nil => intro _; simpa using hX
  | cons b pre ih =>
    intro hn
    have hb : ¬ b = sep := by
      intro hb; apply hn; simp [hb]
    have hpre : sep ∉ pre := by
      intro hm; apply hn; simp [hm]
    rw [List.cons_append, splitByte, if_neg hb, ih hpre]
    rfl

/-- Splitting on `.` and then on `-` recovers the sub-segments of an event name. -/
theorem split_joinSegs :
    ∀ (rest : List (Nat × List Nat)) (first : List Nat),
      SubSegment first → SeparatedSegments rest →
      (splitByte 46 (joinSegs first rest)).flatMap (splitByte 45)
        = first :: rest.map (fun p => p.2) := by
  intro rest
  induction rest with
  | nil =>
    intro first hf _
    have h46 : 46 ∉ first := fun hm => (hf.2 46 hm).2.1 rfl
    have h45 : 45 ∉ first := fun hm => (hf.2 45 hm).2.2 rfl
    simp [joinSegs, splitByte_nosep 46 first h46, splitByte_nosep 45 first h45]
  | cons p rest ih =>
    intro first hf hr
    have h46 : 46 ∉ first := fun hm => (hf.2 46 hm).2.1 rfl
    have h45 : 45 ∉ first := fun hm => (hf.2 45 hm).2.2 rfl
    obtain ⟨hsep, hseg⟩ := hr p (by simp)
    have hr' : SeparatedSegments rest := fun q hq => hr q (by simp [hq])
    have hih := ih p.2 hseg hr'
    have hjoin : joinSegs first (p :: rest) = first ++ p.1 :: joinSegs p.2 rest := by
      simp [joinSegs]
    rw [hjoin]
    rcases hsep with hsep | hsep
    · rw [hsep, splitByte_append_sep 46 _ first h46, List.flatMap_cons,
        splitByte_nosep 45 first h45, hih]
      simp
    · cases hX : splitByte 46 (joinSegs p.2 rest) with
      | nil => exact absurd hX (splitByte_ne_nil 46 _)
      | cons h t =>
        have h46' : 46 ∉ first ++ [p.1] := by
          rw [hsep]; simp [h46]
        have hsplit := splitByte_append_nosep 46 _ h t hX (first ++ [p.1]) h46'
        have hassoc : first ++ [p.1] ++ joinSegs p.2 rest = first ++ p.1 :: joinSegs p.2 rest := by
          simp
        rw [hassoc] at hsplit
        rw [hsplit, List.flatMap_cons]
        have hassoc2 : first ++ [p.1] ++ h = first ++ 45 :: h := by
          rw [hsep]; simp
        rw [hassoc2, splitByte_append_sep 45 h first h45]
        rw [hX, List.flatMap_cons] at hih
        rw [List.cons_append, hih]
        simp

theorem unicodeToTitle_ascii (u : GoUnicode) (c : Nat) (hc : c < 128) :
    unicodeToTitle u c % 256 = upperASCII c := by
  unfold unicodeToTitle upperASCII
  rw [if_pos (by omega)]
  split <;> omega

theorem bytesToLower_ascii (u : GoUnicode) (s : List Nat) (hs : ∀ b ∈ s, b < 128) :
    bytesToLower u s = s.map lowerASCII := by
  unfold bytesToLower
  rw [if_pos (by simpa using hs)]
  rfl

theorem identifier_fold (u : GoUnicode) :
    ∀ (segs : List (List Nat)) (acc : List Nat), (∀ seg ∈ segs, SubSegment seg) →
      segs.foldlM (identifierStep u) acc = some (acc ++ identifierSpec segs) := by
  intro segs
  induction segs with
  | nil => intro acc _; simp [identifierSpec]
  | cons seg segs ih =>
    intro acc h
    obtain ⟨hne, hb⟩ := h seg (by simp)
    obtain ⟨c, tl, rfl⟩ := List.exists_cons_of_ne_nil hne
    rw [List.foldlM_cons]
    have hstep : identifierStep u acc (c :: tl) = some (acc ++ capitalize (c :: tl)) := by
      simp only [identifierStep, capitalize]
      rw [unicodeToTitle_ascii u c (hb c (by simp)).1,
        bytesToLower_ascii u tl (fun b hm => (hb b (by simp [hm])).1)]
      simp
    rw [hstep]
    simp only [Option.bind_eq_bind, Option.some_bind]
    rw [ih _ (fun s hs => h s (by simp [hs]))]
    simp [identifierSpec]

/-- C5: identifier derivation equals its reference definition. For every event
name that is a sequence of non-empty ASCII sub-segments separated by single `.`
or `-` characters, `eventToGolangIdentifier` returns the concatenation, in
order and with no separators, of each sub-segment with its first character
upper-cased and its remaining characters lower-cased. -/
theorem eventToGolangIdentifier_eq_spec (u : GoUnicode) (first : List Nat)
    (rest : List (Nat × List Nat)) (hf : SubSegment first) (hr : SeparatedSegments rest) :
    eventToGolangIdentifier u (joinSegs first rest)
      = some (identifierSpec (first :: rest.map (fun p => p.2))) := by
  unfold eventToGolangIdentifier
  rw [← foldlM_flatMap_option (splitByte 45) (identifierStep u), split_joinSegs rest first hf hr]
  have := identifier_fold u (first :: rest.map (fun p => p.2)) [] (by
    intro seg hseg
    simp only [List.mem_cons, List.mem_map] at hseg
    rcases hseg with rfl | ⟨p, hp, rfl⟩
    · exact hf
    · exact (hr p hp).2)
  simpa using this

/-- Witness for C5: the event names `PAYMENT.AUTHORIZATION.VOIDED`,
`BILLING.SUBSCRIPTION.PAYMENT.FAILED` and `CHECKOUT.PAYMENT-APPROVAL.REVERSED`. -/
theorem eventToGolangIdentifier_eq_spec_witness :
    eventToGolangIdentifier GoUnicode.identity (bytes "PAYMENT.AUTHORIZATION.VOIDED")
      = some (bytes "PaymentAuthorizationVoided") ∧
    eventToGolangIdentifier GoUnicode.identity (bytes "BILLING.SUBSCRIPTION.PAYMENT.FAILED")
      = some (bytes "BillingSubscriptionPaymentFailed") ∧
    eventToGolangIdentifier GoUnicode.identity (bytes "CHECKOUT.PAYMENT-APPROVAL.REVERSED")
      = some (bytes "CheckoutPaymentApprovalReversed") :=
  ⟨(eventToGolangIdentifier_eq_spec GoUnicode.identity (bytes "PAYMENT")
      [(46, bytes "AUTHORIZATION"), (46, bytes "VOIDED")] (by decide) (by decide)).trans
      (by decide),
   (eventToGolangIdentifier_eq_spec GoUnicode.identity (bytes "BILLING")
      [(46, bytes "SUBSCRIPTION"), (46, bytes "PAYMENT"), (46, bytes "FAILED")]
      (by decide) (by decide)).trans (by decide),
   (eventToGolangIdentifier_eq_spec GoUnicode.identity (bytes "CHECKOUT")
      [(46, bytes "PAYMENT"), (45, bytes "APPROVAL"), (46, bytes "REVERSED")]
      (by decide) (by decide)).trans (by decide)⟩

/-! ### Whitespace collapse -/

theorem removeWhitespaces_foldl :
    ∀ (bs tmp : List Nat) (last : Nat),
      bs.foldl removeWhitespacesStep (tmp, last)
        = (tmp ++ rwAppended last bs, (bs.getLast?).getD last) := by
  intro bs
  induction bs with
  | nil => intro tmp last; simp [rwAppended]
  | cons c rest ih =>
    intro tmp last
    rw [List.foldl_cons]
    have hlast : ((c :: rest).getLast?).getD last = (rest.getLast?).getD c := by
      cases rest with
      | nil => simp
      | cons d r =>
        rw [List.getLast?_cons_cons]
        cases h : (d :: r).getLast? with
        | none => simp at h
        | some x => rfl
    rw [hlast]
    by_cases hc : isWhitespace c = true
    · by_cases hl : isWhitespace last = true
      · have hstep : removeWhitespacesStep (tmp, last) c = (tmp, c) := by
          simp [removeWhitespacesStep, hc, hl]
        rw [hstep, ih]
        simp [hc, hl, rwAppended]
      · have hstep : removeWhitespacesStep (tmp, last) c = (tmp ++ [32], c) := by
          simp [removeWhitespacesStep, hc, hl]
        rw [hstep, ih]
        simp [hc, hl, rwAppended]
    · have hstep : removeWhitespacesStep (tmp, last) c = (tmp ++ [c], c) := by
        simp [removeWhitespacesStep, hc]
      rw [hstep, ih]
      simp [hc, rwAppended]

theorem intercalate_space_cons (x : List Nat) :
    ∀ xs : List (List Nat),
      List.intercalate [32] (x :: xs) = x ++ xs.flatMap (fun w => 32 :: w) := by
  intro xs
  induction xs generalizing x with
  | nil => simp [List.intercalate]
  | cons y ys ih =>
    have := ih y
    simp only [List.intercalate, List.intersperse] at this ⊢
    simp [this]

theorem endsWs_cons (c : Nat) (rest : List Nat) :
    endsWs (c :: rest) = if rest = [] then isWhitespace c else endsWs rest := by
  cases rest with
  | nil => simp [endsWs]
  | cons d r => simp [endsWs, List.getLast?_cons_cons]

theorem splitWs_ne_nil (l : List Nat) : splitWs l ≠ [] := by
  cases l with
  | nil => simp [splitWs]
  | cons b rest =>
    simp only [splitWs]
    split
    · simp
    · split <;> simp

theorem wordsOf_cons_ws (c : Nat) (rest : List Nat) (hc : isWhitespace c = true) :
    wordsOf (c :: rest) = wordsOf rest := by
  simp [wordsOf, splitWs, hc]

theorem wordsOf_cons_nonws (c : Nat) (rest q0 : List Nat) (qs : List (List Nat))
    (hc : isWhitespace c = false) (hs : splitWs rest = q0 :: qs) :
    splitWs (c :: rest) = (c :: q0) :: qs ∧
    wordsOf (c :: rest) = (c :: q0) :: qs.filter (fun w => !w.isEmpty) := by
  have h1 : splitWs (c :: rest) = (c :: q0) :: qs := by
    simp [splitWs, hc, hs]
  exact ⟨h1, by simp [wordsOf, h1]⟩

theorem endsWs_of_wordsOf_nil :
    ∀ rest : List Nat, wordsOf rest = [] → rest ≠ [] → endsWs rest = true := by
  intro rest
  induction rest with
  | nil => intro _ h; exact absurd rfl h
  | cons d r ih =>
    intro hw _
    by_cases hd : isWhitespace d = true
    · rw [wordsOf_cons_ws d r hd] at hw
      rw [endsWs_cons]
      by_cases hr : r = []
      · simp [hr, hd]
      · simp [hr, ih hw hr]
    · cases hs : splitWs r with
      | nil => exact absurd hs (splitWs_ne_nil r)
      | cons q0 qs =>
        have := (wordsOf_cons_nonws d r q0 qs (by simpa using hd) hs).2
        rw [this] at hw
        simp at hw

theorem wordsOf_ne_nil :
    ∀ bs : List Nat, (∃ b ∈ bs, isWhitespace b = false) → wordsOf bs ≠ [] := by
  intro bs
  induction bs with
  | nil => intro h; simp at h
  | cons c rest ih =>
    intro h
    by_cases hc : isWhitespace c = true
    · rw [wordsOf_cons_ws c rest hc]
      apply ih
      obtain ⟨b, hb, hws⟩ := h
      simp only [List.mem_cons] at hb
      rcases hb with rfl | hb
      · rw [hc] at hws; exact absurd hws (by simp)
      · exact ⟨b, hb, hws⟩
    · cases hs : splitWs rest with
      | nil => exact absurd hs (splitWs_ne_nil rest)
      | cons q0 qs =>
        rw [(wordsOf_cons_nonws c rest q0 qs (by simpa using hc) hs).2]
        simp

/-- What the loop of `RemoveWhitespaces` appends, in terms of the maximal runs of
non-whitespace bytes: after a whitespace, the runs joined by single spaces; after
a non-whitespace, the rest of the current run and then each further run preceded
by a space; in both cases followed by one space if the text ends in whitespace. -/
theorem rwAppended_char :
    ∀ bs : List Nat,
      (∀ last, isWhitespace last = true →
        rwAppended last bs = List.intercalate [32] (wordsOf bs)
          ++ (if endsWs bs = true ∧ wordsOf bs ≠ [] then [32] else [])) ∧
      (∀ last, isWhitespace last = false →
        ∃ p0 ps, splitWs bs = p0 :: ps ∧
          rwAppended last bs = p0 ++ (ps.filter (fun w => !w.isEmpty)).flatMap (fun w => 32 :: w)
            ++ (if endsWs bs = true then [32] else [])) := by
  intro bs
  induction bs with
  | nil =>
    refine ⟨fun last _ => ?_, fun last _ => ⟨[], [], rfl, ?_⟩⟩
    · simp [rwAppended, wordsOf, splitWs, endsWs, List.intercalate]
    · simp [rwAppended, endsWs]
  | cons c rest ih =>
    obtain ⟨ihA, ihB⟩ := ih
    by_cases hc : isWhitespace c = true
    · have hA := ihA c hc
      have hends : endsWs (c :: rest) = if rest = [] then true else endsWs rest := by
        rw [endsWs_cons, hc]
      refine ⟨fun last hl => ?_, fun last hl => ⟨[], splitWs rest, by simp [splitWs, hc], ?_⟩⟩
      · rw [wordsOf_cons_ws c rest hc]
        simp only [rwAppended, hc, hl, if_true]
        rw [hA, hends]
        by_cases hr : rest = []
        · subst hr
          simp [wordsOf, splitWs, endsWs]
        · simp [hr]
      · simp only [rwAppended, hc, hl, if_true]
        rw [hA, hends]
        cases hw : wordsOf rest with
        | nil =>
          by_cases hr : rest = []
          · subst hr
            simp [wordsOf, splitWs, List.intercalate]
          · have he := endsWs_of_wordsOf_nil rest hw hr
            unfold wordsOf at hw
            simp [hr, he, hw, List.intercalate]
        | cons w ws =>
          have hr : rest ≠ [] := by
            intro hr; subst hr; simp [wordsOf, splitWs] at hw
          rw [intercalate_space_cons]
          unfold wordsOf at hw
          simp [hr, hw]
    · have hc' : isWhitespace c = false := by simpa using hc
      obtain ⟨q0, qs, hs, happ⟩ := ihB c hc'
      obtain ⟨hsplit, hwords⟩ := wordsOf_cons_nonws c rest q0 qs hc' hs
      have hends : endsWs (c :: rest) = endsWs rest := by
        rw [endsWs_cons]
        by_cases hr : rest = []
        · subst hr; simp [hc', endsWs]
        · simp [hr]
      refine ⟨fun last _ => ?_, fun last _ => ⟨c :: q0, qs, hsplit, ?_⟩⟩
      · simp only [rwAppended, hc']
        rw [happ, hwords, intercalate_space_cons, hends]
        simp
      · simp only [rwAppended, hc']
        rw [happ, hends]
        simp

theorem splitWs_no_ws :
    ∀ bs : List Nat, ∀ p ∈ splitWs bs, ∀ b ∈ p, isWhitespace b = false := by
  intro bs
  induction bs with
  | nil => intro p hp b hb; simp [splitWs] at hp; subst hp; simp at hb
  | cons c rest ih =>
    intro p hp b hb
    by_cases hc : isWhitespace c = true
    · simp only [splitWs, hc, if_true, List.mem_cons] at hp
      rcases hp with rfl | hp
      · simp at hb
      · exact ih p hp b hb
    · have hc' : isWhitespace c = false := by simpa using hc
      cases hs : splitWs rest with
      | nil => exact absurd hs (splitWs_ne_nil rest)
      | cons q0 qs =>
        rw [(wordsOf_cons_nonws c rest q0 qs hc' hs).1] at hp
        simp only [List.mem_cons] at hp
        rcases hp with rfl | hp
        · simp only [List.mem_cons] at hb
          rcases hb with rfl | hb
          · exact hc'
          · exact ih q0 (by rw [hs]; simp) b hb
        · exact ih p (by rw [hs]; simp [hp]) b hb

theorem wordsOf_word (bs w : List Nat) (hw : w ∈ wordsOf bs) :
    w ≠ [] ∧ ∀ b ∈ w, isWhitespace b = false := by
  unfold wordsOf at hw
  rw [List.mem_filter] at hw
  refine ⟨?_, splitWs_no_ws bs w hw.1⟩
  intro h
  subst h
  simp at hw

theorem flatMap_space_getLast :
    ∀ ws : List (List Nat), ws ≠ [] →
      (∀ w ∈ ws, w ≠ [] ∧ ∀ b ∈ w, isWhitespace b = false) →
      ∃ d, (ws.flatMap (fun w => 32 :: w)).getLast? = some d ∧ isWhitespace d = false := by
  intro ws
  induction ws with
  | nil => intro h; exact absurd rfl h
  | cons x ys ih =>
    intro _ hall
    obtain ⟨hx, hxb⟩ := hall x (by simp)
    by_cases hys : ys = []
    · subst hys
      refine ⟨x.getLast hx, ?_, hxb _ (List.getLast_mem hx)⟩
      simp [List.getLast?_cons_cons, List.getLast?_eq_getLast, hx]
    · obtain ⟨d, hd, hdw⟩ := ih hys (fun w hw => hall w (by simp [hw]))
      refine ⟨d, ?_, hdw⟩
      rw [List.flatMap_cons]
      have hne : ys.flatMap (fun w => 32 :: w) ≠ [] := by
        intro h; rw [h] at hd; simp at hd
      rw [List.getLast?_append_of_ne_nil _ hne]
      exact hd

/-- On a text with a non-whitespace byte `RemoveWhitespaces` returns the runs of
non-whitespace bytes joined by single spaces, and this text begins and ends with
a non-whitespace byte. -/
theorem removeWhitespaces_collapse (bs : List Nat) (h : ∃ b ∈ bs, isWhitespace b = false) :
    Parser.RemoveWhitespaces (NewParser bs) = some (NewParser (collapseSpec bs)) ∧
    (∃ c d, (collapseSpec bs).head? = some c ∧ isWhitespace c = false ∧
      (collapseSpec bs).getLast? = some d ∧ isWhitespace d = false) := by
  have hw := wordsOf_ne_nil bs h
  have hne : bs ≠ [] := by
    obtain ⟨b, hb, _⟩ := h
    intro hnil; subst hnil; simp at hb
  constructor
  · have hA := (rwAppended_char bs).1 32 (by decide)
    have hlast : isWhitespace ((bs.getLast?).getD 32) = endsWs bs := by
      unfold endsWs
      cases hg : bs.getLast? with
      | none => simp at hg; exact absurd hg hne
      | some c => simp
    unfold Parser.RemoveWhitespaces NewParser
    simp only []
    rw [if_neg (by simpa using hne), removeWhitespaces_foldl]
    simp only [List.nil_append, hlast]
    rw [hA]
    by_cases he : endsWs bs = true
    · simp [he, hw, slice, collapseSpec]
    · simp [he, collapseSpec]
  · obtain ⟨w, ws, hws⟩ := List.exists_cons_of_ne_nil hw
    have hall := fun x hx => wordsOf_word bs x hx
    rw [hws] at hall
    obtain ⟨hwne, hwb⟩ := hall w (by simp)
    obtain ⟨c, t, rfl⟩ := List.exists_cons_of_ne_nil hwne
    unfold collapseSpec
    rw [hws, intercalate_space_cons]
    by_cases hnil : ws = []
    · subst hnil
      refine ⟨c, (c :: t).getLast (by simp), by simp, hwb c (by simp), ?_,
        hwb _ (List.getLast_mem _)⟩
      simp [List.getLast?_eq_getLast]
    · obtain ⟨d, hd, hdw⟩ := flatMap_space_getLast ws hnil (fun x hx => hall x (by simp [hx]))
      refine ⟨c, d, by simp, hwb c (by simp), ?_, hdw⟩
      have hne2 : ws.flatMap (fun w => 32 :: w) ≠ [] := by
        intro h0; rw [h0] at hd; simp at hd
      rw [List.getLast?_append_of_ne_nil _ hne2]
      exact hd

/-- C8: whitespace collapse equals its reference definition. For every input
containing at least one non-whitespace byte (whitespace is space, tab, newline),
`RemoveWhitespaces` returns the input's maximal runs of non-whitespace bytes, in
order and unchanged, joined by exactly one space each; the result begins and ends
with a non-whitespace byte, so it has no leading and no trailing space. -/
theorem removeWhitespaces_eq_spec (bs : List Nat) (h : ∃ b ∈ bs, isWhitespace b = false) :
    Parser.RemoveWhitespaces (NewParser bs) = some (NewParser (collapseSpec bs)) ∧
    (∃ c d, (collapseSpec bs).head? = some c ∧ isWhitespace c = false ∧
      (collapseSpec bs).getLast? = some d ∧ isWhitespace d = false) :=
  removeWhitespaces_collapse bs h

set_option maxRecDepth 100000 in
/-- Witness for C8: the text of `Test_removeWhitespaces`. -/
theorem removeWhitespaces_eq_spec_witness :
    Parser.RemoveWhitespaces (NewParser (bytes
      "\n    The webhooks for orders correspond to both supported versions\n    of the Orders API:\n  "))
      = some (NewParser (bytes
      "The webhooks for orders correspond to both supported versions of the Orders API:")) :=
  (removeWhitespaces_eq_spec _ (by decide)).1.trans (by decide)

theorem rwAppended_blank :
    ∀ (bs : List Nat) (last : Nat), isWhitespace last = true →
      (∀ b ∈ bs, isWhitespace b = true) → rwAppended last bs = [] := by
  intro bs
  induction bs with
  | nil => intro _ _ _; rfl
  | cons c rest ih =>
    intro last hl hall
    have hc := hall c (by simp)
    simp only [rwAppended, hc, hl, if_true]
    simpa using ih c hc (fun b hb => hall b (by simp [hb]))

/-- On every non-empty text of whitespace bytes only `RemoveWhitespaces` panics. -/
theorem removeWhitespaces_blank (bs : List Nat) (hne : bs ≠ [])
    (hall : ∀ b ∈ bs, isWhitespace b = true) :
    Parser.RemoveWhitespaces (NewParser bs) = none := by
  have hlast : isWhitespace ((bs.getLast?).getD 32) = true := by
    cases hg : bs.getLast? with
    | none => rfl
    | some c => exact hall c (List.mem_of_getLast?_eq_some hg)
  unfold Parser.RemoveWhitespaces NewParser
  simp only []
  rw [if_neg (by simpa using hne), removeWhitespaces_foldl]
  simp only [List.nil_append, hlast, if_true]
  rw [rwAppended_blank bs 32 (by decide) hall]
  simp

/-- C9 fails on the code: on the one-space text (and on any other non-empty text
of whitespace bytes only) `RemoveWhitespaces` does not return the empty text: the
slice `tmp[:len(tmp)-1]` of the empty `tmp` panics. The empty text is returned
unchanged. -/
theorem removeWhitespaces_whitespace_only_panics :
    Parser.RemoveWhitespaces (NewParser (bytes " ")) = none ∧
    Parser.RemoveWhitespaces (NewParser (bytes " \t\n ")) = none ∧
    Parser.RemoveWhitespaces (NewParser []) = some (NewParser []) := by
  decide

/-! ### Description -/

/-- On a paragraph region whose captured text has a non-whitespace byte,
`parseDescription` returns no error and the whitespace-collapsed captured text
without its trailing `:`, if it has one. -/
theorem parseDescription_of_match (bs c : List Nat)
    (hm : getFirstMatch reDesc bs = some (c, none))
    (hc : ∃ b ∈ c, isWhitespace b = false) :
    parseDescription bs = some (stripColon (collapseSpec c), none) := by
  obtain ⟨hrw, x, d, _, _, hlast, _⟩ := removeWhitespaces_collapse c hc
  have hne : collapseSpec c ≠ [] := by
    intro h; rw [h] at hlast; simp at hlast
  have hidx : (collapseSpec c)[(collapseSpec c).length - 1]? = (collapseSpec c).getLast? := by
    rw [List.getLast?_eq_getElem?]
  unfold parseDescription
  rw [hm]
  simp only []
  rw [hrw]
  simp only [Parser.Bytes, NewParser]
  rw [hidx, hlast]
  simp only []
  unfold stripColon
  rw [hlast]
  by_cases hd : d = 58
  · subst hd
    simp [slice, List.dropLast_eq_take]
  · simp [hd]

set_option maxRecDepth 100000 in
/-- C10 fails on the code. The region `<p> </p>` matches the description pattern
with captured text one space, and `parseDescription` does not return its
collapsed form (the empty text): it panics in `RemoveWhitespaces`. On the region
of `Test_parseDescription` it returns the expected text. -/
theorem parseDescription_blank_paragraph :
    getFirstMatch reDesc (bytes "<p> </p>") = some (bytes " ", none) ∧
    parseDescription (bytes "<p> </p>") = none ∧
    parseDescription (bytes
      "<p>\n    The webhooks for orders correspond to both supported versions of the Orders\n    API:\n</p>")
      = some (bytes
      "The webhooks for orders correspond to both supported versions of the Orders API", none) := by
  decide

/-! ### Fail-fast on a malformed row -/

set_option maxRecDepth 100000 in
/-- C7 fails on the code. In the document below the table of version `V` of the
first group is extracted and its row fragment `<tr>x</tr>` does not match the
row pattern, but `parsePayPal` returns both groups with no error: the `break`
after the failed `parseWebhooks` leaves only the inner loop, and the next
`parseTitle` overwrites `err`. The same table without a version heading does
give the error wrapped with `webhooks`. -/
theorem parsePayPal_versioned_row_error_lost :
    findRegion (bytes
      "<h2 >a</div>T</h2><h3 div>V</h3><tbody><tr>x</tr></tbody><h2 >b</div>U</h2>")
      (bytes "<tbody>") (bytes "</tbody>") 32
      = some (some (bytes "<tbody><tr>x</tr></tbody>"), 57) ∧
    reWebhooks.FindAll (bytes "<tbody><tr>x</tr></tbody>") = [bytes "<tr>x</tr>"] ∧
    parseWebhook GoUnicode.identity (bytes "<tr>x</tr>") = some (Result.error ParseError.noMatch) ∧
    parsePayPal GoUnicode.identity (bytes
      "<h2 >a</div>T</h2><h3 div>V</h3><tbody><tr>x</tr></tbody><h2 >b</div>U</h2>")
      = some ([⟨bytes "T", ⟨[], []⟩, []⟩, ⟨bytes "U", ⟨[], []⟩, []⟩], none) ∧
    parsePayPal GoUnicode.identity (bytes
      "<h2 >a</div>T</h2><tbody><tr>x</tr></tbody><h2 >b</div>U</h2>")
      = some ([⟨bytes "T", ⟨[], []⟩, []⟩],
          some (ParseError.wrapped "webhooks" ParseError.noMatch)) := by
  decide

/-! ### Repeated-detection -/

theorem parseWebhooksLoop_char (u : GoUnicode) :
    ∀ (rows : List (List Nat)) (hc : HookCount) (res : List Webhook),
      (∀ r ∈ rows, (parsedRow u r).isSome = true) →
      parseWebhooksLoop u rows hc res
        = some (Result.ok (res ++ markRepeated hc (rows.filterMap (parsedRow u))),
            (rows.filterMap (parsedRow u)).foldl bumpCount hc) := by
  intro rows
  induction rows with
  | nil => intro hc res _; simp [parseWebhooksLoop, markRepeated]
  | cons r rows ih =>
    intro hc res h
    have hr := h r (by simp)
    have hrest : ∀ r' ∈ rows, (parsedRow u r').isSome = true :=
      fun r' hr' => h r' (by simp [hr'])
    obtain ⟨w, hw⟩ := Option.isSome_iff_exists.mp hr
    have hpw : parseWebhook u r = some (Result.ok w) := by
      unfold parsedRow at hw
      split at hw
      · rename_i w' heq
        rw [heq]
        simp at hw
        rw [hw]
      · simp at hw
    rw [parseWebhooksLoop, hpw]
    simp only []
    rw [List.filterMap_cons, hw]
    simp only [List.foldl_cons, markRepeated]
    have hb : (if (!w.IsRef) = true then
          fun k => if k = w.Event then hc w.Event + 1 else hc k
        else hc) = bumpCount hc w := rfl
    rw [hb, ih (bumpCount hc w) _ hrest]
    simp

theorem markRepeated_append :
    ∀ (a b : List Webhook) (hc : HookCount),
      markRepeated hc (a ++ b) = markRepeated hc a ++ markRepeated (a.foldl bumpCount hc) b := by
  intro a
  induction a with
  | nil => intro b hc; simp [markRepeated]
  | cons w a ih => intro b hc; simp [markRepeated, ih]

theorem parseTables_char (u : GoUnicode) :
    ∀ (tables : List (List Nat)) (hc : HookCount) (acc : List Webhook),
      (∀ r ∈ tables.flatMap reWebhooks.FindAll, (parsedRow u r).isSome = true) →
      parseTables u tables hc acc
        = some (Result.ok (acc ++ markRepeated hc
            ((tables.flatMap reWebhooks.FindAll).filterMap (parsedRow u))),
            ((tables.flatMap reWebhooks.FindAll).filterMap (parsedRow u)).foldl bumpCount hc) := by
  intro tables
  induction tables with
  | nil => intro hc acc _; simp [parseTables, markRepeated]
  | cons t ts ih =>
    intro hc acc h
    have h1 : ∀ r ∈ reWebhooks.FindAll t, (parsedRow u r).isSome = true :=
      fun r hr => h r (by simp [hr])
    have h2 : ∀ r ∈ ts.flatMap reWebhooks.FindAll, (parsedRow u r).isSome = true :=
      fun r hr => h r (by
        rw [List.flatMap_cons, List.mem_append]; exact Or.inr hr)
    rw [parseTables, parseWebhooks, parseWebhooksLoop_char u _ hc [] h1]
    simp only [List.nil_append]
    rw [ih _ _ h2, List.flatMap_cons, List.filterMap_append, markRepeated_append,
      List.foldl_append]
    simp

theorem bumpCount_apply (hc : HookCount) (w : Webhook) (e : List Nat) :
    bumpCount hc w e = hc e + (if w.Event = e ∧ w.IsRef = false then 1 else 0) := by
  unfold bumpCount
  by_cases href : w.IsRef = true
  · simp [href]
  · have href' : w.IsRef = false := by simpa using href
    by_cases he : e = w.Event
    · subst he; simp [href']
    · have he' : ¬ w.Event = e := fun h => he h.symm
      simp [href', he, he']

theorem foldl_bumpCount_apply (e : List Nat) :
    ∀ (pre : List Webhook) (hc : HookCount),
      pre.foldl bumpCount hc e
        = hc e + ((pre.countP (fun w => decide (w.Event = e ∧ w.IsRef = false)) : Nat) : Int) := by
  intro pre
  induction pre with
  | nil => intro hc; simp
  | cons w pre ih =>
    intro hc
    rw [List.foldl_cons, ih, bumpCount_apply, List.countP_cons]
    by_cases hw : w.Event = e ∧ w.IsRef = false
    · simp [hw]; ring
    · simp [hw]

theorem markRepeated_getElem? :
    ∀ (ws0 : List Webhook) (hc : HookCount) (k : Nat),
      (markRepeated hc ws0)[k]? = (ws0[k]?).map (fun w0 =>
        (⟨decide ((ws0.take k).foldl bumpCount hc w0.Event ≠ 0), w0.ID, w0.Event, w0.Trigger,
          w0.RelatedMethod⟩ : Webhook)) := by
  intro ws0
  induction ws0 with
  | nil => intro hc k; simp [markRepeated]
  | cons w ws ih =>
    intro hc k
    cases k with
    | zero => simp [markRepeated]
    | succ k => simp [markRepeated, ih]

theorem markRepeated_length :
    ∀ (ws0 : List Webhook) (hc : HookCount), (markRepeated hc ws0).length = ws0.length := by
  intro ws0
  induction ws0 with
  | nil => intro hc; rfl
  | cons w ws ih => intro hc; simp [markRepeated, ih]

theorem filterMap_all_some {α β : Type} (f : α → Option β) :
    ∀ (l : List α), (∀ a ∈ l, (f a).isSome = true) →
      (l.filterMap f).length = l.length ∧
      ∀ k : Nat, (l.filterMap f)[k]? = (l[k]?).bind f := by
  intro l
  induction l with
  | nil => intro _; simp
  | cons a l ih =>
    intro h
    obtain ⟨b, hb⟩ := Option.isSome_iff_exists.mp (h a (by simp))
    obtain ⟨hlen, hget⟩ := ih (fun x hx => h x (by simp [hx]))
    rw [List.filterMap_cons, hb]
    refine ⟨by simp [hlen], ?_⟩
    intro k
    cases k with
    | zero => simp [hb]
    | succ k => simp [hget]

theorem parsedRow_eq_some (u : GoUnicode) (r : List Nat) (w : Webhook)
    (h : parsedRow u r = some w) :
    parseWebhook u r = some (Result.ok w) ∧ w.Repeated = false := by
  have hpw : parseWebhook u r = some (Result.ok w) := by
    unfold parsedRow at h
    split at h
    · rename_i w' heq
      rw [heq]
      simp at h
      rw [h]
    · simp at h
  refine ⟨hpw, ?_⟩
  unfold parseWebhook at hpw
  split at hpw
  · simp at hpw
  · split at hpw
    · split at hpw
      · simp at hpw
      · split at hpw
        · simp at hpw
        · split at hpw
          · simp at hpw
          · split at hpw
            · simp at hpw
            · simp at hpw
              rw [← hpw]
    · simp at hpw

/-- C6: repeated-detection. For every sequence of tables whose row fragments all
parse, parsed in document order against one counter that starts empty, exactly
one `Webhook` is produced per row (the `k`-th is the webhook of the `k`-th row),
and the `k`-th produced webhook has `Repeated = true` if and only if some
earlier row has the same `Event` and is not a reference row. -/
theorem repeated_detection (u : GoUnicode) (tables : List (List Nat))
    (h : ∀ r ∈ tables.flatMap reWebhooks.FindAll, (parsedRow u r).isSome = true) :
    ∃ ws hc, parseTables u tables (fun _ => 0) [] = some (Result.ok ws, hc) ∧
      ws.length = (tables.flatMap reWebhooks.FindAll).length ∧
      ∀ (k : Nat) (w : Webhook), ws[k]? = some w →
        (∃ r, (tables.flatMap reWebhooks.FindAll)[k]? = some r ∧
          parseWebhook u r
            = some (Result.ok ⟨false, w.ID, w.Event, w.Trigger, w.RelatedMethod⟩)) ∧
        (w.Repeated = true ↔
          ∃ (j : Nat) (w' : Webhook),
            j < k ∧ ws[j]? = some w' ∧ w'.Event = w.Event ∧ w'.IsRef = false) := by
  have hchar := parseTables_char u tables (fun _ => 0) [] h
  obtain ⟨hlen, hget⟩ := filterMap_all_some (parsedRow u) _ h
  generalize hws0 : (tables.flatMap reWebhooks.FindAll).filterMap (parsedRow u) = ws0
    at hchar hlen hget
  refine ⟨_, _, hchar, ?_, ?_⟩
  · rw [List.nil_append, markRepeated_length, hlen]
  · intro k w hk
    rw [List.nil_append, markRepeated_getElem?, Option.map_eq_some'] at hk
    obtain ⟨w0, hw0, hw⟩ := hk
    have hrow := hget k
    rw [hw0] at hrow
    obtain ⟨r, hr, hpr⟩ := Option.bind_eq_some.mp hrow.symm
    obtain ⟨hpw, hrep⟩ := parsedRow_eq_some u r w0 hpr
    have hE : w.Event = w0.Event := by rw [← hw]
    have hI : w.ID = w0.ID := by rw [← hw]
    have hT : w.Trigger = w0.Trigger := by rw [← hw]
    have hR : w.RelatedMethod = w0.RelatedMethod := by rw [← hw]
    constructor
    · refine ⟨r, hr, ?_⟩
      rw [hpw, hE, hI, hT, hR, ← hrep]
    · have hRep : w.Repeated
          = decide (List.foldl bumpCount (fun _ => 0) (ws0.take k) w0.Event ≠ 0) := by
        rw [← hw]
      rw [hRep, foldl_bumpCount_apply]
      simp only [zero_add, ne_eq, Nat.cast_eq_zero, decide_eq_true_eq]
      rw [← ne_eq, ← Nat.pos_iff_ne_zero, List.countP_pos_iff]
      constructor
      · rintro ⟨w', hmem, hp⟩
        simp only [decide_eq_true_eq] at hp
        obtain ⟨j, hj⟩ := List.mem_iff_getElem?.mp hmem
        rw [List.getElem?_take] at hj
        split at hj
        · rename_i hjk
          refine ⟨j, ⟨decide (List.foldl bumpCount (fun _ => 0) (ws0.take j) w'.Event ≠ 0),
              w'.ID, w'.Event, w'.Trigger, w'.RelatedMethod⟩, hjk, ?_, ?_, ?_⟩
          · rw [List.nil_append, markRepeated_getElem?, hj]
            rfl
          · rw [hE]; exact hp.1
          · exact hp.2
        · simp at hj
      · rintro ⟨j, w', hjk, hj, hev, hnr⟩
        rw [List.nil_append, markRepeated_getElem?, Option.map_eq_some'] at hj
        obtain ⟨w0', hw0', hw'⟩ := hj
        refine ⟨w0', ?_, ?_⟩
        · apply List.mem_iff_getElem?.mpr
          refine ⟨j, ?_⟩
          rw [List.getElem?_take, if_pos hjk]
          exact hw0'
        · simp only [decide_eq_true_eq]
          constructor
          · rw [← hE, ← hev, ← hw']
          · rw [← hnr, ← hw']
            rfl

set_option maxRecDepth 100000 in
/-- Witness for C6: two tables, the first with one row for `A.B`, the second
with a reference row for `A.B`, a row for `C.D` and another row for `A.B`. -/
theorem repeated_detection_witness :
    ∃ ws hc, parseTables GoUnicode.identity
        [bytes "<tbody><tr><td><code>A.B</code></td><td>t</td><td></td></tr></tbody>",
         bytes ("<tbody><tr><td><code>A.B</code></td><td>See t</td><td></td></tr>"
           ++ "<tr><td><code>C.D</code></td><td>t</td><td></td></tr>"
           ++ "<tr><td><code>A.B</code></td><td>t</td><td></td></tr></tbody>")]
        (fun _ => 0) [] = some (Result.ok ws, hc) ∧
      ws.length = ([bytes "<tbody><tr><td><code>A.B</code></td><td>t</td><td></td></tr></tbody>",
         bytes ("<tbody><tr><td><code>A.B</code></td><td>See t</td><td></td></tr>"
           ++ "<tr><td><code>C.D</code></td><td>t</td><td></td></tr>"
           ++ "<tr><td><code>A.B</code></td><td>t</td><td></td></tr></tbody>")].flatMap
           reWebhooks.FindAll).length ∧
      ∀ (k : Nat) (w : Webhook), ws[k]? = some w →
        (∃ r, ([bytes "<tbody><tr><td><code>A.B</code></td><td>t</td><td></td></tr></tbody>",
         bytes ("<tbody><tr><td><code>A.B</code></td><td>See t</td><td></td></tr>"
           ++ "<tr><td><code>C.D</code></td><td>t</td><td></td></tr>"
           ++ "<tr><td><code>A.B</code></td><td>t</td><td></td></tr></tbody>")].flatMap
           reWebhooks.FindAll)[k]? = some r ∧
          parseWebhook GoUnicode.identity r
            = some (Result.ok ⟨false, w.ID, w.Event, w.Trigger, w.RelatedMethod⟩)) ∧
        (w.Repeated = true ↔
          ∃ (j : Nat) (w' : Webhook),
            j < k ∧ ws[j]? = some w' ∧ w'.Event = w.Event ∧ w'.IsRef = false) :=
  repeated_detection GoUnicode.identity _ (by decide!)

/-! ### Section boundaries -/

/-- What the scan returns: `-1` when the pattern occurs nowhere, and otherwise
the first index at which it occurs. -/
theorem findBytesFrom_spec (pattern : List Nat) (hp : pattern ≠ []) :
    ∀ (l : List Nat) (i : Nat),
      (findBytesFrom pattern l i = some (-1) ∧ ∀ k, ¬ pattern <+: l.drop k) ∨
      (∃ n, n < l.length ∧ findBytesFrom pattern l i = some ((i + n : Nat) : Int) ∧
        pattern <+: l.drop n ∧ ∀ k < n, ¬ pattern <+: l.drop k) := by
  intro l
  induction l with
  | nil =>
    intro i
    left
    refine ⟨rfl, ?_⟩
    intro k hk
    simp at hk
    exact hp hk
  | cons b rest ih =>
    intro i
    obtain ⟨p0, ptl, rfl⟩ := List.exists_cons_of_ne_nil hp
    by_cases h0 : (p0 :: ptl) <+: (b :: rest)
    · right
      refine ⟨0, by simp, ?_, by simpa using h0, by intro k hk; omega⟩
      have hb : b = p0 := (List.cons_prefix_cons.mp h0).1.symm
      simp only [findBytesFrom, hasPrefix_iff]
      rw [if_pos ⟨hb, h0⟩]
      simp
    · have hstep : findBytesFrom (p0 :: ptl) (b :: rest) i
          = findBytesFrom (p0 :: ptl) rest (i + 1) := by
        simp only [findBytesFrom, hasPrefix_iff]
        rw [if_neg (fun h => h0 h.2)]
      rcases ih (i + 1) with ⟨hm, hno⟩ | ⟨n, hn, hf, hocc, hfirst⟩
      · left
        refine ⟨by rw [hstep, hm], ?_⟩
        intro k
        cases k with
        | zero => simpa using h0
        | succ k => simpa using hno k
      · right
        refine ⟨n + 1, by simp; omega, ?_, by simpa using hocc, ?_⟩
        · rw [hstep, hf]
          congr 1
          push_cast
          ring
        · intro k hk
          cases k with
          | zero => simpa using h0
          | succ k => simpa using hfirst k (by omega)

/-- The result of `findBytes` on `bs[c:]` in terms of the occurrences in `bs`. -/
theorem findBytes_drop_spec (bs pat : List Nat) (c : Nat) (hp : pat ≠ []) (hc : c ≤ bs.length) :
    (findBytes (bs.drop c) pat = some (-1) ∧ ∀ k, c ≤ k → ¬ OccursAt bs pat k) ∨
    (∃ s, FirstOccFrom bs pat c s ∧ findBytes (bs.drop c) pat = some ((s - c : Nat) : Int)) := by
  unfold findBytes
  rcases findBytesFrom_spec pat hp (bs.drop c) 0 with ⟨hm, hno⟩ | ⟨n, hn, hf, hocc, hfirst⟩
  · left
    refine ⟨hm, ?_⟩
    intro k hk hocc
    apply hno (k - c)
    rw [List.drop_drop]
    have : c + (k - c) = k := by omega
    rw [this]
    exact hocc.2
  · right
    have hlen : c + n < bs.length := by
      simp at hn; omega
    refine ⟨c + n, ⟨by omega, ⟨by omega, ?_⟩, ?_⟩, ?_⟩
    · rw [List.drop_drop] at hocc; exact hocc
    · intro k hk hck hoc
      apply hfirst (k - c) (by omega)
      rw [List.drop_drop]
      have : c + (k - c) = k := by omega
      rw [this]
      exact hoc.2
    · rw [hf]
      congr 1
      simp

/-- What a returned region is: the markers are found at `s` and `e`, a `<h2 ` is
found at `h`, at the cursor, at `s`, or not before `e`. -/
theorem findRegion_some_inv (bs start endM : List Nat) (c c1 : Nat) (r : List Nat)
    (hs : start ≠ []) (he : endM ≠ [])
    (h : findRegion bs start endM c = some (some r, c1)) :
    ∃ s e h0, FirstOccFrom bs start c s ∧ FirstOccFrom bs endM s e ∧
      FirstOccFrom bs h2Marker c h0 ∧ (h0 = c ∨ h0 = s ∨ e ≤ h0) ∧
      r = slice bs s (e + endM.length) ∧ c1 = e + endM.length := by
  unfold findRegion at h
  by_cases hc : bs.length < c
  · rw [if_pos hc] at h; simp at h
  rw [if_neg hc] at h
  rcases findBytes_drop_spec bs start c hs (by omega) with ⟨h1, _⟩ | ⟨s, hS, h1⟩
  · rw [h1] at h; simp at h
  rw [h1] at h
  simp only [] at h
  have hcs : c ≤ s := hS.1
  have hsl : s ≤ bs.length := hS.2.1.1
  have hidx : c + ((s - c : Nat) : Int).toNat = s := by
    rw [Int.toNat_ofNat]; omega
  rw [if_neg (by omega), hidx] at h
  rcases findBytes_drop_spec bs endM s he hsl with ⟨h2, _⟩ | ⟨e, hE, h2⟩
  · rw [h2] at h; simp at h
  rw [h2] at h
  simp only [] at h
  have hse : s ≤ e := hE.1
  rw [if_neg (by omega)] at h
  rcases findBytes_drop_spec bs h2Marker c (by decide) (by omega) with ⟨h3, _⟩ | ⟨h0, hH, h3⟩
  · rw [h3] at h
    simp only [] at h
    rw [if_pos (by omega)] at h
    simp at h
  rw [h3] at h
  simp only [] at h
  have hch : c ≤ h0 := hH.1
  split at h
  · simp at h
  · rename_i hguard
    have hnew : c + (((s - c : Nat) : Int) + ((e - s : Nat) : Int) + (endM.length : Int)).toNat
        = e + endM.length := by
      omega
    simp only [hidx, hnew, Option.some.injEq, Prod.mk.injEq] at h
    refine ⟨s, e, h0, hS, hE, hH, ?_, h.1.symm, h.2.symm⟩
    by_contra hcon
    push_neg at hcon
    apply hguard
    refine ⟨?_, ?_, ?_⟩ <;> omega

theorem prefixCompat_of_prefixes (a b l : List Nat) (ha : a <+: l) (hb : b <+: l) :
    PrefixCompat a b := by
  unfold PrefixCompat
  rcases Nat.le_total a.length b.length with h | h
  · exact Or.inl (List.prefix_of_prefix_length_le ha hb h)
  · exact Or.inr (List.prefix_of_prefix_length_le hb ha h)

theorem regionSearches_apart (start endM : List Nat) (h : (start, endM) ∈ regionSearches) :
    MarkersApart start endM := by
  simp only [regionSearches, List.mem_cons, Prod.mk.injEq, List.mem_singleton,
    List.not_mem_nil, or_false] at h
  rcases h with ⟨rfl, rfl⟩ | ⟨rfl, rfl⟩ | ⟨rfl, rfl⟩ <;> decide

/-- A region found from a cursor at which no `<h2 ` begins has no `<h2 `
beginning anywhere from the cursor to its end. -/
theorem findRegion_no_heading_inside (bs start endM : List Nat) (c c1 : Nat) (r : List Nat)
    (hm : MarkersApart start endM)
    (h : findRegion bs start endM c = some (some r, c1))
    (hc : ¬ OccursAt bs h2Marker c) :
    ∀ j, c ≤ j → j < c1 → ¬ OccursAt bs h2Marker j := by
  obtain ⟨hs, he, hA, hB⟩ := hm
  obtain ⟨s, e, h0, hS, hE, hH, hpos, _, hc1⟩ := findRegion_some_inv bs start endM c c1 r hs he h
  intro j hcj hj hocc
  have h0c : h0 ≠ c := fun heq => hc (heq ▸ hH.2.1)
  have h0s : h0 ≠ s := by
    intro heq
    apply hA
    exact prefixCompat_of_prefixes _ _ (bs.drop s) hS.2.1.2 (heq ▸ hH.2.1.2)
  have heh : e ≤ h0 := by
    rcases hpos with hp | hp | hp
    · exact absurd hp h0c
    · exact absurd hp h0s
    · exact hp
  have hej : e ≤ j := by
    by_contra hlt
    exact hH.2.2 j (by omega) hcj hocc
  apply hB (j - e) (by omega)
  have hend : endM <+: bs.drop e := hE.2.1.2
  have hdrop : endM.drop (j - e) <+: (bs.drop e).drop (j - e) := List.IsPrefix.drop hend _
  rw [List.drop_drop] at hdrop
  have hje : e + (j - e) = j := by omega
  rw [hje] at hdrop
  exact prefixCompat_of_prefixes _ _ (bs.drop j) hdrop hocc.2

set_option maxRecDepth 100000 in
/-- C12 fails on the code. In `<h2 <p>a</p>` from cursor 0 the search for `<p>`
returns the region `<p>a</p>` although a `<h2 ` begins at index 0: the check is
skipped when the `<h2 ` is exactly at the cursor (`nextH2 != 0`). In a document
with two adjacent headings the paragraph of the second group becomes the
description of the first, and the second group is lost. -/
theorem findRegion_heading_at_cursor :
    OccursAt (bytes "<h2 <p>a</p>") h2Marker 0 ∧
    findRegion (bytes "<h2 <p>a</p>") (bytes "<p>") (bytes "</p>") 0
      = some (some (bytes "<p>a</p>"), 12) ∧
    parsePayPal GoUnicode.identity
      (bytes "<h2 >a</div>T</h2><h2 >b</div>U</h2><p>d</p><h2 ")
      = some ([⟨bytes "T", ⟨bytes "d", []⟩, []⟩], none) := by
  decide

/-! ### Description mismatch -/

/-- On every region that does not match the paragraph pattern `parseDescription`
panics: the text is empty and `res[len(res)-1]` is out of range. -/
theorem parseDescription_of_mismatch (bs : List Nat) (h : reDesc.FindSubmatch bs = none) :
    getFirstMatch reDesc bs = some ([], some ParseError.notFound) ∧
    parseDescription bs = none := by
  have hg : getFirstMatch reDesc bs = some ([], some ParseError.notFound) := by
    unfold getFirstMatch
    rw [h]
  refine ⟨hg, ?_⟩
  unfold parseDescription
  rw [hg]
  rfl

set_option maxRecDepth 100000 in
/-- C11 fails on the code. The region `<p></p>` does not match the paragraph
pattern; `getFirstMatch` gives the not-found error, but `parseDescription` does
not return it: it panics on `res[len(res)-1]` of the empty text, and so does
`parsePayPal` on a document with this paragraph. -/
theorem parseDescription_mismatch_panics :
    getFirstMatch reDesc (bytes "<p></p>") = some ([], some ParseError.notFound) ∧
    parseDescription (bytes "<p></p>") = none ∧
    findRegion (bytes "<h2 >a</div>T</h2><p></p><h2 ") (bytes "<p>") (bytes "</p>") 18
      = some (some (bytes "<p></p>"), 25) ∧
    parsePayPal GoUnicode.identity (bytes "<h2 >a</div>T</h2><p></p><h2 ") = none := by
  decide

/-! ### Link rewriting -/

set_option maxRecDepth 100000 in
/-- C13 fails on the code. For the text `Refund <a href="/docs/x">up to $5</a> now`
the link is recorded with its title and URL, but the content is
`Refund [up to ] now`, not `Refund [up to $5] now`: the bracketed title is passed
to `ReplaceAll` as a template, where `$5` is a reference to a group. Likewise the
title `$1` is rendered as `[/x]`. The related-method text of `Test_parseWebhook`
gives the expected comment. -/
theorem comment_title_expanded_as_template :
    Parser.Comment GoUnicode.identity
        (NewParser (bytes "Refund <a href=\"/docs/x\">up to $5</a> now"))
      = ⟨bytes "Refund [up to ] now",
          [⟨bytes "up to $5", bytes "https://developer.paypal.com/docs/x"⟩]⟩ ∧
    Parser.Comment GoUnicode.identity (NewParser (bytes "<a href=\"/x\">$1</a>"))
      = ⟨bytes "[/x]", [⟨bytes "$1", bytes "https://developer.paypal.com/x"⟩]⟩ ∧
    Parser.Comment GoUnicode.identity (NewParser (bytes
        ("<a href=\"/docs/api/payments/v2/#authorizations_get\"> Show details for authorized "
          ++ "payment </a> with response `status` of `voided`.")))
      = ⟨bytes "[Show details for authorized payment] with response `status` of `voided`.",
          [⟨bytes "Show details for authorized payment",
            bytes "https://developer.paypal.com/docs/api/payments/v2/#authorizations_get"⟩]⟩ := by
  decide!

set_option maxRecDepth 100000 in
/-- C14 fails on the code. The text `a <a href="/x">T1</a> b <a href="/y">T2</a> c`
has two hyperlinks, but the pattern `reA` matches once, from the first `<a` to the
last `</a>`: `Links` has the single entry of the second hyperlink and `Content` is
`a [T2] c`, without the first hyperlink and without the text ` b ` between them. -/
theorem comment_two_links_merged :
    reA.FindAll (bytes "a <a href=\"/x\">T1</a> b <a href=\"/y\">T2</a> c")
      = [bytes "<a href=\"/x\">T1</a> b <a href=\"/y\">T2</a>"] ∧
    Parser.Comment GoUnicode.identity
        (NewParser (bytes "a <a href=\"/x\">T1</a> b <a href=\"/y\">T2</a> c"))
      = ⟨bytes "a [T2] c", [⟨bytes "T2", bytes "https://developer.paypal.com/y"⟩]⟩ := by
  decide!

/-! ### Malformed event names -/

theorem subSegments_ne_nil (s : List Nat) : subSegments s ≠ [] := by
  cases s with
  | nil => simp [subSegments]
  | cons b rest =>
    simp only [subSegments]
    split
    · simp
    · split <;> simp

/-- Splitting on `.` and then on `-` gives the pieces between the delimiters. -/
theorem split_eq_subSegments :
    ∀ s : List Nat, (splitByte 46 s).flatMap (splitByte 45) = subSegments s := by
  intro s
  induction s with
  | nil => simp [splitByte, subSegments]
  | cons b rest ih =>
    by_cases h46 : b = 46
    · subst h46
      simp [splitByte, subSegments, isDelim, ih]
    · cases hs : splitByte 46 rest with
      | nil => exact absurd hs (splitByte_ne_nil 46 rest)
      | cons seg segs =>
        rw [hs, List.flatMap_cons] at ih
        have h1 : splitByte 46 (b :: rest) = (b :: seg) :: segs := by
          simp [splitByte, h46, hs]
        rw [h1, List.flatMap_cons]
        by_cases h45 : b = 45
        · subst h45
          simp [splitByte, subSegments, isDelim, ih]
        · have hd : isDelim b = false := by simp [isDelim, h46, h45]
          cases ht : splitByte 45 seg with
          | nil => exact absurd ht (splitByte_ne_nil 45 seg)
          | cons t ts =>
            rw [ht] at ih
            have h2 : splitByte 45 (b :: seg) = (b :: t) :: ts := by
              simp [splitByte, h45, ht]
            rw [h2]
            simp only [subSegments, hd]
            rw [← ih]
            simp

theorem identifier_fold_none_iff (u : GoUnicode) :
    ∀ (segs : List (List Nat)) (acc : List Nat),
      (segs.foldlM (identifierStep u) acc = none ↔ [] ∈ segs) ∧
      ([] ∉ segs →
        segs.foldlM (identifierStep u) acc = some (acc ++ segs.flatMap (segmentIdent u))) := by
  intro segs
  induction segs with
  | nil => intro acc; simp
  | cons seg segs ih =>
    intro acc
    cases seg with
    | nil => simp [identifierStep]
    | cons c tl =>
      have hstep : identifierStep u acc (c :: tl)
          = some (acc ++ [unicodeToTitle u c % 256] ++ bytesToLower u tl) := rfl
      rw [List.foldlM_cons, hstep]
      simp only [Option.bind_eq_bind, Option.some_bind]
      obtain ⟨h1, h2⟩ := ih (acc ++ [unicodeToTitle u c % 256] ++ bytesToLower u tl)
      constructor
      · rw [h1]; simp
      · intro hno
        rw [h2 (fun hm => hno (by simp [hm]))]
        simp [segmentIdent]

theorem trailingDelim_cons_cons (a b : Nat) (r : List Nat) :
    trailingDelim (a :: b :: r) = trailingDelim (b :: r) := by
  simp [trailingDelim, List.getLast?_cons_cons]

theorem subSegments_char :
    ∀ s : List Nat, ∃ p0 ps, subSegments s = p0 :: ps ∧
      (p0 = [] ↔ s = [] ∨ leadingDelim s = true) ∧
      ([] ∈ ps ↔ trailingDelim s = true ∨ doubledDelim s = true) := by
  intro s
  induction s with
  | nil =>
    exact ⟨[], [], rfl, by simp, by simp [trailingDelim, doubledDelim]⟩
  | cons b rest ih =>
    obtain ⟨q0, qs, hq, hq0, hqs⟩ := ih
    by_cases hb : isDelim b = true
    · refine ⟨[], q0 :: qs, by simp [subSegments, hb, hq], by simp [leadingDelim, hb], ?_⟩
      cases rest with
      | nil => simp [trailingDelim, hb] at hq0 ⊢; simp [hq0]
      | cons b1 r1 =>
        rw [trailingDelim_cons_cons] 
        simp only [List.mem_cons, doubledDelim, hb, Bool.true_and, Bool.or_eq_true]
        rw [eq_comm, hq0, hqs]
        simp only [leadingDelim]
        tauto
    · have hb' : isDelim b = false := by simpa using hb
      refine ⟨b :: q0, qs, by simp [subSegments, hb', hq], by simp [leadingDelim, hb'], ?_⟩
      cases rest with
      | nil =>
        rw [hqs]
        simp [trailingDelim, doubledDelim, hb']
      | cons b1 r1 =>
        rw [hqs, trailingDelim_cons_cons]
        simp [doubledDelim, hb']

theorem subSegments_empty_iff (s : List Nat) : [] ∈ subSegments s ↔ MalformedName s := by
  obtain ⟨p0, ps, hp, hp0, hps⟩ := subSegments_char s
  rw [hp, List.mem_cons, eq_comm, hp0, hps]
  unfold MalformedName
  tauto

/-- C20: identifier derivation fails exactly on malformed names.
`eventToGolangIdentifier` produces no identifier (the index `sp2[0]` is out of
range) if and only if the input, split on `.` and then on `-`, has an empty
sub-segment, that is, if and only if the input is empty or has a leading,
trailing or doubled delimiter; on every other input it returns the identifier
made of the sub-segments, each with its first byte through `unicode.ToTitle` and
its other bytes through `bytes.ToLower`, so every sub-segment contributes. -/
theorem eventToGolangIdentifier_fails_iff (u : GoUnicode) (s : List Nat) :
    (eventToGolangIdentifier u s = none ↔ [] ∈ (splitByte 46 s).flatMap (splitByte 45)) ∧
    ([] ∈ (splitByte 46 s).flatMap (splitByte 45) ↔ MalformedName s) ∧
    (¬ MalformedName s →
      eventToGolangIdentifier u s
        = some (((splitByte 46 s).flatMap (splitByte 45)).flatMap (segmentIdent u)) ∧
      ∀ seg ∈ (splitByte 46 s).flatMap (splitByte 45), segmentIdent u seg ≠ []) := by
  have hfold : eventToGolangIdentifier u s
      = ((splitByte 46 s).flatMap (splitByte 45)).foldlM (identifierStep u) [] := by
    unfold eventToGolangIdentifier
    rw [foldlM_flatMap_option (splitByte 45) (identifierStep u)]
  have hmal : [] ∈ (splitByte 46 s).flatMap (splitByte 45) ↔ MalformedName s := by
    rw [split_eq_subSegments]
    exact subSegments_empty_iff s
  obtain ⟨h1, h2⟩ := identifier_fold_none_iff u ((splitByte 46 s).flatMap (splitByte 45)) []
  refine ⟨by rw [hfold]; exact h1, hmal, ?_⟩
  intro hn
  have hno : [] ∉ (splitByte 46 s).flatMap (splitByte 45) := fun hm => hn (hmal.mp hm)
  refine ⟨by rw [hfold, h2 hno]; simp, ?_⟩
  intro seg hseg
  cases seg with
  | nil => exact absurd hseg hno
  | cons c tl => simp [segmentIdent]

/-! ### Version blocks in sorted order -/

theorem lexLe_total : ∀ a b : List Nat, lexLe a b = true ∨ lexLe b a = true := by
  intro a
  induction a with
  | nil => intro b; left; simp [lexLe]
  | cons x xs ih =>
    intro b
    cases b with
    | nil => right; simp [lexLe]
    | cons y ys =>
      simp only [lexLe, Bool.or_eq_true, Bool.and_eq_true, decide_eq_true_eq]
      rcases Nat.lt_trichotomy x y with h | h | h
      · exact Or.inl (Or.inl h)
      · rcases ih ys with h1 | h1
        · exact Or.inl (Or.inr ⟨h, h1⟩)
        · exact Or.inr (Or.inr ⟨h.symm, h1⟩)
      · exact Or.inr (Or.inl h)

theorem lexLe_trans : ∀ a b c : List Nat, lexLe a b = true → lexLe b c = true →
    lexLe a c = true := by
  intro a
  induction a with
  | nil => intro b c _ _; simp [lexLe]
  | cons x xs ih =>
    intro b c hab hbc
    cases b with
    | nil => simp [lexLe] at hab
    | cons y ys =>
      cases c with
      | nil => simp [lexLe] at hbc
      | cons z zs =>
        simp only [lexLe, Bool.or_eq_true, Bool.and_eq_true, decide_eq_true_eq] at hab hbc ⊢
        rcases hab with h1 | ⟨h1, h1'⟩
        · rcases hbc with h2 | ⟨h2, _⟩
          · exact Or.inl (by omega)
          · exact Or.inl (by omega)
        · rcases hbc with h2 | ⟨h2, h2'⟩
          · exact Or.inl (by omega)
          · exact Or.inr ⟨by omega, ih ys zs h1' h2'⟩

theorem lexLe_antisymm : ∀ a b : List Nat, lexLe a b = true → lexLe b a = true → a = b := by
  intro a
  induction a with
  | nil =>
    intro b _ hba
    cases b with
    | nil => rfl
    | cons y ys => simp [lexLe] at hba
  | cons x xs ih =>
    intro b hab hba
    cases b with
    | nil => simp [lexLe] at hab
    | cons y ys =>
      simp only [lexLe, Bool.or_eq_true, Bool.and_eq_true, decide_eq_true_eq] at hab hba
      rcases hab with h1 | ⟨h1, h1'⟩
      · rcases hba with h2 | ⟨h2, _⟩ <;> omega
      · rcases hba with h2 | ⟨_, h2'⟩
        · omega
        · rw [h1, ih ys h1' h2']

theorem sortKeys_perm (keys : List (List Nat)) : (sortKeys keys).Perm keys :=
  List.perm_insertionSort _ keys

theorem sortKeys_sorted (keys : List (List Nat)) :
    (sortKeys keys).Sorted (fun a b => lexLe a b = true) := by
  haveI : IsTotal (List Nat) (fun a b => lexLe a b = true) := ⟨lexLe_total⟩
  haveI : IsTrans (List Nat) (fun a b => lexLe a b = true) := ⟨lexLe_trans⟩
  exact List.sorted_insertionSort _ keys

theorem sortKeys_eq_of_perm (k1 k2 : List (List Nat)) (h : k1.Perm k2) :
    sortKeys k1 = sortKeys k2 := by
  haveI : IsAntisymm (List Nat) (fun a b => lexLe a b = true) := ⟨lexLe_antisymm⟩
  exact List.eq_of_perm_of_sorted
    (((sortKeys_perm k1).trans h).trans (sortKeys_perm k2).symm)
    (sortKeys_sorted k1) (sortKeys_sorted k2)

/-- Reading a map does not depend on the order of its entries. -/
theorem webhookMap_get_perm (m1 m2 : WebhookMap) (h : m1.Perm m2) :
    (m1.map (fun kv => kv.1)).Nodup → ∀ k, m1.get k = m2.get k := by
  induction h with
  | nil => intro _ _; rfl
  | cons x _ ih =>
    intro hn k
    obtain ⟨k0, v0⟩ := x
    simp only [List.map_cons, List.nodup_cons] at hn
    simp only [WebhookMap.get]
    rw [ih hn.2 k]
  | swap x y l =>
    intro hn k
    obtain ⟨kx, vx⟩ := x
    obtain ⟨ky, vy⟩ := y
    simp only [List.map_cons, List.nodup_cons, List.mem_cons, not_or] at hn
    simp only [WebhookMap.get]
    by_cases h1 : kx = k
    · by_cases h2 : ky = k
      · exact absurd (h2.trans h1.symm) hn.1.1
      · simp [h1, h2]
    · by_cases h2 : ky = k <;> simp [h1, h2]
  | trans h12 _ ih1 ih2 =>
    intro hn k
    have hn2 := (List.Perm.nodup_iff (h12.map (fun kv => kv.1))).mp hn
    rw [ih1 hn k, ih2 hn2 k]

theorem webhookMap_get_mem :
    ∀ (m : WebhookMap), (m.map (fun kv => kv.1)).Nodup →
      ∀ k v, (k, v) ∈ m → m.get k = v := by
  intro m
  induction m with
  | nil => intro _ k v h; simp at h
  | cons x rest ih =>
    intro hn k v h
    obtain ⟨k0, v0⟩ := x
    simp only [List.map_cons, List.nodup_cons] at hn
    simp only [List.mem_cons, Prod.mk.injEq] at h
    simp only [WebhookMap.get]
    rcases h with ⟨rfl, rfl⟩ | h
    · simp
    · have hne : k0 ≠ k := by
        intro heq
        apply hn.1
        rw [heq]
        exact List.mem_map_of_mem (fun kv => kv.1) h
      rw [if_neg hne]
      exact ih hn.2 k v h

theorem sorted_head_nil (keys : List (List Nat))
    (hs : keys.Sorted (fun a b => lexLe a b = true)) (h : [] ∈ keys) :
    keys.head? = some [] := by
  cases keys with
  | nil => simp at h
  | cons k ks =>
    simp only [List.head?_cons, Option.some.injEq]
    simp only [List.mem_cons] at h
    rcases h with h | h
    · exact h.symm
    · have hle := List.rel_of_sorted_cons hs [] h
      cases k with
      | nil => rfl
      | cons a as => simp [lexLe] at hle

theorem appendWebhooks_eq (g : Generator) (m : WebhookMap) :
    g.AppendWebhooks m
      = (sortKeys (m.map (fun kv => kv.1))).flatMap (fun k => g.versionBlock k (m.get k)) := by
  unfold Generator.AppendWebhooks sortedRangeMap
  rw [List.flatMap_def]

/-- C17: version blocks are rendered in sorted order. For every mapping (entries
with distinct labels, in any iteration order) `AppendWebhooks` renders the blocks
of a list `keys` of labels that holds every label of the mapping exactly once and
is in ascending lexicographic order, each block being that of the label's own
webhooks; the output is the same for every iteration order, and the empty label,
when present, comes first. -/
theorem appendWebhooks_sorted_blocks (g : Generator) (m : WebhookMap)
    (hm : (m.map (fun kv => kv.1)).Nodup) :
    ∃ keys : List (List Nat),
      g.AppendWebhooks m = keys.flatMap (fun k => g.versionBlock k (m.get k)) ∧
      keys.Perm (m.map (fun kv => kv.1)) ∧ keys.Nodup ∧
      keys.Sorted (fun a b => lexLe a b = true) ∧
      (∀ k v, (k, v) ∈ m → m.get k = v) ∧
      ([] ∈ m.map (fun kv => kv.1) → keys.head? = some []) ∧
      (∀ m' : WebhookMap, m'.Perm m → g.AppendWebhooks m' = g.AppendWebhooks m) := by
  refine ⟨sortKeys (m.map (fun kv => kv.1)), appendWebhooks_eq g m, sortKeys_perm _,
    (List.Perm.nodup_iff (sortKeys_perm _)).mpr hm, sortKeys_sorted _,
    webhookMap_get_mem m hm, ?_, ?_⟩
  · intro h
    exact sorted_head_nil _ (sortKeys_sorted _) ((sortKeys_perm _).mem_iff.mpr h)
  · intro m' hp
    rw [appendWebhooks_eq, appendWebhooks_eq,
      sortKeys_eq_of_perm _ _ (hp.map (fun kv => kv.1))]
    have hget := webhookMap_get_perm m m' hp.symm hm
    congr 1
    funext k
    rw [hget k]

/-- Witness for C17: a mapping with the labels `V2`, the empty label and `V1`;
the blocks are rendered for the empty label, `V1` and `V2`, in this order. -/
theorem appendWebhooks_sorted_blocks_witness :
    (∃ keys : List (List Nat),
      Generator.AppendWebhooks ⟨bytes "paypal"⟩
          [(bytes "V2", []), ([], []), (bytes "V1", [])]
        = keys.flatMap (fun k => Generator.versionBlock ⟨bytes "paypal"⟩ k
            (WebhookMap.get [(bytes "V2", []), ([], []), (bytes "V1", [])] k)) ∧
      keys.Perm (List.map (fun kv => kv.1)
        ([(bytes "V2", []), ([], []), (bytes "V1", [])] : WebhookMap)) ∧ keys.Nodup ∧
      keys.Sorted (fun a b => lexLe a b = true) ∧
      (∀ k v, (k, v) ∈ ([(bytes "V2", []), ([], []), (bytes "V1", [])] : WebhookMap) →
        WebhookMap.get [(bytes "V2", []), ([], []), (bytes "V1", [])] k = v) ∧
      ([] ∈ List.map (fun kv => kv.1)
          ([(bytes "V2", []), ([], []), (bytes "V1", [])] : WebhookMap) →
        keys.head? = some []) ∧
      (∀ m' : WebhookMap, m'.Perm [(bytes "V2", []), ([], []), (bytes "V1", [])] →
        Generator.AppendWebhooks ⟨bytes "paypal"⟩ m'
          = Generator.AppendWebhooks ⟨bytes "paypal"⟩
              [(bytes "V2", []), ([], []), (bytes "V1", [])])) ∧
    Generator.AppendWebhooks ⟨bytes "paypal"⟩ [(bytes "V2", []), ([], []), (bytes "V1", [])]
      = [bytes "const (", bytes ")\n", bytes "\n",
         bytes "// V1\n", bytes "\n", bytes "const (", bytes ")\n", bytes "\n",
         bytes "// V2\n", bytes "\n", bytes "const (", bytes ")\n", bytes "\n"] :=
  ⟨appendWebhooks_sorted_blocks ⟨bytes "paypal"⟩
    [(bytes "V2", []), ([], []), (bytes "V1", [])] (by decide), by decide⟩

/-! ### Column budget of the comments -/

theorem commentBodyLines_fit (t : Comment) (tabs : Nat) (ht : tabs ≤ 1)
    (htok : TokensWithin t.Content (100 - 4 * tabs - 3)) :
    ∀ chunk ∈ commentBodyLines t tabs, ∃ text,
      chunk = indentPrefix tabs ++ bytes "// " ++ text ++ bytes "\n" ∧
      4 * tabs + 3 + text.length ≤ 100 := by
  intro chunk hchunk
  unfold commentBodyLines at hchunk
  have hn : maxColumn - (tabs : Int) * tabWidth - 3 = ((100 - 4 * tabs - 3 : Nat) : Int) := by
    unfold maxColumn tabWidth
    omega
  rw [hn, List.mem_map] at hchunk
  obtain ⟨line, hline, rfl⟩ := hchunk
  refine ⟨line, rfl, ?_⟩
  have := wrap_lines_within_aux (100 - 4 * tabs - 3) t.Content.length t.Content (Nat.le_refl _)
    htok line hline
  omega

/-- C19: generated comment bodies fit in 100 columns. For every comment
rendered by `AppendComment` at indent level `tabs` in {0, 1} (a Related-Method
comment being rendered with its `Related method: ` prefix in its content) whose
content has no space-free token longer than `100 - 4*tabs - 3` bytes, what is
written is the body lines followed by the reference lines, and every body line is
`tabs` tab characters, the marker `// `, a text and a newline, with
`4*tabs + 3 + len(text) ≤ 100`. -/
theorem appendComment_body_fits (g : Generator) (t : Comment) (tabs : Nat) (ht : tabs ≤ 1)
    (htok : TokensWithin t.Content (100 - 4 * tabs - 3)) :
    ∃ body, g.AppendComment t tabs = body ++ commentLinkLines t tabs ∧
      body.length = (wrap t.Content (maxColumn - (tabs : Int) * tabWidth - 3)).length ∧
      ∀ chunk ∈ body, ∃ text,
        chunk = indentPrefix tabs ++ bytes "// " ++ text ++ bytes "\n" ∧
        4 * tabs + 3 + text.length ≤ 100 :=
  ⟨commentBodyLines t tabs, rfl, by simp [commentBodyLines],
    commentBodyLines_fit t tabs ht htok⟩

set_option maxRecDepth 100000 in
/-- Witness for C19: a Related-Method comment of 130 bytes at indent level 1,
rendered by `AppendRelatedMethod` through `AppendComment` with the prefix. -/
theorem appendComment_body_fits_witness :
    Generator.AppendRelatedMethod ⟨bytes "paypal"⟩
        ⟨bytes ("Show details for authorized payment with response status of voided "
          ++ "and then capture the authorized payment again later on"), []⟩
      = (indentPrefix 1 ++ bytes "//" ++ bytes "\n") ::
          Generator.AppendComment ⟨bytes "paypal"⟩
            ⟨bytes ("Related method: Show details for authorized payment with response "
              ++ "status of voided and then capture the authorized payment again later on"),
              []⟩ 1 ∧
    ∃ body, Generator.AppendComment ⟨bytes "paypal"⟩
        ⟨bytes ("Related method: Show details for authorized payment with response "
          ++ "status of voided and then capture the authorized payment again later on"), []⟩ 1
        = body ++ commentLinkLines
            ⟨bytes ("Related method: Show details for authorized payment with response "
              ++ "status of voided and then capture the authorized payment again later on"),
              []⟩ 1 ∧
      body.length = (wrap (bytes ("Related method: Show details for authorized payment with "
          ++ "response status of voided and then capture the authorized payment again later on"))
          (maxColumn - ((1 : Nat) : Int) * tabWidth - 3)).length ∧
      ∀ chunk ∈ body, ∃ text,
        chunk = indentPrefix 1 ++ bytes "// " ++ text ++ bytes "\n" ∧
        4 * 1 + 3 + text.length ≤ 100 :=
  ⟨by decide, appendComment_body_fits ⟨bytes "paypal"⟩ _ 1 (by decide) (by decide)⟩

/-! ### Links of a webhook -/

/-- What is written for a webhook without Related-Method content: the body of
the Trigger comment and the declaration, and no reference line, whatever the
links of the Trigger are. -/
theorem appendHook_of_no_related (g : Generator) (hook : Webhook)
    (h : hook.RelatedMethod.Content = []) :
    g.appendHook hook
      = [bytes "\n"] ++ commentBodyLines ⟨hook.Trigger.Content, []⟩ 1
        ++ [if hook.Repeated || hook.IsRef then redeclaredLine hook else liveLine hook] := by
  simp [Generator.appendHook, Generator.AppendRelatedMethod, Generator.AppendComment,
    commentLinkLines, h]

/-- What is written for a webhook with Related-Method content: after the two
comment bodies, the reference lines of the Trigger's links and then of the
Related-Method's links. -/
theorem appendHook_of_related (g : Generator) (hook : Webhook)
    (h : hook.RelatedMethod.Content ≠ []) :
    g.appendHook hook
      = [bytes "\n"] ++ commentBodyLines ⟨hook.Trigger.Content, []⟩ 1
        ++ [indentPrefix 1 ++ bytes "//" ++ bytes "\n"]
        ++ commentBodyLines ⟨bytes "Related method: " ++ hook.RelatedMethod.Content,
            hook.Trigger.Links ++ hook.RelatedMethod.Links⟩ 1
        ++ commentLinkLines ⟨bytes "Related method: " ++ hook.RelatedMethod.Content,
            hook.Trigger.Links ++ hook.RelatedMethod.Links⟩ 1
        ++ [if hook.Repeated || hook.IsRef then redeclaredLine hook else liveLine hook] := by
  simp [Generator.appendHook, Generator.AppendRelatedMethod, Generator.AppendComment,
    commentLinkLines, h]

set_option maxRecDepth 100000 in
/-- C18 fails on the code. The row below has a link `L` in its trigger text and an
empty related-method cell. Its Trigger comment has the link, but
`AppendWebhooks` writes no reference line for it: the links of the Trigger are
moved to the Related-Method comment, and `AppendRelatedMethod` returns before
writing anything when the Related-Method content is empty. With a related method
in the row, both links are written, the Trigger's first. -/
theorem appendWebhooks_trigger_link_lost :
    parseWebhook GoUnicode.identity (bytes
        ("<tr><td><code>A.B</code></td><td>Sent when <a href=\"/x\">L</a> is done</td>"
          ++ "<td></td></tr>"))
      = some (Result.ok ⟨false, bytes "AB", bytes "A.B",
          ⟨bytes "Sent when [L] is done", [⟨bytes "L", bytes "https://developer.paypal.com/x"⟩]⟩,
          ⟨[], []⟩⟩) ∧
    Generator.AppendWebhooks ⟨bytes "paypal"⟩
        [([], [⟨false, bytes "AB", bytes "A.B",
          ⟨bytes "Sent when [L] is done", [⟨bytes "L", bytes "https://developer.paypal.com/x"⟩]⟩,
          ⟨[], []⟩⟩])]
      = [bytes "const (", bytes "\n", bytes "\t// Sent when [L] is done\n",
         bytes "\tAB EventType = \"A.B\"\n", bytes ")\n", bytes "\n"] ∧
    Generator.AppendWebhooks ⟨bytes "paypal"⟩
        [([], [⟨false, bytes "AB", bytes "A.B",
          ⟨bytes "Sent when [L] is done", [⟨bytes "L", bytes "https://developer.paypal.com/x"⟩]⟩,
          ⟨bytes "r [M]", [⟨bytes "M", bytes "https://developer.paypal.com/y"⟩]⟩⟩])]
      = [bytes "const (", bytes "\n", bytes "\t// Sent when [L] is done\n", bytes "\t//\n",
         bytes "\t// Related method: r [M]\n", bytes "\t//\n",
         bytes "\t// [L]: https://developer.paypal.com/x\n",
         bytes "\t// [M]: https://developer.paypal.com/y\n",
         bytes "\tAB EventType = \"A.B\"\n", bytes ")\n", bytes "\n"] := by
  decide!

/-! ### At most one live declaration per event -/

theorem countBound_mono (hc : HookCount) (n n1 : List Nat → Nat) (h : CountBound hc n)
    (hle : ∀ e, n1 e ≤ n e) : CountBound hc n1 := by
  intro e
  obtain ⟨h0, h1, h2⟩ := h e
  have := hle e
  exact ⟨h0, by omega, fun h3 => h2 (by omega)⟩

theorem liveCount_append (e : List Nat) (a b : List Webhook) :
    liveCount e (a ++ b) = liveCount e a + liveCount e b := by
  simp [liveCount, List.countP_append]

theorem parseWebhook_ok_repeated (u : GoUnicode) (r : List Nat) (w : Webhook)
    (h : parseWebhook u r = some (Result.ok w)) : w.Repeated = false := by
  have hp : parsedRow u r = some w := by
    unfold parsedRow
    rw [h]
  exact (parsedRow_eq_some u r w hp).2

/-- The loop of `parseWebhooks` keeps the relation between the counter and the
live webhooks. -/
theorem parseWebhooksLoop_bound (u : GoUnicode) :
    ∀ (rows : List (List Nat)) (hc : HookCount) (res : List Webhook) (n : List Nat → Nat),
      CountBound hc (fun e => n e + liveCount e res) →
      ∀ out hc1, parseWebhooksLoop u rows hc res = some (out, hc1) →
        match out with
        | Result.ok ws => CountBound hc1 (fun e => n e + liveCount e ws)
        | Result.error _ => CountBound hc1 n := by
  intro rows
  induction rows with
  | nil =>
    intro hc res n hb out hc1 h
    simp only [parseWebhooksLoop, Option.some.injEq, Prod.mk.injEq] at h
    obtain ⟨rfl, rfl⟩ := h
    exact hb
  | cons m ms ih =>
    intro hc res n hb out hc1 h
    rw [parseWebhooksLoop] at h
    cases hp : parseWebhook u m with
    | none => rw [hp] at h; simp at h
    | some pr =>
      cases pr with
      | error e =>
        rw [hp] at h
        simp only [Option.some.injEq, Prod.mk.injEq] at h
        obtain ⟨rfl, rfl⟩ := h
        exact countBound_mono hc _ n hb (fun e => Nat.le_add_right _ _)
      | ok webhook =>
        rw [hp] at h
        simp only [] at h
        refine ih _ _ n ?_ out hc1 h
        intro e
        obtain ⟨h0, h1, h2⟩ := hb e
        obtain ⟨g0, g1, g2⟩ := hb webhook.Event
        beta_reduce at h1 h2 g1 g2 ⊢
        rw [liveCount_append]
        have hlive : liveCount e
            [(⟨decide (hc webhook.Event ≠ 0), webhook.ID, webhook.Event, webhook.Trigger,
              webhook.RelatedMethod⟩ : Webhook)]
            = if (hc webhook.Event = 0 ∧ webhook.IsRef = false) ∧ webhook.Event = e
              then 1 else 0 := by
          simp only [liveCount, List.countP_cons, List.countP_nil, Webhook.isLive,
            Webhook.IsRef, zero_add]
          by_cases hz : hc webhook.Event = 0 <;>
            by_cases hr : hasPrefix webhook.Trigger.Content (bytes "See") = true <;>
            by_cases he : webhook.Event = e <;> simp [hz, hr, he]
        rw [hlive]
        by_cases href : webhook.IsRef = true
        · simp only [href, Bool.not_true, Bool.false_eq_true, if_false, and_false, false_and]
          exact ⟨h0, by simpa using h1, by simpa using h2⟩
        · have href' : webhook.IsRef = false := by simpa using href
          simp only [href', Bool.not_false, if_true, and_true]
          by_cases he : webhook.Event = e
          · subst he
            simp only [if_true, and_true]
            by_cases hz : hc webhook.Event = 0
            · simp only [hz, if_true]
              have hn0 : n webhook.Event + liveCount webhook.Event res = 0 := by
                by_contra hne
                have := g2 (by omega)
                omega
              refine ⟨by omega, by omega, fun _ => by omega⟩
            · simp only [hz, if_false, add_zero]
              refine ⟨by omega, g1, fun _ => by omega⟩
          · have he' : ¬ e = webhook.Event := fun h => he h.symm
            simp only [he, he', and_false, if_false, add_zero]
            exact ⟨h0, h1, h2⟩

theorem webhookMap_set_keys (k : List Nat) (v : List Webhook) :
    ∀ m : WebhookMap,
      (m.set k v).map (fun kv => kv.1)
        = if k ∈ m.map (fun kv => kv.1) then m.map (fun kv => kv.1)
          else m.map (fun kv => kv.1) ++ [k] := by
  intro m
  induction m with
  | nil => simp [WebhookMap.set]
  | cons x rest ih =>
    obtain ⟨k0, v0⟩ := x
    by_cases h : k0 = k
    · subst h
      simp [WebhookMap.set]
    · have h' : ¬ k = k0 := fun e => h e.symm
      simp only [WebhookMap.set, if_neg h, List.map_cons, ih, List.mem_cons, h', false_or]
      split <;> simp

theorem webhookMap_set_nodup (k : List Nat) (v : List Webhook) (m : WebhookMap)
    (h : (m.map (fun kv => kv.1)).Nodup) : ((m.set k v).map (fun kv => kv.1)).Nodup := by
  rw [webhookMap_set_keys]
  split
  · exact h
  · rename_i hk
    rw [List.nodup_append]
    refine ⟨h, by simp, ?_⟩
    intro a ha hb
    simp only [List.mem_singleton] at hb
    subst hb
    exact hk ha

theorem webhookMap_set_liveCount (e k : List Nat) (v : List Webhook) :
    ∀ m : WebhookMap,
      liveCount e (m.set k v).hooks ≤ liveCount e m.hooks + liveCount e v := by
  intro m
  induction m with
  | nil => simp [WebhookMap.set, WebhookMap.hooks]
  | cons x rest ih =>
    obtain ⟨k0, v0⟩ := x
    by_cases h : k0 = k
    · simp only [WebhookMap.set, if_pos h, WebhookMap.hooks, List.flatMap_cons,
        liveCount_append]
      omega
    · simp only [WebhookMap.set, if_neg h, WebhookMap.hooks, List.flatMap_cons,
        liveCount_append]
      have := ih
      simp only [WebhookMap.hooks] at this
      omega

/-- The version loop keeps the relation between the counter and the live
webhooks, and the labels of the map distinct. -/
theorem versionsLoop_bound (u : GoUnicode) (bs : List Nat) (n : List Nat → Nat) :
    ∀ (fuel i : Nat) (hc : HookCount) (err : Option ParseError) (m : WebhookMap),
      CountBound hc (fun e => n e + liveCount e m.hooks) →
      (m.map (fun kv => kv.1)).Nodup →
      ∀ i1 hc1 err1 m1, versionsLoop u bs fuel i hc err m = some (i1, hc1, err1, m1) →
        CountBound hc1 (fun e => n e + liveCount e m1.hooks) ∧
        (m1.map (fun kv => kv.1)).Nodup := by
  intro fuel
  induction fuel with
  | zero => intro i hc err m _ _ i1 hc1 err1 m1 h; simp [versionsLoop] at h
  | succ fuel ih =>
    intro i hc err m hb hn i1 hc1 err1 m1 h
    rw [versionsLoop] at h
    cases hf : findRegion bs (bytes "<h3 ") (bytes "</h3>") i with
    | none => rw [hf] at h; simp at h
    | some fr =>
      obtain ⟨vb, i2⟩ := fr
      cases vb with
      | none =>
        rw [hf] at h
        simp only [Option.some.injEq, Prod.mk.injEq] at h
        obtain ⟨_, rfl, _, rfl⟩ := h
        exact ⟨hb, hn⟩
      | some versionBytes =>
        rw [hf] at h
        simp only [] at h
        cases hg : getFirstMatch reVersion versionBytes with
        | none => rw [hg] at h; simp at h
        | some gm =>
          obtain ⟨version, e1⟩ := gm
          rw [hg] at h
          simp only [] at h
          split at h
          · simp only [Option.some.injEq, Prod.mk.injEq] at h
            obtain ⟨_, rfl, _, rfl⟩ := h
            exact ⟨hb, hn⟩
          · cases hf2 : findRegion bs (bytes "<tbody>") (bytes "</tbody>") i2 with
            | none => rw [hf2] at h; simp at h
            | some fr2 =>
              obtain ⟨wb, i3⟩ := fr2
              cases wb with
              | none =>
                rw [hf2] at h
                simp only [Option.some.injEq, Prod.mk.injEq] at h
                obtain ⟨_, rfl, _, rfl⟩ := h
                exact ⟨hb, hn⟩
              | some webhooksBytes =>
                rw [hf2] at h
                simp only [] at h
                cases hp : parseWebhooks u webhooksBytes hc with
                | none => rw [hp] at h; simp at h
                | some pr =>
                  obtain ⟨out, hc2⟩ := pr
                  have hpb := parseWebhooksLoop_bound u _ hc []
                    (fun e => n e + liveCount e m.hooks)
                    (by simpa [liveCount] using hb) out hc2 hp
                  cases out with
                  | error e =>
                    rw [hp] at h
                    simp only [Option.some.injEq, Prod.mk.injEq] at h
                    obtain ⟨_, rfl, _, rfl⟩ := h
                    exact ⟨hpb, hn⟩
                  | ok webhooks =>
                    rw [hp] at h
                    simp only [] at h
                    refine ih i3 hc2 none (m.set version webhooks) ?_
                      (webhookMap_set_nodup version webhooks m hn) i1 hc1 err1 m1 h
                    refine countBound_mono hc2 _ _ hpb ?_
                    intro e
                    have := webhookMap_set_liveCount e version webhooks m
                    beta_reduce
                    omega

theorem allWebhooks_append_group (res : List WebhookGroup) (wg : WebhookGroup) :
    allWebhooks (res ++ [wg]) = allWebhooks res ++ wg.Webhooks.hooks := by
  simp [allWebhooks]

/-- The loop of `parsePayPal` keeps the relation between the counter and the live
webhooks of the groups, and the labels of every map distinct. -/
theorem parsePayPalLoop_bound (u : GoUnicode) (bs : List Nat) :
    ∀ (fuel i : Nat) (hc : HookCount) (step : String) (res : List WebhookGroup)
      (err : Option ParseError),
      CountBound hc (fun e => liveCount e (allWebhooks res)) →
      (∀ wg ∈ res, (wg.Webhooks.map (fun kv => kv.1)).Nodup) →
      ∀ res1 err1 step1,
        parsePayPalLoop u bs fuel i hc step res err = some (res1, err1, step1) →
        (∀ e, liveCount e (allWebhooks res1) ≤ 1) ∧
        (∀ wg ∈ res1, (wg.Webhooks.map (fun kv => kv.1)).Nodup) := by
  intro fuel
  induction fuel with
  | zero => intro i hc step res err _ _ res1 err1 step1 h; simp [parsePayPalLoop] at h
  | succ fuel ih =>
    intro i hc step res err hb hn res1 err1 step1 h
    have hdone : (∀ e, liveCount e (allWebhooks res) ≤ 1) ∧
        (∀ wg ∈ res, (wg.Webhooks.map (fun kv => kv.1)).Nodup) :=
      ⟨fun e => (hb e).2.1, hn⟩
    rw [parsePayPalLoop] at h
    split at h
    · simp at h
    · simp only [Option.some.injEq, Prod.mk.injEq] at h
      obtain ⟨rfl, _, _⟩ := h
      exact hdone
    · split at h
      · simp at h
      · rename_i title e1 _
        split at h
        · simp only [Option.some.injEq, Prod.mk.injEq] at h
          obtain ⟨rfl, _, _⟩ := h
          exact hdone
        · split at h
          · simp at h
          · rename_i descBytes i2 _
            split at h
            · simp at h
            · rename_i desc e2 _
              split at h
              · simp only [Option.some.injEq, Prod.mk.injEq] at h
                obtain ⟨rfl, _, _⟩ := h
                exact hdone
              · simp only [] at h
                split at h
                · simp at h
                · rename_i i3 hc3 e3 m hv
                  obtain ⟨hb3, hn3⟩ := versionsLoop_bound u bs
                    (fun e => liveCount e (allWebhooks res)) _ _ hc e2 []
                    (by simpa [WebhookMap.hooks, liveCount] using hb) (by simp)
                    i3 hc3 e3 m hv
                  have hres3 : ∀ (d : Comment), CountBound hc3
                      (fun e => liveCount e (allWebhooks (res ++ [⟨title, d, m⟩]))) := by
                    intro d e
                    simp only [allWebhooks_append_group, liveCount_append]
                    exact hb3 e
                  have hnod3 : ∀ (d : Comment) (m1 : WebhookMap),
                      (m1.map (fun kv => kv.1)).Nodup →
                      ∀ wg ∈ res ++ [(⟨title, d, m1⟩ : WebhookGroup)],
                        (wg.Webhooks.map (fun kv => kv.1)).Nodup := by
                    intro d m1 hm1 wg hwg
                    simp only [List.mem_append, List.mem_singleton] at hwg
                    rcases hwg with hwg | rfl
                    · exact hn wg hwg
                    · exact hm1
                  split at h
                  · simp at h
                  · exact ih _ _ _ _ _ (hres3 _) (hnod3 _ m hn3) res1 err1 step1 h
                  · rename_i wb i4 _
                    split at h
                    · simp at h
                    · simp only [Option.some.injEq, Prod.mk.injEq] at h
                      obtain ⟨rfl, _, _⟩ := h
                      exact ⟨fun e => (hres3 _ e).2.1, hnod3 _ m hn3⟩
                    · rename_i webhooks hc4 hp
                      have hpb := parseWebhooksLoop_bound u _ hc3 []
                        (fun e => liveCount e (allWebhooks res) + liveCount e m.hooks)
                        (by simpa [liveCount] using hb3) _ hc4 hp
                      refine ih _ _ _ _ _ ?_
                        (hnod3 _ _ (webhookMap_set_nodup [] webhooks m hn3)) res1 err1 step1 h
                      intro e
                      simp only [allWebhooks_append_group, liveCount_append]
                      exact countBound_mono hc4 _
                        (fun e => liveCount e (allWebhooks res)
                          + liveCount e (m.set [] webhooks).hooks) hpb
                        (fun e => by
                          have := webhookMap_set_liveCount e [] webhooks m
                          beta_reduce
                          omega) e

/-- Among the webhooks of the groups that `parsePayPal` returns at most one per
event is live, and the labels of every group are distinct. -/
theorem parsePayPal_live_unique (u : GoUnicode) (bs : List Nat) (gs : List WebhookGroup)
    (err : Option ParseError) (h : parsePayPal u bs = some (gs, err)) :
    (∀ e, liveCount e (allWebhooks gs) ≤ 1) ∧
    (∀ wg ∈ gs, (wg.Webhooks.map (fun kv => kv.1)).Nodup) := by
  unfold parsePayPal at h
  rw [Option.map_eq_some'] at h
  obtain ⟨⟨res1, err1, step1⟩, hl, heq⟩ := h
  simp only [Prod.mk.injEq] at heq
  obtain ⟨rfl, _⟩ := heq
  exact parsePayPalLoop_bound u bs _ 0 (fun _ => 0) "" [] none
    (by intro e; simp [allWebhooks, liveCount]) (by simp) res1 err1 step1 hl

theorem webhookMap_keys_flatMap_get :
    ∀ m : WebhookMap, (m.map (fun kv => kv.1)).Nodup →
      (m.map (fun kv => kv.1)).flatMap (fun k => m.get k) = m.hooks := by
  intro m
  induction m with
  | nil => intro _; rfl
  | cons x rest ih =>
    intro hn
    obtain ⟨k0, v0⟩ := x
    simp only [List.map_cons, List.nodup_cons] at hn
    have hcongr : (rest.map (fun kv => kv.1)).flatMap (fun k => WebhookMap.get ((k0, v0) :: rest) k)
        = (rest.map (fun kv => kv.1)).flatMap (fun k => WebhookMap.get rest k) := by
      apply List.flatMap_congr
      intro k hk
      have hne : k0 ≠ k := fun heq => hn.1 (heq ▸ hk)
      simp [WebhookMap.get, hne]
    simp only [List.map_cons, List.flatMap_cons, WebhookMap.hooks]
    rw [hcongr, ih hn.2]
    simp [WebhookMap.get, WebhookMap.hooks]

/-- The webhooks that `Build` renders are those of the groups, each once. -/
theorem renderedHooks_perm (gs : List WebhookGroup)
    (hn : ∀ wg ∈ gs, (wg.Webhooks.map (fun kv => kv.1)).Nodup) :
    (renderedHooks gs).Perm (allWebhooks gs) := by
  unfold renderedHooks allWebhooks
  apply List.Perm.flatMap_left
  intro wg hwg
  unfold sortedRangeMap
  rw [← List.flatMap_def, ← webhookMap_keys_flatMap_get wg.Webhooks (hn wg hwg)]
  exact List.Perm.flatMap_right _ (sortKeys_perm _)

theorem sublist_flatMap {α β : Type} (f g : α → List β) :
    ∀ l : List α, (∀ a ∈ l, List.Sublist (f a) (g a)) →
      List.Sublist (l.flatMap f) (l.flatMap g) := by
  intro l
  induction l with
  | nil => intro _; simp
  | cons a l ih =>
    intro h
    rw [List.flatMap_cons, List.flatMap_cons]
    exact List.Sublist.append (h a (by simp)) (ih (fun b hb => h b (by simp [hb])))

theorem appendHook_declaration (g : Generator) (hook : Webhook) :
    ∃ pre, g.appendHook hook = pre ++ [declarationLine hook] :=
  ⟨[bytes "\n"] ++ g.AppendComment ⟨hook.Trigger.Content, []⟩ 1
      ++ g.AppendRelatedMethod
        ⟨hook.RelatedMethod.Content, hook.Trigger.Links ++ hook.RelatedMethod.Links⟩, rfl⟩

/-- The declarations of the webhooks of a map are written by `AppendWebhooks`, in
the order in which `sortedRangeMap` visits them. -/
theorem declarations_sublist_appendWebhooks (g : Generator) (m : WebhookMap) :
    List.Sublist ((sortedRangeMap m (fun _ v => v)).flatten.map declarationLine)
      (g.AppendWebhooks m) := by
  have hhook : ∀ v : List Webhook,
      List.Sublist (v.map declarationLine) (v.flatMap g.appendHook) := by
    intro v
    have h1 : v.map declarationLine = v.flatMap (fun h => [declarationLine h]) := by
      induction v with
      | nil => rfl
      | cons a v ih => simp [ih]
    rw [h1]
    apply sublist_flatMap
    intro hook _
    obtain ⟨pre, hpre⟩ := appendHook_declaration g hook
    rw [hpre]
    exact List.sublist_append_right _ _
  have hblock : ∀ (k : List Nat) (v : List Webhook),
      List.Sublist (v.map declarationLine) (g.versionBlock k v) := by
    intro k v
    unfold Generator.versionBlock
    exact ((hhook v).trans (List.sublist_append_right _ _)).trans
      (List.sublist_append_left _ _)
  unfold Generator.AppendWebhooks sortedRangeMap
  rw [← List.flatMap_def, ← List.flatMap_def, List.map_flatMap]
  apply sublist_flatMap
  intro k _
  exact hblock k _

/-- The declarations of the rendered webhooks are written by `Build`, in the
order of `renderedHooks`. -/
theorem declarations_sublist_build (g : Generator) (gs : List WebhookGroup) :
    List.Sublist ((renderedHooks gs).map declarationLine) (g.buildWrites gs) := by
  unfold Generator.buildWrites renderedHooks
  rw [List.map_flatMap]
  refine List.Sublist.trans ?_ (List.sublist_append_right _ _)
  apply sublist_flatMap
  intro wg _
  unfold Generator.AppendGroup
  exact (declarations_sublist_appendWebhooks g wg.Webhooks).trans
    (List.sublist_append_right _ _)

theorem pairwise_of_liveCount (ws : List Webhook) (h : ∀ e, liveCount e ws ≤ 1) :
    List.Pairwise (fun w1 w2 => w1.isLive = true → w2.isLive = true → w1.Event ≠ w2.Event)
      ws := by
  induction ws with
  | nil => exact List.Pairwise.nil
  | cons w rest ih =>
    refine List.Pairwise.cons ?_ (ih ?_)
    · intro w2 hw2 hl1 hl2 heq
      have hc := h w.Event
      have hpos : 0 < liveCount w.Event rest := by
        unfold liveCount
        rw [List.countP_pos_iff]
        exact ⟨w2, hw2, by simp [hl2, heq]⟩
      simp only [liveCount, List.countP_cons, hl1, decide_True, Bool.and_self, if_true] at hc
      unfold liveCount at hpos
      omega
    · intro e
      have hc := h e
      simp only [liveCount, List.countP_cons] at hc ⊢
      omega

set_option maxRecDepth 100000 in
/-- C15 (as stated) fails. The document below parses successfully into one group
with the events `A.B` and `A-B`; both derive the identifier `AB`, neither is
repeated (the counter is keyed by the event) nor a reference entry, and `Build`
writes two live declarations of `AB`. -/
theorem build_duplicate_identifier_counterexample :
    parsePayPal GoUnicode.identity (bytes
        ("<h2 >a</div>T</h2><tbody><tr><td><code>A.B</code></td><td>t</td><td></td></tr>"
          ++ "<tr><td><code>A-B</code></td><td>u</td><td></td></tr></tbody><h2 "))
      = some ([⟨bytes "T", ⟨[], []⟩,
          [([], [⟨false, bytes "AB", bytes "A.B", ⟨bytes "t", []⟩, ⟨[], []⟩⟩,
                 ⟨false, bytes "AB", bytes "A-B", ⟨bytes "u", []⟩, ⟨[], []⟩⟩])]⟩], none) ∧
    (renderedHooks [⟨bytes "T", ⟨[], []⟩,
          [([], [⟨false, bytes "AB", bytes "A.B", ⟨bytes "t", []⟩, ⟨[], []⟩⟩,
                 ⟨false, bytes "AB", bytes "A-B", ⟨bytes "u", []⟩, ⟨[], []⟩⟩])]⟩]).map
        (fun w => (w.ID, decide (declarationLine w = liveLine w)))
      = [(bytes "AB", true), (bytes "AB", true)] ∧
    Generator.Build ⟨bytes "paypal"⟩ [⟨bytes "T", ⟨[], []⟩,
          [([], [⟨false, bytes "AB", bytes "A.B", ⟨bytes "t", []⟩, ⟨[], []⟩⟩,
                 ⟨false, bytes "AB", bytes "A-B", ⟨bytes "u", []⟩, ⟨[], []⟩⟩])]⟩]
      = bytes ("// Code generated by paypalc. DO NOT EDIT.\npackage paypal\n\n"
          ++ "// EventType is the type of webhook.\n//\n"
          ++ "// See https://developer.paypal.com/api/rest/webhooks/event-names/\n"
          ++ "type EventType string\n\n\n// T\n\nconst (\n\t// t\n\tAB EventType = \"A.B\"\n"
          ++ "\n\t// u\n\tAB EventType = \"A-B\"\n)\n\n") := by
  decide!

/-- C15 (amended): no two live declarations for the same event code. For every
document that `parsePayPal` parses successfully, `Build` writes the declaration
of every rendered webhook, in rendering order, and two rendered webhooks with
equal `Event` are never both rendered as live declarations. -/
theorem build_live_declarations_distinct_events (u : GoUnicode) (g : Generator)
    (doc : List Nat) (gs : List WebhookGroup) (h : parsePayPal u doc = some (gs, none)) :
    List.Sublist ((renderedHooks gs).map declarationLine) (g.buildWrites gs) ∧
    g.Build gs = (g.buildWrites gs).flatten ∧
    List.Pairwise
      (fun w1 w2 => declarationLine w1 = liveLine w1 → declarationLine w2 = liveLine w2 →
        w1.isLive = true ∧ w2.isLive = true ∧ w1.Event ≠ w2.Event)
      (renderedHooks gs) := by
  obtain ⟨hcount, hnodup⟩ := parsePayPal_live_unique u doc gs none h
  refine ⟨declarations_sublist_build g gs, rfl, ?_⟩
  have hp := pairwise_of_liveCount (renderedHooks gs) (fun e => by
    unfold liveCount
    rw [(renderedHooks_perm gs hnodup).countP_eq]
    exact hcount e)
  refine hp.imp ?_
  intro w1 w2 hne h1 h2
  have hl : ∀ w : Webhook, declarationLine w = liveLine w → w.isLive = true := by
    intro w hw
    unfold declarationLine at hw
    unfold Webhook.isLive
    split at hw
    · rename_i hc
      exfalso
      have hlen := congrArg List.length hw
      simp [redeclaredLine, liveLine] at hlen
      exact absurd hlen (by decide)
    · rename_i hc
      simpa using hc
  exact ⟨hl w1 h1, hl w2 h2, hne (hl w1 h1) (hl w2 h2)⟩

set_option maxRecDepth 100000 in
/-- Witness for C15 (amended): a document with two rows for the event `A.B`. -/
theorem build_live_declarations_distinct_events_witness :
    parsePayPal GoUnicode.identity sampleDocTwoRows = some (sampleGroupsTwoRows, none) ∧
    List.Sublist ((renderedHooks sampleGroupsTwoRows).map declarationLine)
      (Generator.buildWrites ⟨bytes "paypal"⟩ sampleGroupsTwoRows) ∧
    Generator.Build ⟨bytes "paypal"⟩ sampleGroupsTwoRows
      = (Generator.buildWrites ⟨bytes "paypal"⟩ sampleGroupsTwoRows).flatten ∧
    List.Pairwise
      (fun w1 w2 => declarationLine w1 = liveLine w1 → declarationLine w2 = liveLine w2 →
        w1.isLive = true ∧ w2.isLive = true ∧ w1.Event ≠ w2.Event)
      (renderedHooks sampleGroupsTwoRows) :=
  ⟨by decide!, build_live_declarations_distinct_events GoUnicode.identity ⟨bytes "paypal"⟩
    sampleDocTwoRows sampleGroupsTwoRows (by decide!)⟩

/-- C16: no duplicate live declaration for a repeated event code. For every
document, among all webhooks of the groups that one `parsePayPal` run returns,
at most one webhook per `Event` value is neither `Repeated` nor a reference
entry; `AppendWebhooks` renders every webhook of a group once and writes its
declaration, which is the live line `ID EventType = "Event"` when the webhook is
neither repeated nor a reference entry and the comment line
`// (redeclared) ID EventType = "Event"` otherwise. -/
theorem parsePayPal_one_live_per_event (u : GoUnicode) (doc : List Nat)
    (gs : List WebhookGroup) (err : Option ParseError)
    (h : parsePayPal u doc = some (gs, err)) :
    (∀ e, (allWebhooks gs).countP
      (fun w => decide (w.Event = e) && !w.Repeated && !w.IsRef) ≤ 1) ∧
    (renderedHooks gs).Perm (allWebhooks gs) ∧
    (∀ (g : Generator), ∀ wg ∈ gs,
      List.Sublist ((sortedRangeMap wg.Webhooks (fun _ v => v)).flatten.map declarationLine)
        (g.AppendWebhooks wg.Webhooks)) ∧
    (∀ hook : Webhook,
      declarationLine hook
        = if hook.Repeated = false ∧ hook.IsRef = false then liveLine hook
          else redeclaredLine hook) := by
  obtain ⟨hcount, hnodup⟩ := parsePayPal_live_unique u doc gs err h
  refine ⟨?_, renderedHooks_perm gs hnodup,
    fun g wg _ => declarations_sublist_appendWebhooks g wg.Webhooks, ?_⟩
  · intro e
    have hfun : (fun w : Webhook => decide (w.Event = e) && !w.Repeated && !w.IsRef)
        = (fun w : Webhook => w.isLive && decide (w.Event = e)) := by
      funext w
      unfold Webhook.isLive
      cases w.Repeated <;> cases w.IsRef <;> cases decide (w.Event = e) <;> rfl
    rw [hfun]
    exact hcount e
  · intro hook
    unfold declarationLine
    cases hook.Repeated <;> cases hook.IsRef <;> simp

set_option maxRecDepth 100000 in
/-- Witness for C16: a document with three rows for the event `A.B` in two
groups, the second row a reference row. -/
theorem parsePayPal_one_live_per_event_witness :
    parsePayPal GoUnicode.identity sampleDocTwoGroups = some (sampleGroupsTwoGroups, none) ∧
    (∀ e, (allWebhooks sampleGroupsTwoGroups).countP
      (fun w => decide (w.Event = e) && !w.Repeated && !w.IsRef) ≤ 1) ∧
    (renderedHooks sampleGroupsTwoGroups).Perm (allWebhooks sampleGroupsTwoGroups) ∧
    (∀ (g : Generator), ∀ wg ∈ sampleGroupsTwoGroups,
      List.Sublist ((sortedRangeMap wg.Webhooks (fun _ v => v)).flatten.map declarationLine)
        (g.AppendWebhooks wg.Webhooks)) ∧
    (∀ hook : Webhook,
      declarationLine hook
        = if hook.Repeated = false ∧ hook.IsRef = false then liveLine hook
          else redeclaredLine hook) :=
  ⟨by decide!, parsePayPal_one_live_per_event GoUnicode.identity sampleDocTwoGroups
    sampleGroupsTwoGroups none (by decide!)⟩

/-- Witness for C20: the name `PAYMENT.SALE-x` is well formed and gives the
identifier of its three sub-segments; the name `A..B` has a doubled delimiter
and gives none. -/
theorem eventToGolangIdentifier_fails_iff_witness :
    ¬ MalformedName (bytes "PAYMENT.SALE-x") ∧
    eventToGolangIdentifier GoUnicode.identity (bytes "PAYMENT.SALE-x")
      = some (((splitByte 46 (bytes "PAYMENT.SALE-x")).flatMap (splitByte 45)).flatMap
          (segmentIdent GoUnicode.identity)) ∧
    MalformedName (bytes "A..B") ∧
    eventToGolangIdentifier GoUnicode.identity (bytes "A..B") = none :=
  ⟨by decide,
   ((eventToGolangIdentifier_fails_iff GoUnicode.identity (bytes "PAYMENT.SALE-x")).2.2
      (by decide)).1,
   by decide,
   (eventToGolangIdentifier_fails_iff GoUnicode.identity (bytes "A..B")).1.2
      ((eventToGolangIdentifier_fails_iff GoUnicode.identity (bytes "A..B")).2.1.2 (by decide))⟩

/-! ### Wrapping loses nothing -/

theorem wrap_ne_nil (bs : List Nat) (length : Int) (h : bs ≠ []) : wrap bs length ≠ [] := by
  have h0 : ¬ bs.length = 0 := by
    intro h0
    exact h (List.length_eq_zero.mp h0)
  rw [wrap_unfold, if_neg h0]
  split
  · simp
  · split <;> simp

theorem take_space_drop (bs : List Nat) (k : Nat) (hsp : bs[k]? = some 32) :
    slice bs 0 k ++ 32 :: bs.drop (k + 1) = bs := by
  have hk : k < bs.length := by
    by_contra hge
    rw [List.getElem?_eq_none (by omega)] at hsp
    simp at hsp
  have hget : bs[k] = 32 := by
    rw [List.getElem?_eq_getElem hk] at hsp
    simpa using hsp
  have hd : bs.drop k = 32 :: bs.drop (k + 1) := by
    rw [← hget]
    exact List.drop_eq_getElem_cons hk
  simp only [slice, List.drop_zero]
  rw [← hd]
  exact List.take_append_drop k bs

theorem wrap_join_aux (n : Nat) :
    ∀ (m : Nat) (bs : List Nat), bs.length ≤ m → TokensWithin bs n →
      List.intercalate [32] (wrap bs (n : Int)) = bs := by
  intro m
  induction m with
  | zero =>
    intro bs hm _
    rw [wrap_unfold, if_pos (by omega)]
    have : bs = [] := List.length_eq_zero.mp (by omega)
    simp [this, List.intercalate]
  | succ m ih =>
    intro bs hm htok
    by_cases h0 : bs.length = 0
    · rw [wrap_unfold, if_pos h0]
      have : bs = [] := List.length_eq_zero.mp h0
      simp [this, List.intercalate]
    by_cases hle : bs.length ≤ n
    · rw [wrap_unfold, if_neg h0, if_pos (by exact_mod_cast hle)]
      simp [List.intercalate]
    have hlen : n < bs.length := by omega
    obtain ⟨k, hk, hsp, hmax⟩ := exists_last_space bs n (tokens_exists_space bs n htok hlen)
    rw [wrap_break bs n k hlen hk hsp hmax]
    by_cases hm32 : 32 ∈ bs.drop (n + 1)
    · rw [if_pos hm32]
      have hne : bs.drop (k + 1) ≠ [] := by
        intro hnil
        have hlen2 : bs.length ≤ k + 1 := by
          have := congrArg List.length hnil
          simp at this
          omega
        have : bs.drop (n + 1) = [] := List.drop_eq_nil_of_le (by omega)
        rw [this] at hm32
        simp at hm32
      have hrec := ih (bs.drop (k + 1)) (by simp; omega) (tokensWithin_drop n (k + 1) bs htok)
      cases hw : wrap (bs.drop (k + 1)) (n : Int) with
      | nil => exact absurd hw (wrap_ne_nil _ _ hne)
      | cons y ys =>
        rw [hw] at hrec
        rw [intercalate_space_cons] at hrec ⊢
        simp only [List.flatMap_cons, List.append_assoc, List.cons_append]
        rw [hrec]
        exact take_space_drop bs k hsp
    · rw [if_neg hm32]
      rw [intercalate_space_cons]
      simp only [List.flatMap_cons, List.flatMap_nil, List.append_nil]
      exact take_space_drop bs k hsp

/-- C27: `wrap` loses nothing. For every text and every `n ≥ 0` such that every
maximal run of non-space bytes of the text has length at most `n`, the lines of
`wrap(text, n)` joined with single spaces are exactly the text. -/
theorem wrap_join_eq_text (bs : List Nat) (n : Nat) (h : TokensWithin bs n) :
    List.intercalate [32] (wrap bs (n : Int)) = bs :=
  wrap_join_aux n bs.length bs (Nat.le_refl _) h

/-- Witness for C27: the tokens of `ab cd e` fit in 2 columns; its lines are
`ab`, `cd` and `e`, and joined with spaces they are the text. -/
theorem wrap_join_eq_text_witness :
    TokensWithin (bytes "ab cd e") 2 ∧
    wrap (bytes "ab cd e") ((2 : Nat) : Int) = [bytes "ab", bytes "cd", bytes "e"] ∧
    List.intercalate [32] (wrap (bytes "ab cd e") ((2 : Nat) : Int)) = bytes "ab cd e" :=
  ⟨by decide, by decide, wrap_join_eq_text (bytes "ab cd e") 2 (by decide)⟩

/-! ### Absence of a region, shape of a region -/

/-- With an empty pattern `findBytes` returns `-1` on the empty slice and panics
on every other (the index `pattern[0]` is out of range). -/
theorem findBytes_nil_pattern (l : List Nat) :
    findBytes l [] = if l = [] then some (-1) else none := by
  cases l <;> simp [findBytes, findBytesFrom]

/-- Whenever `findRegion` returns `nil` the cursor is unchanged. -/
theorem findRegion_none_cursor (bs start endM : List Nat) (c c1 : Nat)
    (h : findRegion bs start endM c = some (none, c1)) : c1 = c := by
  unfold findRegion at h
  repeat' split at h
  all_goals simp_all

/-- The markers of a returned region are not empty. -/
theorem findRegion_some_markers (bs start endM : List Nat) (c c1 : Nat) (r : List Nat)
    (h : findRegion bs start endM c = some (some r, c1)) : start ≠ [] ∧ endM ≠ [] := by
  unfold findRegion at h
  constructor
  · rintro rfl
    rw [findBytes_nil_pattern] at h
    repeat' split at h
    all_goals simp_all
  · rintro rfl
    simp only [findBytes_nil_pattern] at h
    repeat' split at h
    all_goals simp_all

theorem findRegion_no_start (bs start endM : List Nat) (c : Nat) (hc : c ≤ bs.length)
    (hs : start ≠ []) (hno : ∀ k, c ≤ k → ¬ OccursAt bs start k) :
    findRegion bs start endM c = some (none, c) := by
  unfold findRegion
  rw [if_neg (by omega)]
  rcases findBytes_drop_spec bs start c hs hc with ⟨h1, _⟩ | ⟨s, hS, _⟩
  · rw [h1]; simp
  · exact absurd hS.2.1 (hno s hS.1)

theorem findRegion_no_end (bs start endM : List Nat) (c s : Nat)
    (hs : start ≠ []) (hS : FirstOccFrom bs start c s)
    (hno : ∀ k, s ≤ k → ¬ OccursAt bs endM k) :
    findRegion bs start endM c = some (none, c) := by
  have hcs : c ≤ s := hS.1
  have hsl : s ≤ bs.length := hS.2.1.1
  have he : endM ≠ [] := by
    rintro rfl
    exact hno s (Nat.le_refl _) ⟨hsl, List.nil_prefix⟩
  unfold findRegion
  rw [if_neg (by omega), findBytes_of_firstOcc bs start c s hs hS]
  simp only []
  have hidx : c + ((s - c : Nat) : Int).toNat = s := by
    rw [Int.toNat_ofNat]; omega
  rw [if_neg (by omega), hidx]
  rcases findBytes_drop_spec bs endM s he hsl with ⟨h2, _⟩ | ⟨e, hE, _⟩
  · rw [h2]; simp
  · exact absurd hE.2.1 (hno e hE.1)

/-- C22 (as stated) fails: with an empty start marker, which occurs at the
cursor, and an end marker `y` that occurs nowhere in the buffer `x`,
`findRegion` does not return `nil`: `findBytes` panics on `pattern[0]`. -/
theorem findRegion_empty_start_counterexample :
    FirstOccFrom (bytes "x") [] 0 0 ∧
    (∀ k, ¬ OccursAt (bytes "x") (bytes "y") k) ∧
    findRegion (bytes "x") [] (bytes "y") 0 = none := by
  refine ⟨by decide, ?_, by decide⟩
  rintro k ⟨hk, hp⟩
  have hk2 : k ≤ 1 := hk
  interval_cases k
  · revert hp; decide
  · revert hp; decide

/-- C22 (amended): absence of a region is a side-effect-free signal. For every
buffer, non-empty start marker and cursor `c ≤ len(buffer)`: if the start marker
does not occur at or after `c`, or the end marker does not occur at or after
the first such start, `findRegion` returns `nil` and leaves the cursor at `c`;
and whenever `findRegion` returns `nil`, for any markers, the cursor is left
unchanged. -/
theorem findRegion_absent_none (bs start endM : List Nat) (c : Nat)
    (hc : c ≤ bs.length) (hs : start ≠ []) :
    ((∀ k, c ≤ k → ¬ OccursAt bs start k) → findRegion bs start endM c = some (none, c)) ∧
    (∀ s, FirstOccFrom bs start c s → (∀ k, s ≤ k → ¬ OccursAt bs endM k) →
      findRegion bs start endM c = some (none, c)) ∧
    (∀ (start1 endM1 : List Nat) (c1 : Nat),
      findRegion bs start1 endM1 c = some (none, c1) → c1 = c) :=
  ⟨findRegion_no_start bs start endM c hc hs,
   fun s hS hno => findRegion_no_end bs start endM c s hs hS hno,
   fun start1 endM1 c1 h => findRegion_none_cursor bs start1 endM1 c c1 h⟩

/-- Witness for C22 (amended): in `<h2 <p>a` from cursor 0 the marker `<tbody>`
does not occur, and the marker `<p>` occurs at 4 with no `</p>` after it. -/
theorem findRegion_absent_none_witness :
    (5 : Nat) ≤ (bytes "<h2 <p>a").length ∧ bytes "<p>" ≠ [] ∧
    findRegion (bytes "<h2 <p>a") (bytes "<p>") (bytes "</p>") 5 = some (none, 5) ∧
    findRegion (bytes "<h2 <p>a") (bytes "<p>") (bytes "</p>") 0 = some (none, 0) :=
  ⟨by decide, by decide,
   (findRegion_absent_none (bytes "<h2 <p>a") (bytes "<p>") (bytes "</p>") 5
      (by decide) (by decide)).1
      (by
        rintro k hk ⟨hk1, hp⟩
        have hk2 : k ≤ 8 := hk1
        interval_cases k <;> revert hp <;> decide),
   (findRegion_absent_none (bytes "<h2 <p>a") (bytes "<p>") (bytes "</p>") 0
      (by decide) (by decide)).2.1 4 (by decide)
      (by
        rintro k hk ⟨hk1, hp⟩
        have hk2 : k ≤ 8 := hk1
        interval_cases k <;> revert hp <;> decide)⟩

/-- The shape of a returned region, in terms of the indices `s` and `e` of its
markers. -/
theorem findRegion_shape_aux (bs start endM : List Nat) (c c1 : Nat) (r : List Nat)
    (h : findRegion bs start endM c = some (some r, c1)) :
    ∃ s, FirstOccFrom bs start c s ∧ r = slice bs s c1 ∧ c1 ≤ bs.length ∧ c < c1 ∧
      endM <:+ r ∧ (∀ j, endM <+: r.drop j → j + endM.length = r.length) ∧
      (start.length ≤ r.length → start <+: r) ∧
      (start.length ≤ endM.length → start <+: r) := by
  obtain ⟨hs, he⟩ := findRegion_some_markers bs start endM c c1 r h
  obtain ⟨s, e, h0, hS, hE, _, _, hr, hc1⟩ := findRegion_some_inv bs start endM c c1 r hs he h
  have hcs : c ≤ s := hS.1
  have hse : s ≤ e := hE.1
  obtain ⟨hel, t, ht⟩ := hE.2.1
  have hepos : 0 < endM.length := List.length_pos.mpr he
  have hlen : e + endM.length ≤ bs.length := by
    have := congrArg List.length ht
    simp at this
    omega
  have htake : bs.take (e + endM.length) = bs.take e ++ endM := by
    have hbs : bs = bs.take e ++ (endM ++ t) := by
      rw [ht]; exact (List.take_append_drop e bs).symm
    have hl : (bs.take e).length = e := by simp; omega
    conv_lhs => rw [hbs]
    rw [List.take_append_eq_append_take, hl]
    have h1 : (bs.take e).take (e + endM.length) = bs.take e := by
      rw [List.take_take]; congr 1; omega
    have h2 : (endM ++ t).take (e + endM.length - e) = endM := by
      have : e + endM.length - e = endM.length := by omega
      rw [this, List.take_left']
      rfl
    rw [h1, h2]
  have hrlen : r.length = e + endM.length - s := by
    rw [hr]; simp [slice]; omega
  have hrdrop : ∀ j, r.drop j <+: bs.drop (s + j) := by
    intro j
    rw [hr]
    simp only [slice, List.drop_drop]
    rw [List.drop_take]
    exact List.take_prefix _ _
  have hstart : start.length ≤ r.length → start <+: r := by
    intro hle
    have h1 : r <+: bs.drop s := by simpa using hrdrop 0
    exact List.prefix_of_prefix_length_le hS.2.1.2 h1 hle
  refine ⟨s, hS, by rw [hr, hc1], by omega, by omega, ?_, ?_, hstart, ?_⟩
  · rw [hr]
    simp only [slice]
    rw [htake, List.drop_append_of_le_length (by simp; omega)]
    exact List.suffix_append _ _
  · intro j hj
    have hjl : j + endM.length ≤ r.length := by
      have := hj.length_le
      simp at this
      omega
    have hocc : OccursAt bs endM (s + j) := ⟨by omega, hj.trans (hrdrop j)⟩
    have hge : ¬ s + j < e := fun hlt => hE.2.2 (s + j) hlt (by omega) hocc
    omega
  · intro hle
    exact hstart (by omega)

/-- C25 (as stated) fails: in `ab<h2 ` from cursor 0 with the start marker `ab`
and the end marker `a`, the end marker is found inside the start marker and the
returned region `a` does not begin with the start marker. -/
theorem findRegion_region_short_counterexample :
    findRegion (bytes "ab<h2 ") (bytes "ab") (bytes "a") 0 = some (some (bytes "a"), 1) ∧
    ¬ (bytes "ab" <+: bytes "a") := by
  decide

/-- C25 (amended): shape of a found region and monotone cursor. Whenever
`findRegion` returns a region from the cursor `c`, the region is the slice
`buffer[s..c1)` where `s ≥ c` is the first occurrence of the start marker at or
after `c` and `c1 ≤ len(buffer)` is the new cursor, with `c1 > c`; the region
ends with the end marker and contains no other complete occurrence of it; and it
begins with the start marker whenever it is at least as long as the start
marker, in particular whenever the start marker is not longer than the end
marker, as in every search of `parsePayPal`. -/
theorem findRegion_region_shape (bs start endM : List Nat) (c c1 : Nat) (r : List Nat)
    (h : findRegion bs start endM c = some (some r, c1)) :
    ∃ s, FirstOccFrom bs start c s ∧ r = slice bs s c1 ∧ c1 ≤ bs.length ∧ c < c1 ∧
      endM <:+ r ∧ (∀ j, endM <+: r.drop j → j + endM.length = r.length) ∧
      (start.length ≤ r.length → start <+: r) ∧
      (start.length ≤ endM.length → start <+: r) :=
  findRegion_shape_aux bs start endM c c1 r h

/-- Witness for C25 (amended): the paragraph of `x<p>a</p><h2 ` from cursor 0. -/
theorem findRegion_region_shape_witness :
    findRegion (bytes "x<p>a</p><h2 ") (bytes "<p>") (bytes "</p>") 0
      = some (some (bytes "<p>a</p>"), 9) ∧
    ∃ s, FirstOccFrom (bytes "x<p>a</p><h2 ") (bytes "<p>") 0 s ∧
      bytes "<p>a</p>" = slice (bytes "x<p>a</p><h2 ") s 9 ∧
      9 ≤ (bytes "x<p>a</p><h2 ").length ∧ 0 < 9 ∧
      bytes "</p>" <:+ bytes "<p>a</p>" ∧
      (∀ j, bytes "</p>" <+: (bytes "<p>a</p>").drop j
        → j + (bytes "</p>").length = (bytes "<p>a</p>").length) ∧
      ((bytes "<p>").length ≤ (bytes "<p>a</p>").length → bytes "<p>" <+: bytes "<p>a</p>") ∧
      ((bytes "<p>").length ≤ (bytes "</p>").length → bytes "<p>" <+: bytes "<p>a</p>") :=
  ⟨by decide, findRegion_region_shape (bytes "x<p>a</p><h2 ") (bytes "<p>") (bytes "</p>") 0 9
    (bytes "<p>a</p>") (by decide)⟩

/-! ### Anchor and code merge -/

/-- When the combined anchor and code pattern matches zero times or more than
once, `ReplaceACode` returns the text unchanged. -/
theorem replaceACode_unchanged (u : GoUnicode) (p : Parser)
    (h : (reACode.FindAll p.bs).length ≠ 1) : Parser.ReplaceACode u p = some p := by
  unfold Parser.ReplaceACode
  simp only []
  by_cases h0 : reACode.FindAll p.bs = []
  · rw [if_pos h0]
  · rw [if_neg h0]
    have hpos : 0 < (reACode.FindAll p.bs).length := List.length_pos.mpr h0
    rw [if_pos (by omega)]

set_option maxRecDepth 100000 in
/-- C26 fails on the code. In the text
`Use <code>X.Y</code> or <a href="/z"><code>A.B</code></a> now` the combined
pattern matches once, the anchor around `A.B`; `ReplaceACode` replaces it by
`[XY]`, not `[AB]`: the identifier is derived from the first code span of the
whole text (`reCode.FindSubmatch(p.bs)`), not from the code span inside the
anchor. The trigger cell of a table row with this text is rendered with `[XY]`.
When the anchor holds the first code span of the text the result is the one
expected, and a text without anchors is unchanged. -/
theorem replaceACode_uses_first_code_span :
    reACode.FindAll (bytes "Use <code>X.Y</code> or <a href=\"/z\"><code>A.B</code></a> now")
      = [bytes "<a href=\"/z\"><code>A.B</code></a>"] ∧
    reCode.FindSubmatch
        (bytes "Use <code>X.Y</code> or <a href=\"/z\"><code>A.B</code></a> now")
      = some [bytes "<code>X.Y</code>", bytes "X.Y"] ∧
    Parser.ReplaceACode GoUnicode.identity
        (NewParser (bytes "Use <code>X.Y</code> or <a href=\"/z\"><code>A.B</code></a> now"))
      = some ⟨bytes "Use <code>X.Y</code> or [XY] now"⟩ ∧
    (parseWebhook GoUnicode.identity (bytes
        ("<tr><td><code>E.V</code></td><td>Use <code>X.Y</code> or "
          ++ "<a href=\"/z\"><code>A.B</code></a> now</td><td></td></tr>")))
      = some (Result.ok ⟨false, bytes "EV", bytes "E.V",
          ⟨bytes "Use `X.Y` or [XY] now", []⟩, ⟨[], []⟩⟩) ∧
    Parser.ReplaceACode GoUnicode.identity
        (NewParser (bytes "See <a href=\"/z\"><code>A.B</code></a> now"))
      = some ⟨bytes "See [AB] now"⟩ ∧
    Parser.ReplaceACode GoUnicode.identity (NewParser (bytes "no anchors"))
      = some ⟨bytes "no anchors"⟩ := by
  decide!

/-! ### The HTTP client -/

/-- C23: API error message format. For every `Error` value, if its
identity-error field `Err` is non-empty then `Error()` returns that field, `: `
and the error description; otherwise it returns the name, `: `, the message,
` (`, the debug id and `)`. -/
theorem error_message_format (e : Error) :
    (e.Err ≠ [] → e.Error = e.Err ++ bytes ": " ++ e.ErrDesc) ∧
    (e.Err = [] →
      e.Error = e.Name ++ bytes ": " ++ e.Message ++ bytes " (" ++ e.DebugID ++ bytes ")") := by
  constructor
  · intro h
    unfold Error.Error
    rw [if_pos h]
  · intro h
    unfold Error.Error
    rw [if_neg (by simp [h])]

/-- Witness for C23: the identity error of `TestError`, and an API error. -/
theorem error_message_format_witness :
    Error.Error ⟨401, [], [], [], [], [], bytes "invalid_client",
        bytes "Client Authentication failed"⟩
      = bytes "invalid_client" ++ bytes ": " ++ bytes "Client Authentication failed" ∧
    bytes "invalid_client" ++ bytes ": " ++ bytes "Client Authentication failed"
      = bytes "invalid_client: Client Authentication failed" ∧
    Error.Error ⟨404, bytes "RESOURCE_NOT_FOUND", bytes "The specified resource does not exist.",
        bytes "d1", [], [], [], []⟩
      = bytes "RESOURCE_NOT_FOUND" ++ bytes ": " ++ bytes "The specified resource does not exist."
        ++ bytes " (" ++ bytes "d1" ++ bytes ")" :=
  ⟨(error_message_format ⟨401, [], [], [], [], [], bytes "invalid_client",
      bytes "Client Authentication failed"⟩).1 (by decide),
   by decide,
   (error_message_format ⟨404, bytes "RESOURCE_NOT_FOUND",
      bytes "The specified resource does not exist.", bytes "d1", [], [], [], []⟩).2 rfl⟩

/-- The error that `RespJSON` returns is never a `*Error`. -/
theorem respJSON_not_api {R : Type} (codec : Codec R) (r : Response) (err : GoError)
    (h : (RespJSON codec r).2 = some err) : err.isAPIError = false := by
  unfold RespJSON at h
  cases hr : r.ReadErr with
  | some msg =>
    rw [hr] at h
    simp only [Option.some.injEq] at h
    subst h
    rfl
  | none =>
    rw [hr] at h
    simp only [] at h
    cases ho : (codec.Unmarshal r.Body codec.zero).2 with
    | none => rw [ho] at h; simp at h
    | some msg =>
      rw [ho] at h
      simp only [Option.map_some', Option.some.injEq] at h
      subst h
      rfl

/-- A response with a status below 400 is decoded as the result. -/
theorem doJSON_of_success {σ R : Type} (lib : Lib σ) (codec : Codec R) (req : Request)
    (w w1 : σ) (hres : Response) (hdo : lib.Do req w = (.ok hres, w1))
    (hs : hres.StatusCode < 400) :
    doJSON lib codec req w = some (RespJSON codec hres, w1) := by
  unfold doJSON
  rw [hdo]
  simp only []
  rw [if_pos hs]

/-- A response with a status of 400 or above whose body decodes as an `Error`
gives that error with the status code of the response. -/
theorem doJSON_of_failure {σ R : Type} (lib : Lib σ) (codec : Codec R) (req : Request)
    (w w1 : σ) (hres : Response) (e : Error) (hdo : lib.Do req w = (.ok hres, w1))
    (hs : 400 ≤ hres.StatusCode) (hread : hres.ReadErr = none)
    (hdec : lib.ErrorCodec.Unmarshal hres.Body lib.ErrorCodec.zero = (e, none)) :
    doJSON lib codec req w
      = some ((none, some (.api { e with StatusCode := hres.StatusCode })), w1) := by
  have hr : RespJSON lib.ErrorCodec hres = (some e, none) := by
    unfold RespJSON
    rw [hread]
    simp only [hdec, Option.map_none']
  unfold doJSON
  rw [hdo]
  simp only []
  rw [if_neg (by omega), hr]

/-- After a token check without error the client holds a token. -/
theorem checkToken_token {σ : Type} (lib : Lib σ) (c c1 : Client) (ctx : Context) (w w1 : σ)
    (h : c.checkToken lib ctx w = some (none, c1, w1)) : ∃ tok, c1.t = some tok := by
  unfold Client.checkToken at h
  split at h
  · rename_i hv
    cases ha : c.Auth lib ctx w with
    | none => rw [ha] at h; simp at h
    | some r =>
      obtain ⟨⟨res, err⟩, w2⟩ := r
      rw [ha] at h
      simp only [Option.some.injEq, Prod.mk.injEq] at h
      obtain ⟨herr, hc, _⟩ := h
      subst herr
      subst hc
      unfold Client.Auth at ha
      simp only [] at ha
      cases res with
      | some tok => exact ⟨tok, rfl⟩
      | none =>
        exfalso
        repeat' split at ha
        all_goals simp_all
  · rename_i hv
    simp only [Option.some.injEq, Prod.mk.injEq] at h
    obtain ⟨_, hc, _⟩ := h
    subst hc
    cases ht : c.t with
    | none => rw [ht] at hv; simp [Token.Valid] at hv
    | some tok => exact ⟨tok, rfl⟩

/-- Once the request is built and the token checked, `JSON` returns what `doJSON`
returns for the request with the `Authorization` header of the token. -/
theorem JSON_eq_doJSON {σ D R : Type} (lib : Lib σ)
    (marshal : D → Except (List Nat) (List Nat)) (codec : Codec R) (c c1 : Client)
    (ctx : Context) (method path : List Nat) (data : Option D) (w w1 : σ) (req : Request)
    (hreq : NewJSONRequest lib marshal ctx method (c.base ++ path) data = .ok req)
    (hck : c.checkToken lib ctx w = some (none, c1, w1)) :
    ∃ tok, c1.t = some tok ∧
      JSON lib marshal codec c ctx method path data w
        = (doJSON lib codec (req.setAuthorization (bytes "Bearer " ++ tok.AccessToken)) w1).map
          (fun p => (p.1, c1, p.2)) := by
  obtain ⟨tok, htok⟩ := checkToken_token lib c c1 ctx w w1 hck
  refine ⟨tok, htok, ?_⟩
  unfold JSON
  simp only [hreq, hck, htok]
  cases doJSON lib codec (req.setAuthorization (bytes "Bearer " ++ tok.AccessToken)) w1 with
  | none => rfl
  | some r => rfl

/-- C24: the HTTP status decides success or a typed error. Let `JSON` have built
its request and checked the token, and let the transport answer the request
with the response `hres`. If the status code is below 400, `JSON` returns what
`RespJSON[R]` decodes from the body, which is the decoded value with a `nil`
error when the body is read and decoded without error, and the error is never
a `*Error`. If the status code is 400 or above and the body decodes as an
`Error`, `JSON` returns `nil` together with a `*Error` whose fields are the
decoded ones and whose `StatusCode` is the status code of the response. The
same holds of `doJSON` for every request. -/
theorem json_status_decides {σ D R : Type} (lib : Lib σ)
    (marshal : D → Except (List Nat) (List Nat)) (codec : Codec R) (c c1 : Client)
    (ctx : Context) (method path : List Nat) (data : Option D) (w w1 w2 : σ) (req : Request)
    (tok : Token) (hres : Response)
    (hreq : NewJSONRequest lib marshal ctx method (c.base ++ path) data = .ok req)
    (hck : c.checkToken lib ctx w = some (none, c1, w1))
    (htok : c1.t = some tok)
    (hdo : lib.Do (req.setAuthorization (bytes "Bearer " ++ tok.AccessToken)) w1
      = (.ok hres, w2)) :
    (hres.StatusCode < 400 →
      JSON lib marshal codec c ctx method path data w = some (RespJSON codec hres, c1, w2) ∧
      doJSON lib codec (req.setAuthorization (bytes "Bearer " ++ tok.AccessToken)) w1
        = some (RespJSON codec hres, w2) ∧
      (∀ v, hres.ReadErr = none → codec.Unmarshal hres.Body codec.zero = (v, none) →
        RespJSON codec hres = (some v, none)) ∧
      ∀ err, (RespJSON codec hres).2 = some err → err.isAPIError = false) ∧
    (400 ≤ hres.StatusCode →
      ∀ e, hres.ReadErr = none →
        lib.ErrorCodec.Unmarshal hres.Body lib.ErrorCodec.zero = (e, none) →
        JSON lib marshal codec c ctx method path data w
          = some ((none, some (.api { e with StatusCode := hres.StatusCode })), c1, w2) ∧
        doJSON lib codec (req.setAuthorization (bytes "Bearer " ++ tok.AccessToken)) w1
          = some ((none, some (.api { e with StatusCode := hres.StatusCode })), w2)) := by
  obtain ⟨tok1, htok1, hj⟩ :=
    JSON_eq_doJSON lib marshal codec c c1 ctx method path data w w1 req hreq hck
  rw [htok] at htok1
  cases htok1
  constructor
  · intro hs
    have hd := doJSON_of_success lib codec _ w1 w2 hres hdo hs
    refine ⟨?_, hd, ?_, fun err h => respJSON_not_api codec hres err h⟩
    · rw [hj, hd]
      rfl
    · intro v hread hdec
      unfold RespJSON
      rw [hread]
      simp only [hdec, Option.map_none']
  · intro hs e hread hdec
    have hd := doJSON_of_failure lib codec _ w1 w2 hres e hdo hs hread hdec
    refine ⟨?_, hd⟩
    rw [hj, hd]
    rfl

/-- Witness for C24: a client with a valid token asks for an unknown
subscription and the transport answers 404 with an error body; the result is
`nil` and the decoded `*Error` with `StatusCode` 404. -/
theorem json_status_decides_witness :
    JSON notFoundLib (fun (d : Empty) => d.elim) lengthCodec
        ⟨[], [], [], some ⟨[], bytes "T", [], [], [], 100, 5⟩⟩
        (WithOperation .background (bytes "GetSubscription")) (bytes "GET")
        (bytes "/v1/billing/subscriptions/I-1") none ()
      = some ((none, some (.api ⟨404, bytes "RESOURCE_NOT_FOUND", [], bytes "d1", [], [], [],
          []⟩)), ⟨[], [], [], some ⟨[], bytes "T", [], [], [], 100, 5⟩⟩, ()) :=
  ((json_status_decides notFoundLib (fun (d : Empty) => d.elim) lengthCodec
      ⟨[], [], [], some ⟨[], bytes "T", [], [], [], 100, 5⟩⟩
      ⟨[], [], [], some ⟨[], bytes "T", [], [], [], 100, 5⟩⟩
      (WithOperation .background (bytes "GetSubscription")) (bytes "GET")
      (bytes "/v1/billing/subscriptions/I-1") none () () ()
      ⟨bytes "GET", [] ++ bytes "/v1/billing/subscriptions/I-1",
        headerSet [] (bytes "Content-Type") (bytes "application/json"), none,
        WithOperation .background (bytes "GetSubscription")⟩
      ⟨[], bytes "T", [], [], [], 100, 5⟩ ⟨404, 1, bytes "E", none⟩
      rfl rfl rfl rfl).2 (by decide)
    ⟨0, bytes "RESOURCE_NOT_FOUND", [], bytes "d1", [], [], [], []⟩ rfl rfl).1

/-! ### Span names -/

/-- The span name of a request whose context carries an operation name. -/
theorem formatSpanName_of_operation (s op : List Nat) (r : Request)
    (h : r.Ctx.Value = some op) :
    formatSpanName s r = some (bytes "PayPal " ++ if op = [] then r.Method else op) := by
  unfold formatSpanName GetOperation
  rw [h]

/-- On a request whose context carries no operation name `formatSpanName`
panics. -/
theorem formatSpanName_of_no_operation (s : List Nat) (r : Request)
    (h : r.Ctx.Value = none) : formatSpanName s r = none := by
  unfold formatSpanName GetOperation
  rw [h]

set_option maxRecDepth 100000 in
/-- C28 fails on the code. For a request whose context carries no operation name
`formatSpanName` does not fall back to the HTTP method: `GetOperation` asserts
that the `nil` value is a string and panics. `CreateSubscription` called with
the background context sends, after the `Auth` request, a request with that
context, whose span name is the panic; the requests of `GetSubscription` are
named `PayPal Auth` and `PayPal GetSubscription`. The fallback is taken only
for an empty operation name stored by `WithOperation`. -/
theorem formatSpanName_panics_without_operation :
    formatSpanName []
        ⟨bytes "POST", bytes "/v1/billing/subscriptions", [], none, .background⟩ = none ∧
    (Client.CreateSubscription recordingLib (fun (_ : Unit) => .ok (bytes "null")) lengthCodec
        ⟨[], [], [], none⟩ .background () []).map
        (fun r => r.2.2.map (fun q => (q.URL, q.Ctx, formatSpanName [] q)))
      = some [(bytes "/v1/oauth2/token", WithOperation .background (bytes "Auth"),
                some (bytes "PayPal Auth")),
              (bytes "/v1/billing/subscriptions", .background, none)] ∧
    (Client.GetSubscription recordingLib lengthCodec
        ⟨[], [], [], none⟩ .background (bytes "I-1") []).map
        (fun r => r.2.2.map (fun q => (q.URL, formatSpanName [] q)))
      = some [(bytes "/v1/oauth2/token", some (bytes "PayPal Auth")),
              (bytes "/v1/billing/subscriptions/I-1", some (bytes "PayPal GetSubscription"))] ∧
    formatSpanName [] ⟨bytes "GET", [], [], none, WithOperation .background []⟩
      = some (bytes "PayPal GET") := by
  decide

/-! ### Title extraction -/

theorem runesFrom_eq_runes : ∀ (l : List Nat) (s : Nat), runesFrom l s = runes (l.drop s) := by
  intro l
  induction l with
  | nil => intro s; simp [runes, runesFrom]
  | cons b rest ih =>
    intro s
    cases s with
    | zero => simp [runes]
    | succ s => simp [runesFrom, ih]

theorem runeWidth_pos (b : Nat) (rest : List Nat) : 1 ≤ runeWidth (b :: rest) := by
  unfold runeWidth
  simp only []
  repeat' split
  all_goals omega

theorem runeWidth_le_length (l : List Nat) : runeWidth l ≤ l.length := by
  unfold runeWidth
  simp only []
  repeat' split
  all_goals simp

/-- The recursion equation of `runes`. -/
theorem runes_cons (b : Nat) (rest : List Nat) :
    runes (b :: rest)
      = (b :: rest).take (runeWidth (b :: rest))
        :: runes ((b :: rest).drop (runeWidth (b :: rest))) := by
  have hw := runeWidth_pos b rest
  conv_lhs => rw [runes, runesFrom]
  rw [runesFrom_eq_runes]
  obtain ⟨w, hw1⟩ : ∃ w, runeWidth (b :: rest) = w + 1 := ⟨runeWidth (b :: rest) - 1, by omega⟩
  rw [hw1]
  simp

theorem runes_nil : runes [] = [] := by
  simp [runes, runesFrom]

theorem runes_flatten_aux :
    ∀ (n : Nat) (l : List Nat), l.length ≤ n → (runes l).flatten = l := by
  intro n
  induction n with
  | zero =>
    intro l hl
    have : l = [] := List.length_eq_zero.mp (by omega)
    subst this
    simp [runes_nil]
  | succ n ih =>
    intro l hl
    cases l with
    | nil => simp [runes_nil]
    | cons b rest =>
      have hw := runeWidth_pos b rest
      rw [runes_cons, List.flatten_cons, ih _ (by simp at hl ⊢; omega)]
      exact List.take_append_drop _ _

/-- The runes of an input, concatenated, are the input. -/
theorem runes_flatten (l : List Nat) : (runes l).flatten = l :=
  runes_flatten_aux l.length l (Nat.le_refl _)

theorem runes_mem_ne_nil_aux :
    ∀ (n : Nat) (l : List Nat), l.length ≤ n → ∀ r ∈ runes l, r ≠ [] := by
  intro n
  induction n with
  | zero =>
    intro l hl r hr
    have : l = [] := List.length_eq_zero.mp (by omega)
    subst this
    simp [runes_nil] at hr
  | succ n ih =>
    intro l hl r hr
    cases l with
    | nil => simp [runes_nil] at hr
    | cons b rest =>
      have hw := runeWidth_pos b rest
      rw [runes_cons, List.mem_cons] at hr
      rcases hr with hr | hr
      · subst hr
        obtain ⟨w, hw1⟩ : ∃ w, runeWidth (b :: rest) = w + 1 :=
          ⟨runeWidth (b :: rest) - 1, by omega⟩
        rw [hw1]
        simp
      · exact ih _ (by simp at hl ⊢; omega) r hr

/-- No rune is empty. -/
theorem runes_mem_ne_nil (l : List Nat) : ∀ r ∈ runes l, r ≠ [] :=
  runes_mem_ne_nil_aux l.length l (Nat.le_refl _)

theorem runes_ascii_cons (a : Nat) (rest : List Nat) (ha : a < 128) :
    runes (a :: rest) = [a] :: runes rest := by
  have hw : runeWidth (a :: rest) = 1 := by
    unfold runeWidth
    simp only []
    rw [if_pos (by omega)]
  rw [runes_cons, hw]
  simp

/-- The width of the first rune does not change when an ASCII byte and more
follow the text. -/
theorem runeWidth_append_ascii (x : List Nat) (a : Nat) (y : List Nat) (hx : x ≠ [])
    (ha : a < 128) : runeWidth (x ++ a :: y) = runeWidth x := by
  rcases x with _ | ⟨b0, _ | ⟨b1, _ | ⟨b2, _ | ⟨b3, x4⟩⟩⟩⟩
  · exact absurd rfl hx
  all_goals
    simp only [runeWidth, List.cons_append, List.nil_append]
    repeat' split
    all_goals first | rfl | omega | (simp_all; done) | (exfalso; simp_all; omega)

theorem runes_append_ascii_aux (a : Nat) (y : List Nat) (ha : a < 128) :
    ∀ (n : Nat) (x : List Nat), x.length ≤ n →
      runes (x ++ a :: y) = runes x ++ [a] :: runes y := by
  intro n
  induction n with
  | zero =>
    intro x hx
    have : x = [] := List.length_eq_zero.mp (by omega)
    subst this
    simp [runes_nil, runes_ascii_cons a y ha]
  | succ n ih =>
    intro x hx
    cases x with
    | nil => simp [runes_nil, runes_ascii_cons a y ha]
    | cons b rest =>
      have hw := runeWidth_pos b rest
      have hle := runeWidth_le_length (b :: rest)
      have heq := runeWidth_append_ascii (b :: rest) a y (by simp) ha
      have hcons : (b :: rest) ++ a :: y = b :: (rest ++ a :: y) := rfl
      rw [hcons, runes_cons, ← hcons, heq, runes_cons b rest]
      rw [List.take_append_of_le_length hle, List.drop_append_of_le_length hle]
      rw [ih _ (by simp at hx hle ⊢; omega)]
      simp

/-- A rune never runs over an ASCII byte: the runes of a text followed by an
ASCII byte and more are the runes of the text followed by those of the rest. -/
theorem runes_append_ascii (x : List Nat) (a : Nat) (y : List Nat) (ha : a < 128) :
    runes (x ++ a :: y) = runes x ++ [a] :: runes y :=
  runes_append_ascii_aux a y ha x.length x (Nat.le_refl _)

/-- The runes of an ASCII text followed by more. -/
theorem runes_ascii_append (a y : List Nat) (ha : ∀ b ∈ a, b < 128) :
    runes (a ++ y) = asciiRunes a ++ runes y := by
  induction a with
  | nil => simp [asciiRunes]
  | cons b rest ih =>
    have hb : b < 128 := ha b (by simp)
    have hr : ∀ c ∈ rest, c < 128 := fun c hc => ha c (by simp [hc])
    rw [List.cons_append, runes_ascii_cons b _ hb, ih hr]
    simp [asciiRunes]

theorem asciiRunes_flatten (a : List Nat) : (asciiRunes a).flatten = a := by
  induction a with
  | nil => rfl
  | cons b rest ih =>
    simp only [asciiRunes, List.map_cons, List.flatten_cons] at ih ⊢
    rw [ih]
    rfl

theorem asciiRunes_append (a b : List Nat) :
    asciiRunes (a ++ b) = asciiRunes a ++ asciiRunes b := by
  simp [asciiRunes]

/-- The literals of an ASCII text match the runes of the text. -/
theorem matchNodes_lits (a : List Nat) (ns : List Node) (k : Cont) (rest : List (List Nat))
    (caps : Caps) :
    ∀ pos, matchNodes (a.map Node.lit ++ ns) k (asciiRunes a ++ rest) pos caps
      = matchNodes ns k rest (pos + a.length) caps := by
  induction a with
  | nil => intro pos; simp [asciiRunes]
  | cons b a ih =>
    intro pos
    have hstep : matchNodes ((b :: a).map Node.lit ++ ns) k (asciiRunes (b :: a) ++ rest) pos caps
        = matchNodes (a.map Node.lit ++ ns) k (asciiRunes a ++ rest) (pos + 1) caps := by
      simp [matchNodes, asciiRunes]
    rw [hstep, ih (pos + 1)]
    congr 1
    simp only [List.length_cons]
    omega

/-- The literals of a text do not match an input that does not begin with it. -/
theorem matchNodes_lits_none (a : List Nat) (ns : List Node) (k : Cont) (caps : Caps) :
    ∀ (inp : List (List Nat)) (pos : Nat), ¬ a <+: inp.flatten →
      matchNodes (a.map Node.lit ++ ns) k inp pos caps = none := by
  induction a with
  | nil => intro inp pos h; exact absurd List.nil_prefix h
  | cons b a ih =>
    intro inp pos h
    cases inp with
    | nil => simp [matchNodes]
    | cons r rest =>
      by_cases hr : r = [b]
      · subst hr
        have h2 : ¬ a <+: rest.flatten := by
          intro hp
          apply h
          simp only [List.flatten_cons, List.cons_append, List.nil_append]
          exact (List.cons_prefix_cons).mpr ⟨rfl, hp⟩
        have := ih rest (pos + 1) h2
        simpa [matchNodes] using this
      · simp [matchNodes, hr]

/-- A lazy repetition stops at the first position at which the rest of the
pattern matches. -/
theorem repeatClass_lazy (c : CharClass) (k : Cont) (rest : List (List Nat)) (caps : Caps)
    (v : Nat × Caps) :
    ∀ (pre : List (List Nat)) (pos : Nat), (∀ r ∈ pre, c.test r = true) →
      (∀ i, i < pre.length →
        k (pre.drop i ++ rest) (pos + (pre.take i).flatten.length) caps = none) →
      k rest (pos + pre.flatten.length) caps = some v →
      repeatClass c false k (pre ++ rest) pos caps = some v := by
  intro pre
  induction pre with
  | nil =>
    intro pos _ _ hk
    simp only [List.flatten_nil, List.length_nil, Nat.add_zero] at hk
    cases rest with
    | nil => simpa [repeatClass] using hk
    | cons r rest1 =>
      simp only [List.nil_append, repeatClass]
      split
      · simp [hk]
      · exact hk
  | cons r pre ih =>
    intro pos hpre hfail hk
    have hr : c.test r = true := hpre r (by simp)
    have h0 := hfail 0 (by simp)
    simp only [List.drop_zero, List.take_zero, List.flatten_nil, List.length_nil,
      Nat.add_zero] at h0
    have hrec := ih (pos + r.length) (fun q hq => hpre q (by simp [hq]))
      (fun i hi => by
        have := hfail (i + 1) (by simp; omega)
        simpa [Nat.add_assoc] using this)
      (by simpa [Nat.add_assoc] using hk)
    simp only [List.cons_append] at h0
    show repeatClass c false k (r :: (pre ++ rest)) pos caps = some v
    rw [repeatClass, if_pos hr, if_neg (by simp), h0]
    simpa using hrec

/-- A greedy repetition fails when the rest of the pattern matches at none of the
positions it can reach. -/
theorem repeatClass_greedy_none (c : CharClass) (k : Cont) (caps : Caps) :
    ∀ (inp : List (List Nat)) (pos : Nat),
      (∀ i, i ≤ inp.length → (∀ r ∈ inp.take i, c.test r = true) →
        k (inp.drop i) (pos + (inp.take i).flatten.length) caps = none) →
      repeatClass c true k inp pos caps = none := by
  intro inp
  induction inp with
  | nil =>
    intro pos h
    have := h 0 (by simp) (by simp)
    simpa [repeatClass] using this
  | cons r rest ih =>
    intro pos h
    have h0 := h 0 (by simp) (by simp)
    simp only [List.drop_zero, List.take_zero, List.flatten_nil, List.length_nil,
      Nat.add_zero] at h0
    by_cases hr : c.test r = true
    · have hrec := ih (pos + r.length) (fun i hi hall => by
        have := h (i + 1) (by simp; omega) (by
          intro q hq
          simp only [List.take_succ_cons, List.mem_cons] at hq
          rcases hq with hq | hq
          · rw [hq]; exact hr
          · exact hall q hq)
        simpa [Nat.add_assoc] using this)
      simp [repeatClass, hr, hrec, h0]
    · simp [repeatClass, hr, h0]

/-- A greedy repetition over `pre` stops before `rest` when the rest of the
pattern matches there and at no later position it can reach. -/
theorem repeatClass_greedy (c : CharClass) (k : Cont) (rest : List (List Nat)) (caps : Caps)
    (v : Nat × Caps) :
    ∀ (pre : List (List Nat)) (pos : Nat), (∀ r ∈ pre, c.test r = true) →
      k rest (pos + pre.flatten.length) caps = some v →
      (∀ i, 0 < i → i ≤ rest.length → (∀ r ∈ rest.take i, c.test r = true) →
        k (rest.drop i) (pos + pre.flatten.length + (rest.take i).flatten.length) caps
          = none) →
      repeatClass c true k (pre ++ rest) pos caps = some v := by
  intro pre
  induction pre with
  | nil =>
    intro pos _ hk hfail
    simp only [List.flatten_nil, List.length_nil, Nat.add_zero] at hk hfail
    cases rest with
    | nil => simpa [repeatClass] using hk
    | cons r rest1 =>
      by_cases hr : c.test r = true
      · have hnone := repeatClass_greedy_none c k caps rest1 (pos + r.length)
          (fun i hi hall => by
            have := hfail (i + 1) (by omega) (by simp; omega) (by
              intro q hq
              simp only [List.take_succ_cons, List.mem_cons] at hq
              rcases hq with hq | hq
              · rw [hq]; exact hr
              · exact hall q hq)
            simpa [Nat.add_assoc] using this)
        simp [repeatClass, hr, hnone, hk]
      · simp [repeatClass, hr, hk]
  | cons r pre ih =>
    intro pos hpre hk hfail
    have hr : c.test r = true := hpre r (by simp)
    have hrec := ih (pos + r.length) (fun q hq => hpre q (by simp [hq]))
      (by simpa [Nat.add_assoc] using hk)
      (fun i hi hil hall => by
        have := hfail i hi hil hall
        simpa [Nat.add_assoc] using this)
    simp [repeatClass, hr, hrec]

/-- A prefix of `u ++ v` is a prefix of `u`, or is `u` followed by a non-empty
prefix of `v`. -/
theorem prefix_append_cases (m u v : List Nat) (h : m <+: u ++ v) :
    m <+: u ∨ ∃ m2, m = u ++ m2 ∧ m2 ≠ [] ∧ m2 <+: v := by
  rcases Nat.lt_or_ge u.length m.length with hlt | hge
  · right
    have hu : u <+: m :=
      List.prefix_of_prefix_length_le (List.prefix_append u v) h (by omega)
    obtain ⟨m2, rfl⟩ := hu
    refine ⟨m2, rfl, ?_, (List.prefix_append_right_inj u).mp h⟩
    rintro rfl
    simp at hlt
  · left
    exact List.prefix_of_prefix_length_le h (List.prefix_append u v) hge

/-- A marker that begins with `<` and has no further `<` and no whitespace does
not run from a non-empty text `u` into a text `v` that begins with a whitespace
or with `<`. -/
theorem marker_within (m u v : List Nat) (hu : u ≠ [])
    (hm : ∀ b ∈ m.tail, isReSpace b = false ∧ b ≠ 60)
    (hv : ∀ b, v.head? = some b → isReSpace b = true ∨ b = 60)
    (h : m <+: u ++ v) : m <+: u := by
  rcases prefix_append_cases m u v h with h1 | ⟨m2, rfl, hm2, hp⟩
  · exact h1
  · exfalso
    cases m2 with
    | nil => exact hm2 rfl
    | cons c m3 =>
      obtain ⟨t, ht⟩ := hp
      have hvh : v.head? = some c := by rw [← ht]; rfl
      have hc : c ∈ (u ++ c :: m3).tail := by
        cases u with
        | nil => exact absurd rfl hu
        | cons a u1 => simp
      have h1 := hm c hc
      rcases hv c hvh with h2 | h2
      · rw [h1.1] at h2; exact absurd h2 (by decide)
      · exact h1.2 h2

theorem not_prefix_of_head (m1 x : List Nat) (hx : x.head? ≠ some 60) :
    ¬ (60 :: m1) <+: x := by
  rintro ⟨t, ht⟩
  apply hx
  rw [← ht]
  rfl

theorem reSpace_ne_lt (b : Nat) (h : isReSpace b = true) : b ≠ 60 := by
  rintro rfl
  exact absurd h (by decide)

theorem reSpace_lt_128 (b : Nat) (h : isReSpace b = true) : b < 128 := by
  simp only [isReSpace, Bool.decide_or, Bool.or_eq_true, decide_eq_true_eq] at h
  omega

theorem head_drop_mem (l : List Nat) (j : Nat) (b : Nat) (h : (l.drop j).head? = some b) :
    b ∈ l := by
  have : b ∈ l.drop j := by
    cases hd : l.drop j with
    | nil => rw [hd] at h; simp at h
    | cons c rest =>
      rw [hd] at h
      simp only [List.head?_cons, Option.some.injEq] at h
      simp [h]
  exact List.mem_of_mem_drop this

theorem head_append_of_ne_nil (u v : List Nat) (hu : u ≠ []) : (u ++ v).head? = u.head? := by
  cases u with
  | nil => exact absurd rfl hu
  | cons a u1 => rfl

theorem titleTail_head (w2 : List Nat) (hw2 : AllReSpace w2) :
    ∀ b, (w2 ++ bytes "</h2>").head? = some b → isReSpace b = true ∨ b = 60 := by
  intro b hb
  cases w2 with
  | nil =>
    right
    have h0 : (bytes "</h2>").head? = some 60 := by decide
    simp only [List.nil_append] at hb
    rw [h0] at hb
    simpa using hb.symm
  | cons c w =>
    left
    simp only [List.cons_append, List.head?_cons, Option.some.injEq] at hb
    subst hb
    exact hw2 c (by simp)

/-- After its first byte, the text `</div>`, whitespace, title, whitespace,
`</h2>` has no occurrence of `</div>`. -/
theorem no_div_after (w1 t w2 : List Nat) (hw1 : AllReSpace w1) (hw2 : AllReSpace w2)
    (ht : TitleText t) (j : Nat) (hj : 0 < j) :
    ¬ bytes "</div>" <+: (bytes "</div>" ++ (w1 ++ (t ++ (w2 ++ bytes "</h2>")))).drop j := by
  have hD : bytes "</div>" = [60, 47, 100, 105, 118, 62] := by decide
  have hH : bytes "</h2>" = [60, 47, 104, 50, 62] := by decide
  obtain ⟨_, _, hnd, _⟩ := ht
  rw [List.drop_append_eq_append_drop]
  by_cases h1 : j < 6
  · rw [hD]
    apply not_prefix_of_head
    interval_cases j <;> simp
  have hd0 : (bytes "</div>").drop j = [] := List.drop_eq_nil_of_le (by rw [hD]; simp; omega)
  have hl : (bytes "</div>").length = 6 := by rw [hD]; rfl
  rw [hd0, hl, List.nil_append, List.drop_append_eq_append_drop]
  by_cases h2 : j - 6 < w1.length
  · rw [hD]
    apply not_prefix_of_head
    rw [head_append_of_ne_nil _ _ (by
      intro hnil
      have := congrArg List.length hnil
      simp at this
      omega)]
    intro hh
    exact reSpace_ne_lt 60 (hw1 60 (head_drop_mem w1 _ 60 hh)) rfl
  rw [List.drop_eq_nil_of_le (by omega), List.nil_append, List.drop_append_eq_append_drop]
  by_cases h3 : j - 6 - w1.length < t.length
  · intro hp
    have hu : t.drop (j - 6 - w1.length) ≠ [] := by
      intro hnil
      have := congrArg List.length hnil
      simp at this
      omega
    have hsub : (w2 ++ bytes "</h2>").drop (j - 6 - w1.length - t.length)
        = w2 ++ bytes "</h2>" := by
      have : j - 6 - w1.length - t.length = 0 := by omega
      rw [this]
      rfl
    rw [hsub] at hp
    have hin := marker_within (bytes "</div>") _ _ hu
      (by rw [hD]; decide) (titleTail_head w2 hw2) hp
    exact hnd (hin.isInfix.trans (List.drop_suffix _ t).isInfix)
  rw [List.drop_eq_nil_of_le (by omega), List.nil_append, List.drop_append_eq_append_drop]
  by_cases h4 : j - 6 - w1.length - t.length < w2.length
  · rw [hD]
    apply not_prefix_of_head
    rw [head_append_of_ne_nil _ _ (by
      intro hnil
      have := congrArg List.length hnil
      simp at this
      omega)]
    intro hh
    exact reSpace_ne_lt 60 (hw2 60 (head_drop_mem w2 _ 60 hh)) rfl
  rw [List.drop_eq_nil_of_le (by omega), List.nil_append]
  intro hp
  have := hp.length_le
  rw [hD, hH] at this
  simp at this
  omega

/-- Inside the title text no whitespace run is followed by `</h2>`. -/
theorem no_h2_inside (t w2 u ws x : List Nat) (ht : TitleText t) (hw2 : AllReSpace w2)
    (hu : u ≠ []) (hsuf : u <:+ t) (hws : AllReSpace ws)
    (heq : u ++ (w2 ++ bytes "</h2>") = ws ++ x) : ¬ bytes "</h2>" <+: x := by
  have hH : bytes "</h2>" = [60, 47, 104, 50, 62] := by decide
  obtain ⟨_, ⟨bl, hbl, hblw⟩, _, hnh⟩ := ht
  have hx : x = (u ++ (w2 ++ bytes "</h2>")).drop ws.length := by
    rw [heq]; simp
  rcases Nat.lt_or_ge ws.length u.length with hlt | hge
  · intro hp
    rw [hx, List.drop_append_of_le_length (by omega)] at hp
    have hu1 : u.drop ws.length ≠ [] := by
      intro hnil
      have := congrArg List.length hnil
      simp at this
      omega
    have hin := marker_within (bytes "</h2>") _ _ hu1
      (by rw [hH]; decide) (titleTail_head w2 hw2) hp
    exact hnh (hin.isInfix.trans ((List.drop_suffix _ u).trans hsuf).isInfix)
  · exfalso
    have hut : u = ws.take u.length := by
      have := congrArg (List.take u.length) heq
      rw [List.take_left', List.take_append_of_le_length hge] at this
      · exact this
      · rfl
    have hlast : u.getLast? = some bl := by
      obtain ⟨p, hp⟩ := hsuf
      rw [← hp, List.getLast?_append_of_ne_nil _ hu] at hbl
      exact hbl
    have hmem : bl ∈ u := List.mem_of_getLast?_eq_some hlast
    rw [hut] at hmem
    have := hws bl (List.mem_of_mem_take hmem)
    rw [hblw] at this
    exact absurd this (by decide)

theorem flatten_drop (l : List (List Nat)) (i : Nat) :
    (l.drop i).flatten = l.flatten.drop (l.take i).flatten.length := by
  conv_rhs => rw [← List.take_append_drop i l, List.flatten_append]
  simp

theorem test_space_ascii (b : Nat) (h : isReSpace b = true) :
    CharClass.test .space [b] = true := by
  simp only [isReSpace, Bool.decide_or, Bool.or_eq_true, decide_eq_true_eq] at h
  simp only [CharClass.test]
  rcases h with h | h | h | h | h <;> subst h <;> decide

theorem test_space_inv (r : List Nat) (h : CharClass.test .space r = true) :
    ∃ b, r = [b] ∧ isReSpace b = true := by
  simp only [CharClass.test, Bool.decide_or, Bool.or_eq_true, decide_eq_true_eq] at h
  rcases h with h | h | h | h | h <;> subst h
  · exact ⟨9, rfl, by decide⟩
  · exact ⟨10, rfl, by decide⟩
  · exact ⟨12, rfl, by decide⟩
  · exact ⟨13, rfl, by decide⟩
  · exact ⟨32, rfl, by decide⟩

theorem test_space_runs (rs : List (List Nat)) (h : ∀ r ∈ rs, CharClass.test .space r = true) :
    AllReSpace rs.flatten := by
  intro b hb
  obtain ⟨r, hr, hbr⟩ := List.mem_flatten.mp hb
  obtain ⟨c, rfl, hc⟩ := test_space_inv r (h r hr)
  simp only [List.mem_singleton] at hbr
  subst hbr
  exact hc

/-- The first rune of a non-empty text begins with the first byte of the text. -/
theorem runes_of_ne_nil (t : List Nat) (ht : t ≠ []) :
    ∃ r0 rt, runes t = r0 :: rt ∧ r0.head? = t.head? := by
  cases t with
  | nil => exact absurd rfl ht
  | cons b rest =>
    refine ⟨_, _, runes_cons b rest, ?_⟩
    have hw := runeWidth_pos b rest
    obtain ⟨w, hw1⟩ : ∃ w, runeWidth (b :: rest) = w + 1 := ⟨runeWidth (b :: rest) - 1, by omega⟩
    rw [hw1]
    rfl

theorem titleText_ne_nil (t : List Nat) (ht : TitleText t) : t ≠ [] := by
  obtain ⟨⟨b, hb, _⟩, _⟩ := ht
  rintro rfl
  simp at hb

/-- After the capture: `\s*</h2>` on whitespace followed by `</h2>`. -/
theorem title_tail (k : Cont) (w2 : List Nat) (hw2 : AllReSpace w2) (pos : Nat) (caps : Caps)
    (v : Nat × Caps)
    (hk : k [] (pos + w2.length + 5) (caps.set 1 ((caps.getD 1 (0, 0)).1, pos)) = some v) :
    matchNodes (.gclose 1 :: .star .space true :: lits "</h2>") k
      (asciiRunes w2 ++ asciiRunes (bytes "</h2>")) pos caps = some v := by
  rw [matchNodes, matchNodes]
  apply repeatClass_greedy
  · intro r hr
    simp only [asciiRunes, List.mem_map] at hr
    obtain ⟨b, hb, rfl⟩ := hr
    exact test_space_ascii b (hw2 b hb)
  · have h := matchNodes_lits (bytes "</h2>") [] k []
      (caps.set 1 ((caps.getD 1 (0, 0)).1, pos)) (pos + (asciiRunes w2).flatten.length)
    simp only [List.append_nil] at h
    rw [lits, h, asciiRunes_flatten]
    exact hk
  · intro i hi _ hall
    exfalso
    have hmem : [60] ∈ (asciiRunes (bytes "</h2>")).take i := by
      obtain ⟨j, rfl⟩ : ∃ j, i = j + 1 := ⟨i - 1, by omega⟩
      have : asciiRunes (bytes "</h2>") = [60] :: asciiRunes [47, 104, 50, 62] := by decide
      rw [this]
      simp
    have := hall [60] hmem
    exact absurd this (by decide)

/-- After a part of the title text, `\s*</h2>` does not match before the end of
the text. -/
theorem title_tail_none (k : Cont) (t w2 : List Nat) (ht : TitleText t) (hw2 : AllReSpace w2)
    (ru : List (List Nat)) (hru : ru.flatten ≠ []) (hsuf : ru.flatten <:+ t) (pos : Nat)
    (caps : Caps) :
    matchNodes (.gclose 1 :: .star .space true :: lits "</h2>") k
      (ru ++ (asciiRunes w2 ++ asciiRunes (bytes "</h2>"))) pos caps = none := by
  rw [matchNodes, matchNodes]
  apply repeatClass_greedy_none
  intro i _ hall
  have h := matchNodes_lits_none (bytes "</h2>") [] k
    (caps.set 1 ((caps.getD 1 (0, 0)).1, pos))
  simp only [List.append_nil] at h
  rw [lits]
  apply h
  apply no_h2_inside t w2 ru.flatten _ _ ht hw2 hru hsuf (test_space_runs _ hall)
  rw [← List.flatten_append, List.take_append_drop]
  simp [asciiRunes_flatten]

/-- The capture `(.+?)` followed by `\s*</h2>` takes the title text. -/
theorem title_capture (k : Cont) (t w2 : List Nat) (ht : TitleText t) (hw2 : AllReSpace w2)
    (pos : Nat) (caps : Caps) (v : Nat × Caps)
    (hk : k [] (pos + t.length + w2.length + 5)
      (caps.set 1 ((caps.getD 1 (0, 0)).1, pos + t.length)) = some v) :
    matchNodes (.plus .any false :: .gclose 1 :: .star .space true :: lits "</h2>") k
      (runes t ++ (asciiRunes w2 ++ asciiRunes (bytes "</h2>"))) pos caps = some v := by
  obtain ⟨r0, rt, hrt, _⟩ := runes_of_ne_nil t (titleText_ne_nil t ht)
  have hflat : r0 ++ rt.flatten = t := by
    have := runes_flatten t
    rw [hrt] at this
    simpa using this
  have hlen : r0.length + rt.flatten.length = t.length := by
    rw [← hflat]; simp
  rw [hrt, List.cons_append, matchNodes]
  simp only [CharClass.test, if_true]
  apply repeatClass_lazy
  · intro r _; rfl
  · intro i hi
    apply title_tail_none k t w2 ht hw2
    · intro hnil
      have hne : rt.drop i ≠ [] := by
        intro h0
        have := congrArg List.length h0
        simp at this
        omega
      cases hd : rt.drop i with
      | nil => exact hne hd
      | cons q qs =>
        rw [hd] at hnil
        have hq : q ∈ runes t := by
          rw [hrt]
          exact List.mem_cons_of_mem _ (List.mem_of_mem_drop (by rw [hd]; simp))
        have hqn := runes_mem_ne_nil t q hq
        simp only [List.flatten_cons, List.append_eq_nil] at hnil
        exact hqn hnil.1
    · refine ⟨r0 ++ (rt.take i).flatten, ?_⟩
      rw [List.append_assoc, ← List.flatten_append, List.take_append_drop]
      exact hflat
  · apply title_tail k w2 hw2
    have e1 : pos + r0.length + rt.flatten.length = pos + t.length := by omega
    rw [e1]
    exact hk

/-- The items `\s*(.+?)\s*</h2>` on whitespace, the title text, whitespace and
`</h2>`: the group is the title text. -/
theorem title_space_capture (k : Cont) (w1 t w2 : List Nat) (hw1 : AllReSpace w1)
    (ht : TitleText t) (hw2 : AllReSpace w2) (pos : Nat) (caps : Caps) (v : Nat × Caps)
    (hk : k [] (pos + w1.length + t.length + w2.length + 5)
      ((caps.set 1 (pos + w1.length, pos + w1.length)).set 1
        (((caps.set 1 (pos + w1.length, pos + w1.length)).getD 1 (0, 0)).1,
          pos + w1.length + t.length)) = some v) :
    matchNodes (.star .space true :: .gopen 1 :: .plus .any false :: .gclose 1
        :: .star .space true :: lits "</h2>") k
      (asciiRunes w1 ++ (runes t ++ (asciiRunes w2 ++ asciiRunes (bytes "</h2>")))) pos caps
      = some v := by
  rw [matchNodes]
  apply repeatClass_greedy
  · intro r hr
    simp only [asciiRunes, List.mem_map] at hr
    obtain ⟨b, hb, rfl⟩ := hr
    exact test_space_ascii b (hw1 b hb)
  · rw [matchNodes, asciiRunes_flatten]
    exact title_capture k t w2 ht hw2 _ _ v hk
  · intro i hi _ hall
    exfalso
    obtain ⟨r0, rt, hrt, hhead⟩ := runes_of_ne_nil t (titleText_ne_nil t ht)
    obtain ⟨⟨b, hb, hbw⟩, _⟩ := ht
    have hmem : r0 ∈ (runes t ++ (asciiRunes w2 ++ asciiRunes (bytes "</h2>"))).take i := by
      obtain ⟨j, rfl⟩ : ∃ j, i = j + 1 := ⟨i - 1, by omega⟩
      rw [hrt]
      simp
    obtain ⟨c, hc, hcw⟩ := test_space_inv r0 (hall r0 hmem)
    rw [hc, hb] at hhead
    simp only [List.head?_cons, Option.some.injEq] at hhead
    subst hhead
    rw [hbw] at hcw
    exact absurd hcw (by decide)

/-- The items `.+</div>\s*(.+?)\s*</h2>` on non-empty markup followed by
`</div>`, whitespace, the title text, whitespace and `</h2>`. -/
theorem title_markup (k : Cont) (m0 w1 t w2 : List Nat) (hm0 : m0 ≠ [])
    (hw1 : AllReSpace w1) (ht : TitleText t) (hw2 : AllReSpace w2) (pos : Nat) (caps : Caps)
    (v : Nat × Caps)
    (hk : k [] (pos + m0.length + 6 + w1.length + t.length + w2.length + 5)
      ((caps.set 1 (pos + m0.length + 6 + w1.length, pos + m0.length + 6 + w1.length)).set 1
        (((caps.set 1 (pos + m0.length + 6 + w1.length,
            pos + m0.length + 6 + w1.length)).getD 1 (0, 0)).1,
          pos + m0.length + 6 + w1.length + t.length)) = some v) :
    matchNodes (.plus .any true :: ((bytes "</div>").map Node.lit ++
        (.star .space true :: .gopen 1 :: .plus .any false :: .gclose 1
          :: .star .space true :: lits "</h2>"))) k
      (runes m0 ++ (asciiRunes (bytes "</div>") ++
        (asciiRunes w1 ++ (runes t ++ (asciiRunes w2 ++ asciiRunes (bytes "</h2>"))))))
      pos caps = some v := by
  obtain ⟨r0, rm, hrm, _⟩ := runes_of_ne_nil m0 hm0
  have hlen : r0.length + rm.flatten.length = m0.length := by
    have := congrArg List.length (runes_flatten m0)
    rw [hrm] at this
    simpa using this
  have hDl : (bytes "</div>").length = 6 := by decide
  rw [hrm, List.cons_append, matchNodes]
  simp only [CharClass.test, if_true]
  apply repeatClass_greedy
  · intro r _; rfl
  · rw [matchNodes_lits, hDl]
    have e1 : pos + r0.length + rm.flatten.length + 6 = pos + m0.length + 6 := by omega
    rw [e1]
    exact title_space_capture k w1 t w2 hw1 ht hw2 _ _ v hk
  · intro i hi _ _
    apply matchNodes_lits_none
    rw [flatten_drop]
    have hflat : (asciiRunes (bytes "</div>") ++
        (asciiRunes w1 ++ (runes t ++ (asciiRunes w2 ++ asciiRunes (bytes "</h2>"))))).flatten
        = bytes "</div>" ++ (w1 ++ (t ++ (w2 ++ bytes "</h2>"))) := by
      simp only [List.flatten_append, asciiRunes_flatten, runes_flatten]
    rw [hflat]
    apply no_div_after w1 t w2 hw1 hw2 ht
    obtain ⟨j, rfl⟩ : ∃ j, i = j + 1 := ⟨i - 1, by omega⟩
    have hD : asciiRunes (bytes "</div>") = [60] :: asciiRunes [47, 100, 105, 118, 62] := by
      decide
    rw [hD]
    simp

/-- The items `.*?>.+</div>\s*(.+?)\s*</h2>` on attributes without `>`, a `>`,
non-empty markup and the rest of the heading. -/
theorem title_attrs (k : Cont) (a0 m0 w1 t w2 : List Nat) (ha0 : 62 ∉ a0) (hm0 : m0 ≠ [])
    (hw1 : AllReSpace w1) (ht : TitleText t) (hw2 : AllReSpace w2) (pos : Nat) (caps : Caps)
    (v : Nat × Caps)
    (hk : k [] (pos + a0.length + 1 + m0.length + 6 + w1.length + t.length + w2.length + 5)
      ((caps.set 1 (pos + a0.length + 1 + m0.length + 6 + w1.length,
          pos + a0.length + 1 + m0.length + 6 + w1.length)).set 1
        (((caps.set 1 (pos + a0.length + 1 + m0.length + 6 + w1.length,
            pos + a0.length + 1 + m0.length + 6 + w1.length)).getD 1 (0, 0)).1,
          pos + a0.length + 1 + m0.length + 6 + w1.length + t.length)) = some v) :
    matchNodes (.star .any false :: ((bytes ">").map Node.lit ++
        (.plus .any true :: ((bytes "</div>").map Node.lit ++
          (.star .space true :: .gopen 1 :: .plus .any false :: .gclose 1
            :: .star .space true :: lits "</h2>"))))) k
      (runes a0 ++ (asciiRunes (bytes ">") ++ (runes m0 ++ (asciiRunes (bytes "</div>") ++
        (asciiRunes w1 ++ (runes t ++ (asciiRunes w2 ++ asciiRunes (bytes "</h2>"))))))))
      pos caps = some v := by
  have hG : bytes ">" = [62] := by decide
  rw [matchNodes]
  apply repeatClass_lazy
  · intro r _; rfl
  · intro i hi
    apply matchNodes_lits_none
    rw [hG]
    rintro ⟨tl, htl⟩
    have hne : (runes a0).drop i ≠ [] := by
      intro h0
      have := congrArg List.length h0
      simp at this
      omega
    cases hd : (runes a0).drop i with
    | nil => exact hne hd
    | cons q qs =>
      have hq : q ∈ runes a0 := List.mem_of_mem_drop (by rw [hd]; simp)
      have hqn := runes_mem_ne_nil a0 q hq
      cases q with
      | nil => exact hqn rfl
      | cons c q1 =>
        rw [hd] at htl
        simp only [List.cons_append, List.flatten_cons, List.nil_append,
          List.cons.injEq] at htl
        have hc : c ∈ a0 := by
          rw [← runes_flatten a0]
          exact List.mem_flatten.mpr ⟨c :: q1, hq, by simp⟩
        rw [← htl.1] at hc
        exact ha0 hc
  · rw [matchNodes_lits, runes_flatten, hG]
    exact title_markup k m0 w1 t w2 hm0 hw1 ht hw2 _ _ v hk

/-- The first `>` of the attributes followed by `>` and non-empty markup, with
non-empty text after it. -/
theorem first_gt_split (markup : List Nat) (hm : markup ≠ []) :
    ∀ attrs : List Nat, ∃ a0 m0, attrs ++ 62 :: markup = a0 ++ 62 :: m0 ∧ 62 ∉ a0 ∧ m0 ≠ [] := by
  intro attrs
  induction attrs with
  | nil => exact ⟨[], markup, rfl, by simp, hm⟩
  | cons a as ih =>
    by_cases ha : a = 62
    · subst ha
      exact ⟨[], as ++ 62 :: markup, rfl, by simp, by simp⟩
    · obtain ⟨a0, m0, h1, h2, h3⟩ := ih
      refine ⟨a :: a0, m0, by simp [h1], ?_, h3⟩
      simp only [List.mem_cons, not_or]
      exact ⟨fun h => ha h.symm, h2⟩

theorem runes_append_asciiList (x a y : List Nat) (ha : ∀ b ∈ a, b < 128) (hne : a ≠ []) :
    runes (x ++ (a ++ y)) = runes x ++ (asciiRunes a ++ runes y) := by
  cases a with
  | nil => exact absurd rfl hne
  | cons c a1 =>
    have hc : c < 128 := ha c (by simp)
    rw [List.cons_append, runes_append_ascii x c _ hc,
      runes_ascii_append a1 y (fun b hb => ha b (by simp [hb]))]
    simp [asciiRunes]

theorem searchFrom_of_matchAt (re : Regexp) (inp : List (List Nat)) (pos : Nat) (c : Caps)
    (h : re.matchAt inp pos = some c) : re.searchFrom inp pos = some c := by
  cases inp with
  | nil => simpa [Regexp.searchFrom] using h
  | cons r rest => simp [Regexp.searchFrom, h]

theorem slice_mid (x t y : List Nat) :
    slice (x ++ (t ++ y)) x.length (x.length + t.length) = t := by
  simp [slice, List.take_append_eq_append_take, List.drop_append_eq_append_drop]

theorem allReSpace_lt (w : List Nat) (hw : AllReSpace w) : ∀ b ∈ w, b < 128 :=
  fun b hb => reSpace_lt_128 b (hw b hb)

/-- The title pattern on a heading whose attributes have no `>`. -/
theorem parseTitle_core (a0 m0 w1 t w2 : List Nat) (ha0 : 62 ∉ a0) (hm0 : m0 ≠ [])
    (hw1 : AllReSpace w1) (ht : TitleText t) (hw2 : AllReSpace w2) :
    parseTitle (bytes "<h2" ++ (a0 ++ (bytes ">" ++ (m0 ++ (bytes "</div>" ++
      (w1 ++ (t ++ (w2 ++ bytes "</h2>")))))))) = some (t, none) := by
  have hrunes : runes (bytes "<h2" ++ (a0 ++ (bytes ">" ++ (m0 ++ (bytes "</div>" ++
      (w1 ++ (t ++ (w2 ++ bytes "</h2>"))))))))
      = asciiRunes (bytes "<h2") ++ (runes a0 ++ (asciiRunes (bytes ">") ++ (runes m0 ++
        (asciiRunes (bytes "</div>") ++ (asciiRunes w1 ++ (runes t ++
          (asciiRunes w2 ++ asciiRunes (bytes "</h2>")))))))) := by
    rw [runes_ascii_append _ _ (by decide),
      runes_append_asciiList a0 _ _ (by decide) (by decide),
      runes_append_asciiList m0 _ _ (by decide) (by decide),
      runes_ascii_append w1 _ (allReSpace_lt w1 hw1)]
    have htail : w2 ++ bytes "</h2>" = (w2 ++ bytes "</h2>") ++ [] := by simp
    rw [htail, runes_append_asciiList t _ _
      (by
        intro b hb
        rcases List.mem_append.mp hb with h | h
        · exact allReSpace_lt w2 hw2 b h
        · have hH : ∀ c ∈ bytes "</h2>", c < 128 := by decide
          exact hH b h)
      (by
        have hne : bytes "</h2>" ≠ [] := by decide
        simp [hne]), runes_nil, List.append_nil, asciiRunes_append]
  have hnodes : reTitle.nodes
      = (bytes "<h2").map Node.lit ++ (.star .any false :: ((bytes ">").map Node.lit ++
        (.plus .any true :: ((bytes "</div>").map Node.lit ++
          (.star .space true :: .gopen 1 :: .plus .any false :: .gclose 1
            :: .star .space true :: lits "</h2>"))))) := by
    simp [reTitle, lits]
  have hmatch := title_attrs (fun _ e caps => some (e, caps)) a0 m0 w1 t w2 ha0 hm0 hw1 ht hw2
    (0 + (bytes "<h2").length) (List.replicate (reTitle.numSubexp + 1) (0, 0)) _ rfl
  have hat : reTitle.matchAt (runes (bytes "<h2" ++ (a0 ++ (bytes ">" ++ (m0 ++
      (bytes "</div>" ++ (w1 ++ (t ++ (w2 ++ bytes "</h2>"))))))))) 0
      = some [(0, 3 + a0.length + 1 + m0.length + 6 + w1.length + t.length + w2.length + 5),
          (3 + a0.length + 1 + m0.length + 6 + w1.length,
            3 + a0.length + 1 + m0.length + 6 + w1.length + t.length)] := by
    unfold Regexp.matchAt
    rw [hnodes, hrunes, matchNodes_lits, hmatch]
    have h3 : (bytes "<h2").length = 3 := by decide
    simp [h3, reTitle]
  unfold parseTitle getFirstMatch Regexp.FindSubmatch
  rw [searchFrom_of_matchAt _ _ _ _ hat]
  simp only [Option.map_some', List.map_cons, List.map_nil]
  have hx : 3 + a0.length + 1 + m0.length + 6 + w1.length
      = (bytes "<h2" ++ (a0 ++ (bytes ">" ++ (m0 ++ (bytes "</div>" ++ w1))))).length := by
    have h3 : (bytes "<h2").length = 3 := by decide
    have h1 : (bytes ">").length = 1 := by decide
    have h6 : (bytes "</div>").length = 6 := by decide
    simp only [List.length_append, h3, h1, h6]
    omega
  have hs : slice (bytes "<h2" ++ (a0 ++ (bytes ">" ++ (m0 ++ (bytes "</div>" ++
      (w1 ++ (t ++ (w2 ++ bytes "</h2>"))))))))
      (3 + a0.length + 1 + m0.length + 6 + w1.length)
      (3 + a0.length + 1 + m0.length + 6 + w1.length + t.length) = t := by
    rw [hx]
    have := slice_mid (bytes "<h2" ++ (a0 ++ (bytes ">" ++ (m0 ++ (bytes "</div>" ++ w1))))) t
      (w2 ++ bytes "</h2>")
    simpa [List.append_assoc] using this
  simp [hs]

/-- The title of a heading region with non-empty markup. -/
theorem parseTitle_region (attrs markup w1 t w2 : List Nat) (hm : markup ≠ [])
    (hw1 : AllReSpace w1) (hw2 : AllReSpace w2) (ht : TitleText t) :
    parseTitle (titleRegion attrs markup w1 t w2) = some (t, none) := by
  obtain ⟨a0, m0, heq, ha0, hm0⟩ := first_gt_split markup hm attrs
  have hG : bytes ">" = [62] := by decide
  have hreg : titleRegion attrs markup w1 t w2
      = bytes "<h2" ++ (a0 ++ (bytes ">" ++ (m0 ++ (bytes "</div>" ++
        (w1 ++ (t ++ (w2 ++ bytes "</h2>"))))))) := by
    unfold titleRegion
    simp only [List.append_assoc, hG, List.singleton_append]
    have := congrArg (fun l => bytes "<h2" ++ (l ++ (bytes "</div>" ++
      (w1 ++ (t ++ (w2 ++ bytes "</h2>")))))) heq
    simpa [List.append_assoc] using this
  rw [hreg]
  exact parseTitle_core a0 m0 w1 t w2 ha0 hm0 hw1 ht hw2

set_option maxRecDepth 100000 in
/-- C21 (as stated) fails: the region `<h2 id="x"></div>T</h2>` has the form of a
heading region with empty markup and the title text `T`, and `parseTitle`
returns the not-found error: the pattern asks for at least one character
between the first `>` and `</div>`. -/
theorem parseTitle_empty_markup_counterexample :
    titleRegion (bytes " id=\"x\"") [] [] (bytes "T") [] = bytes "<h2 id=\"x\"></div>T</h2>" ∧
    TitleText (bytes "T") ∧
    parseTitle (titleRegion (bytes " id=\"x\"") [] [] (bytes "T") [])
      = some ([], some ParseError.notFound) := by
  decide

/-- C21 (amended): title extraction returns the trimmed inner text. For every
heading region of the form `<h2`, attributes, `>`, non-empty markup, `</div>`,
whitespace, `T`, whitespace, `</h2>`, where the whitespace is of the class `\s`
and `T` is non-empty, has no leading or trailing whitespace and contains neither
`</div>` nor `</h2>`, `parseTitle` returns exactly `T` with no error, whatever
the attributes and the markup before `</div>` are. -/
theorem parseTitle_returns_title (attrs markup w1 t w2 : List Nat) (hm : markup ≠ [])
    (hw1 : AllReSpace w1) (hw2 : AllReSpace w2) (ht : TitleText t) :
    parseTitle (titleRegion attrs markup w1 t w2) = some (t, none) :=
  parseTitle_region attrs markup w1 t w2 hm hw1 hw2 ht

set_option maxRecDepth 100000 in
/-- Witness for C21 (amended): the heading of `Test_parseTitle`, and the text of
the test with its surrounding line feeds. -/
theorem parseTitle_returns_title_witness :
    titleRegion (bytes " style=\"position: relative\"")
        (bytes ("\n  <a href=\"#payments\" class=\"anchor before\">\n"
          ++ "    <svg viewBox=\"0 0 16 16\" width=\"16\"></svg>\n  </a>\n"
          ++ "  <div class=\"hidden-anchor\" id=\"payments\">"))
        (bytes "\n  ") (bytes "Billing plans and agreements") (bytes "\n")
      = bytes ("<h2 style=\"position: relative\">\n"
          ++ "  <a href=\"#payments\" class=\"anchor before\">\n"
          ++ "    <svg viewBox=\"0 0 16 16\" width=\"16\"></svg>\n  </a>\n"
          ++ "  <div class=\"hidden-anchor\" id=\"payments\"></div>\n"
          ++ "  Billing plans and agreements\n</h2>") ∧
    AllReSpace (bytes "\n  ") ∧ AllReSpace (bytes "\n") ∧
    TitleText (bytes "Billing plans and agreements") ∧
    parseTitle (titleRegion (bytes " style=\"position: relative\"")
        (bytes ("\n  <a href=\"#payments\" class=\"anchor before\">\n"
          ++ "    <svg viewBox=\"0 0 16 16\" width=\"16\"></svg>\n  </a>\n"
          ++ "  <div class=\"hidden-anchor\" id=\"payments\">"))
        (bytes "\n  ") (bytes "Billing plans and agreements") (bytes "\n"))
      = some (bytes "Billing plans and agreements", none) ∧
    parseTitle (bytes ("\n<h2 style=\"position: relative\">\n"
          ++ "  <a href=\"#payments\" class=\"anchor before\">\n"
          ++ "    <svg viewBox=\"0 0 16 16\" width=\"16\"></svg>\n  </a>\n"
          ++ "  <div class=\"hidden-anchor\" id=\"payments\"></div>\n"
          ++ "  Billing plans and agreements\n</h2>\n"))
      = some (bytes "Billing plans and agreements", none) :=
  ⟨by decide!, by decide, by decide, by decide!,
   parseTitle_returns_title _ _ _ _ _ (by decide!) (by decide) (by decide) (by decide!),
   by decide!⟩

/-! ### A region without a later heading -/

/-- When no `<h2 ` occurs at or after the cursor, `findRegion` returns `nil`
whatever the markers find: `nextH2` is the sentinel `-1`, which is not 0, is
not `startIndex` and is below `startIndex+endDiff`, so the guard fires. -/
theorem findRegion_nil_without_heading (bs start endM : List Nat) (c : Nat)
    (hs : start ≠ []) (he : endM ≠ []) (hc : c ≤ bs.length)
    (hno : ∀ k, c ≤ k → ¬ OccursAt bs h2Marker k) :
    findRegion bs start endM c = some (none, c) := by
  unfold findRegion
  rw [if_neg (by omega)]
  rcases findBytes_drop_spec bs start c hs hc with ⟨h1, _⟩ | ⟨s, hS, h1⟩
  · rw [h1]; simp
  rw [h1]
  simp only []
  have hcs : c ≤ s := hS.1
  have hsl : s ≤ bs.length := hS.2.1.1
  have hidx : c + ((s - c : Nat) : Int).toNat = s := by
    rw [Int.toNat_ofNat]; omega
  rw [if_neg (by omega), hidx]
  rcases findBytes_drop_spec bs endM s he hsl with ⟨h2, _⟩ | ⟨e, hE, h2⟩
  · rw [h2]; simp
  rw [h2]
  simp only []
  have hse : s ≤ e := hE.1
  rw [if_neg (by omega)]
  rcases findBytes_drop_spec bs h2Marker c (by decide) hc with ⟨h3, _⟩ | ⟨h0, hH, _⟩
  · rw [h3]
    simp only []
    rw [if_pos (by omega)]
  · exact absurd hH.2.1 (hno h0 hH.1)

set_option maxRecDepth 100000 in
/-- C1 fails on the code. The buffer `<p>a</p>` is well delimited for the markers
`<p>` and `</p>` from cursor 0 (start marker at 0, end marker at 4, no `<h2 `
between them), and `findRegion` returns `nil`: no `<h2 ` occurs after the
cursor, so `nextH2` is `-1` and the guard, which compares it as an index,
fires. With a `<h2 ` after the region the same search returns `<p>a</p>`. In a
document the last group loses its description and its table: without a
heading after the table `parsePayPal` returns the group `T` with neither, and
with `<h2 ` appended it returns the description `d` and the webhook `A.B`. -/
theorem findRegion_last_region_lost :
    WellDelimited (bytes "<p>a</p>") (bytes "<p>") (bytes "</p>") 0 0 4 ∧
    findRegion (bytes "<p>a</p>") (bytes "<p>") (bytes "</p>") 0 = some (none, 0) ∧
    findRegion (bytes "<p>a</p><h2 ") (bytes "<p>") (bytes "</p>") 0
      = some (some (bytes "<p>a</p>"), 8) ∧
    parsePayPal GoUnicode.identity
        (bytes ("<h2 >a</div>T</h2><p>d</p><tbody><tr><td><code>A.B</code></td><td>t</td>"
          ++ "<td></td></tr></tbody>"))
      = some ([⟨bytes "T", ⟨[], []⟩, []⟩], none) ∧
    parsePayPal GoUnicode.identity
        (bytes ("<h2 >a</div>T</h2><p>d</p><tbody><tr><td><code>A.B</code></td><td>t</td>"
          ++ "<td></td></tr></tbody><h2 "))
      = some ([⟨bytes "T", ⟨bytes "d", []⟩,
          [([], [⟨false, bytes "AB", bytes "A.B", ⟨bytes "t", []⟩, ⟨[], []⟩⟩])]⟩], none) := by
  decide!

end Paypalc
